import Mathlib

/-
  Verification of the go-rag document pipeline.

  Shallow embedding of the Go sources:
    internal/chunk/chunk.go      (text chunker)
    internal/types/types.go      (chunk identity)
    internal/ranker/ranker.go    (ranking)
    internal/generate/generate.go (generation orchestrator)
    internal/store  (qdrant payload codec)
    internal/ingest (directory ingestion)

  Go strings are byte strings; they are modelled as lists of characters,
  which is byte-exact on the ASCII inputs used in the concrete theorems.
  Go `int`/`int64` are modelled as `Int`, `uint64` as `Nat` with explicit
  reduction modulo 2^64 where overflow can occur.  Loops are modelled with
  explicit fuel; a `none` result for every fuel witnesses non-termination
  of the source loop.
-/

namespace GoRag

/-- Go strings, modelled as lists of characters. -/
abbrev GoStr := List Char

/-- Go unicode.IsSpace: membership in the Unicode White_Space set
    (as tabulated in the Go unicode package). -/
def isGoSpace (c : Char) : Bool :=
  ([9, 10, 11, 12, 13, 32, 0x85, 0xA0, 0x1680,
    0x2000, 0x2001, 0x2002, 0x2003, 0x2004, 0x2005, 0x2006, 0x2007,
    0x2008, 0x2009, 0x200A, 0x2028, 0x2029, 0x202F, 0x205F, 0x3000] : List Nat).contains c.toNat

/-- Helper for Go strings.Fields: accumulates the current field (reversed)
    while scanning; fields are maximal runs of non-space characters. -/
def fieldsAux : GoStr → GoStr → List GoStr
  | [], cur => if cur.isEmpty then [] else [cur.reverse]
  | c :: rest, cur =>
    if isGoSpace c then
      if cur.isEmpty then fieldsAux rest [] else cur.reverse :: fieldsAux rest []
    else fieldsAux rest (c :: cur)

/-- Go strings.Fields: split around maximal runs of white space. -/
def goFields (s : GoStr) : List GoStr := fieldsAux s []

/-- Go strings.Join. -/
def goJoin (sep : GoStr) : List GoStr → GoStr
  | [] => []
  | [x] => x
  | x :: y :: xs => x ++ sep ++ goJoin sep (y :: xs)

/-- Helper: does `s` start with `p`? (Go strings.HasPrefix). -/
def startsWithStr : GoStr → GoStr → Bool
  | _, [] => true
  | [], _ :: _ => false
  | c :: s, p :: ps => c == p && startsWithStr s ps

/-- Helper for Go strings.ReplaceAll, fuelled by the input length
    (each step consumes at least one character when the pattern is non-empty,
    which is the only way it is used in the sources). -/
def goReplaceAllAux (pat rep : GoStr) : Nat → GoStr → GoStr
  | 0, s => s
  | _ + 1, [] => []
  | fuel + 1, c :: rest =>
    if startsWithStr (c :: rest) pat then
      rep ++ goReplaceAllAux pat rep fuel ((c :: rest).drop pat.length)
    else
      c :: goReplaceAllAux pat rep fuel rest

/-- Go strings.ReplaceAll: replace non-overlapping occurrences left to right. -/
def goReplaceAll (s pat rep : GoStr) : GoStr := goReplaceAllAux pat rep s.length s

/-- Go strings.TrimSpace. -/
def goTrimSpace (s : GoStr) : GoStr :=
  ((s.dropWhile isGoSpace).reverse.dropWhile isGoSpace).reverse

/-- Chunking service configuration (internal/chunk/chunk.go, struct Service). -/
structure Service where
  chunkSize : Int
  chunkOverlap : Int
deriving Repr, DecidableEq

/-- NewService (chunk.go lines 15-30): defaulting and clamping of the
    chunk size and overlap. -/
def NewService (chunkSize chunkOverlap : Int) : Service :=
  let cs := if chunkSize ≤ 0 then 1000 else chunkSize
  let co := if chunkOverlap < 0 then 200 else chunkOverlap
  let co2 := if co ≥ cs then Int.tdiv cs 4 else co
  ⟨cs, co2⟩

/-- Byte access text[i] (Go panics when out of range; all uses below are
    in range, the default is arbitrary). -/
def charAt (s : GoStr) (i : Int) : Char := s.getD i.toNat (Char.ofNat 0)

/-- Go slice text[a:b]. -/
def goSlice (s : GoStr) (a b : Int) : GoStr := (s.take b.toNat).drop a.toNat

/-- First scan of findBestBreakPoint: sentence terminator followed by a space,
    scanning i downward while i > lo; fuel = number of remaining iterations. -/
def scanSentence (text : GoStr) : Nat → Int → Option Int
  | 0, _ => none
  | fuel + 1, i =>
    if charAt text i == '.' || charAt text i == '!' || charAt text i == '?' then
      if decide (i + 1 < (text.length : Int)) && isGoSpace (charAt text (i + 1)) then
        some (i + 1)
      else scanSentence text fuel (i - 1)
    else scanSentence text fuel (i - 1)

/-- Second scan of findBestBreakPoint: newline. -/
def scanNewline (text : GoStr) : Nat → Int → Option Int
  | 0, _ => none
  | fuel + 1, i =>
    if charAt text i == '\n' then some (i + 1)
    else scanNewline text fuel (i - 1)

/-- Third scan of findBestBreakPoint: any white space. -/
def scanSpaceBreak (text : GoStr) : Nat → Int → Option Int
  | 0, _ => none
  | fuel + 1, i =>
    if isGoSpace (charAt text i) then some (i + 1)
    else scanSpaceBreak text fuel (i - 1)

/-- findBestBreakPoint (chunk.go lines 89-116): sentence end, then newline,
    then word boundary, scanning backward while i > start + chunkSize/2;
    falls back to maxEnd. -/
def findBestBreakPoint (s : Service) (text : GoStr) (start maxEnd : Int) : Int :=
  let lo := start + Int.tdiv s.chunkSize 2
  let fuel := (maxEnd - 1 - lo).toNat
  match scanSentence text fuel (maxEnd - 1) with
  | some r => r
  | none =>
    match scanNewline text fuel (maxEnd - 1) with
    | some r => r
    | none =>
      match scanSpaceBreak text fuel (maxEnd - 1) with
      | some r => r
      | none => maxEnd

/-- cleanText (chunk.go lines 78-86): collapse white space runs, then replace
    a triple newline by a double one, then trim. -/
def cleanText (text : GoStr) : GoStr :=
  goTrimSpace (goReplaceAll (goJoin [' '] (goFields text)) ['\n', '\n', '\n'] ['\n', '\n'])

/-- Main loop of ChunkText (chunk.go lines 49-72), one fuel unit per
    iteration; `none` means the fuel ran out before the loop exited. -/
def chunkLoop (s : Service) (text : GoStr) : Nat → Int → List GoStr → Option (List GoStr)
  | 0, _, _ => none
  | fuel + 1, start, chunks =>
    if start < (text.length : Int) then
      let end0 := start + s.chunkSize
      let end1 := if end0 > (text.length : Int) then (text.length : Int) else end0
      let end2 := if end1 < (text.length : Int) then findBestBreakPoint s text start end1 else end1
      let piece := goTrimSpace (goSlice text start end2)
      let start1 := end2 - s.chunkOverlap
      let start2 := if start1 ≤ 0 then end2 else start1
      chunkLoop s text fuel start2 (chunks ++ [piece])
    else some chunks

/-- ChunkText (chunk.go lines 33-75): empty check, normalization, single-chunk
    shortcut, then the sliding window loop. -/
def chunkText (s : Service) (text : GoStr) (fuel : Nat) : Option (List GoStr) :=
  if text.isEmpty then some []
  else
    let t := cleanText text
    if (t.length : Int) ≤ s.chunkSize then some [t]
    else chunkLoop s t fuel 0 []

/-! Facts used by the chunker claims. -/

theorem fieldsAux_all_space (text : GoStr) (h : ∀ c ∈ text, isGoSpace c = true) :
    fieldsAux text [] = [] := by
  induction text with
  | nil => rfl
  | cons c rest ih =>
    have hc : isGoSpace c = true := h c (List.mem_cons_self c rest)
    simp only [fieldsAux, hc, if_true, List.isEmpty_nil, if_pos]
    exact ih (fun x hx => h x (List.mem_cons_of_mem c hx))

theorem cleanText_all_space (text : GoStr) (h : ∀ c ∈ text, isGoSpace c = true) :
    cleanText text = [] := by
  unfold cleanText goFields
  rw [fieldsAux_all_space text h]
  rfl

theorem NewService_chunkSize_pos (cs co : Int) : 0 < (NewService cs co).chunkSize := by
  have hrw : (NewService cs co).chunkSize = if cs ≤ 0 then 1000 else cs := rfl
  rw [hrw]
  by_cases h : cs ≤ 0
  · rw [if_pos h]; omega
  · rw [if_neg h]; omega

/-- C10: a non-empty all-white-space input is normalized to the empty string
    only after the empty-input check has already passed, so ChunkText returns
    the one-element sequence containing the empty string. -/
theorem chunkText_whitespace_singleton_empty (cs co : Int) (fuel : Nat) (text : GoStr)
    (hne : text ≠ []) (hsp : ∀ c ∈ text, isGoSpace c = true) :
    chunkText (NewService cs co) text fuel = some [[]] := by
  unfold chunkText
  have hne' : text.isEmpty = false := by
    cases text with
    | nil => exact absurd rfl hne
    | cons c rest => rfl
  rw [hne']
  simp only [Bool.false_eq_true, if_false]
  rw [cleanText_all_space text hsp]
  have hpos := NewService_chunkSize_pos cs co
  have hle : (([] : GoStr).length : Int) ≤ (NewService cs co).chunkSize := by
    simp only [List.length_nil, Int.natCast_zero]
    omega
  rw [if_pos hle]

/-- Witness for the C10 theorem at a concrete input. -/
theorem chunkText_whitespace_singleton_empty_witness :
    ([' '] ≠ ([] : GoStr)) ∧ (∀ c ∈ ([' '] : GoStr), isGoSpace c = true) ∧
      chunkText (NewService 10 2) [' '] 0 = some [[]] :=
  ⟨by decide, by decide,
    chunkText_whitespace_singleton_empty 10 2 0 [' '] (by decide) (by decide)⟩

/-- Input on which ChunkText loops forever with chunkSize 10 and overlap 9:
    the string "aaaaaaaa. aaaaaaa. a" (20 characters, already normalized). -/
def badText : GoStr :=
  List.replicate 8 'a' ++ ['.', ' '] ++ List.replicate 7 'a' ++ ['.', ' '] ++ ['a']

theorem chunkLoop_badText_stuck :
    ∀ fuel chunks, chunkLoop (NewService 10 9) badText fuel 9 chunks = none := by
  intro fuel
  induction fuel with
  | zero => intro chunks; rfl
  | succ n ih =>
    intro chunks
    exact ih (chunks ++ [goTrimSpace (goSlice badText 9 18)])

/-- C1: ChunkText does not terminate on `badText` with chunkSize 10 and
    overlap 9: the window start goes 0, 9, 9, 9, ... (the cut is found at 18,
    and 18 - 9 = 9 again), so for every fuel the loop fails to finish,
    refuting both termination and strictly increasing start positions. -/
theorem chunkText_badText_nonterminating :
    ∀ fuel, chunkText (NewService 10 9) badText fuel = none := by
  intro fuel
  cases fuel with
  | zero => rfl
  | succ n =>
    show chunkLoop (NewService 10 9) badText (n + 1) 0 [] = none
    exact chunkLoop_badText_stuck n ([] ++ [goTrimSpace (goSlice badText 0 9)])

/-! Chunk identity (internal/types/types.go, GenerateChunkID). -/

/-- Go hash/fnv 64-bit FNV-1a offset basis. -/
def fnvOffset64 : Nat := 14695981039346656037

/-- Go hash/fnv 64-bit FNV prime. -/
def fnvPrime64 : Nat := 1099511628211

/-- Go hash/fnv sum64a.Write: per byte, xor then multiply, in uint64
    arithmetic (reduction modulo 2^64). -/
def fnv1aWrite (h : Nat) : List Nat → Nat
  | [] => h
  | b :: bs => fnv1aWrite (((h ^^^ b) * fnvPrime64) % 2 ^ 64) bs

/-- Spec-side statement of the 64-bit FNV-1a hash of a byte string, as a
    fold of the standard FNV-1a recurrence from the offset basis. -/
def fnv1a64Spec (bytes : List Nat) : Nat :=
  bytes.foldl (fun h b => ((h ^^^ b) * fnvPrime64) % 2 ^ 64) fnvOffset64

/-- UTF-8 encoding of one character. -/
def utf8EncodeChar (c : Char) : List Nat :=
  let n := c.toNat
  if n < 0x80 then [n]
  else if n < 0x800 then [0xC0 + n / 0x40, 0x80 + n % 0x40]
  else if n < 0x10000 then [0xE0 + n / 0x1000, 0x80 + (n / 0x40) % 0x40, 0x80 + n % 0x40]
  else [0xF0 + n / 0x40000, 0x80 + (n / 0x1000) % 0x40, 0x80 + (n / 0x40) % 0x40, 0x80 + n % 0x40]

/-- UTF-8 bytes of a Go string. -/
def utf8Encode (s : GoStr) : List Nat := (s.map utf8EncodeChar).flatten

/-- Decimal digits of a natural number (fuelled by the number itself). -/
def natDecAux : Nat → Nat → List Char
  | 0, _ => []
  | fuel + 1, n =>
    if n < 10 then [Char.ofNat (48 + n)]
    else natDecAux fuel (n / 10) ++ [Char.ofNat (48 + n % 10)]

/-- Decimal representation of a natural number. -/
def natDec (n : Nat) : List Char := natDecAux (n + 1) n

/-- Go fmt %d for an int. -/
def intDec (i : Int) : List Char :=
  if i < 0 then '-' :: natDec (-i).toNat else natDec i.toNat

/-- GenerateChunkID (types.go lines 277-281): the 64-bit FNV-1a hash of the
    bytes of "documentID_chunkIndex". -/
def GenerateChunkID (documentID : GoStr) (chunkIndex : Int) : Nat :=
  fnv1aWrite fnvOffset64 (utf8Encode (documentID ++ '_' :: intDec chunkIndex))

theorem fnv1aWrite_eq_foldl (bs : List Nat) :
    ∀ h, fnv1aWrite h bs = bs.foldl (fun h b => ((h ^^^ b) * fnvPrime64) % 2 ^ 64) h := by
  induction bs with
  | nil => intro h; rfl
  | cons b rest ih => intro h; simp only [fnv1aWrite, List.foldl_cons]; exact ih _

/-- C8: GenerateChunkID is a pure function of (document id, chunk index): it
    equals the 64-bit FNV-1a hash of the UTF-8 bytes of "d_i", and repeated
    calls with identical inputs trivially agree. -/
theorem GenerateChunkID_eq_fnv1a (d : GoStr) (i : Int) :
    GenerateChunkID d i = fnv1a64Spec (utf8Encode (d ++ '_' :: intDec i)) ∧
      GenerateChunkID d i = GenerateChunkID d i :=
  ⟨fnv1aWrite_eq_foldl _ _, rfl⟩

/-- Sanity: the standard FNV-1a 64 test vector for "a". -/
theorem fnv1a64_vector_a : fnv1a64Spec (utf8Encode ['a']) = 0xaf63dc4c8601ec8c := by decide

/-! Document id derivation (ingest, generateDocumentID). -/

/-- generateDocumentID (ingest part, lines 204-210): replace every path
    separator (Unix: the slash) by an underscore, then strings.TrimLeft with
    cutset "./" (drop all leading dots and slashes). -/
def generateDocumentID (filePath : GoStr) : GoStr :=
  let docID := goReplaceAll filePath ['/'] ['_']
  docID.dropWhile (fun c => c == '.' || c == '/')

/-- Spec-modelled document id, following the claim wording: strip a leading
    "./" prefix, and replace every separator by an underscore. -/
def specDocumentID (filePath : GoStr) : GoStr :=
  let stripped := if startsWithStr filePath ['.', '/'] then filePath.drop 2 else filePath
  goReplaceAll stripped ['/'] ['_']

theorem goReplaceAllAux_single (c r : Char) :
    ∀ (fuel : Nat) (s : GoStr), s.length ≤ fuel →
      goReplaceAllAux [c] [r] fuel s = s.map (fun x => if x == c then r else x) := by
  intro fuel
  induction fuel with
  | zero =>
    intro s hs
    cases s with
    | nil => rfl
    | cons x xs => simp at hs
  | succ n ih =>
    intro s hs
    cases s with
    | nil => rfl
    | cons x xs =>
      simp only [goReplaceAllAux, startsWithStr, Bool.and_true, List.map_cons]
      by_cases hx : x == c
      · simp only [hx, if_true, List.length_cons, List.length_nil, List.drop_succ_cons,
          List.drop_zero, List.singleton_append]
        rw [ih xs (by simpa using Nat.le_of_succ_le_succ hs)]
      · simp only [hx, Bool.false_eq_true, if_false]
        rw [ih xs (by simpa using Nat.le_of_succ_le_succ hs)]

/-- C9 counterexample: for the path "./a.txt" the derived id is "_a.txt",
    which retains the converted separator of the "./" prefix and differs from
    the spec-described id "a.txt". -/
theorem generateDocumentID_dotSlash_residue :
    generateDocumentID ('.' :: '/' :: ['a', '.', 't', 'x', 't']) = '_' :: ['a', '.', 't', 'x', 't'] ∧
      specDocumentID ('.' :: '/' :: ['a', '.', 't', 'x', 't']) = ['a', '.', 't', 'x', 't'] ∧
      generateDocumentID ('.' :: '/' :: ['a', '.', 't', 'x', 't']) ≠
        specDocumentID ('.' :: '/' :: ['a', '.', 't', 'x', 't']) := by
  refine ⟨by decide, by decide, by decide⟩

/-- C9 amended: for every path beginning with "./", the id is an underscore
    followed by the remainder with separators replaced by underscores — the
    dot is trimmed but the separator, already turned into an underscore
    before trimming, remains. -/
theorem generateDocumentID_dotSlash (r : GoStr) :
    generateDocumentID ('.' :: '/' :: r) = '_' :: r.map (fun c => if c == '/' then '_' else c) := by
  unfold generateDocumentID goReplaceAll
  rw [goReplaceAllAux_single '/' '_' ('.' :: '/' :: r).length ('.' :: '/' :: r) le_rfl]
  rfl

/-! Shared data model (internal/types/types.go). -/

/-- Go time.Time, modelled as an instant: seconds since 0001-01-01T00:00:00
    UTC (Go's zero time is then ⟨0, 0⟩) plus nanoseconds within the second.
    The location is modelled as UTC. -/
structure GoTime where
  sec : Int
  nsec : Nat
deriving Repr, DecidableEq

/-- Metadata (types.go): chunk metadata; the open Custom map is modelled as
    an association list with unique keys (Go map iteration order is
    irrelevant to the lookups below). -/
structure Metadata where
  title : GoStr
  author : GoStr
  source : GoStr
  tags : List GoStr
  language : GoStr
  contentType : GoStr
  custom : List (GoStr × GoStr)
deriving Repr, DecidableEq

/-- DocumentChunk (types.go): id is a uint64. -/
structure DocumentChunk where
  id : Nat
  documentID : GoStr
  content : GoStr
  chunkIndex : Int
  metadata : Metadata
  createdAt : GoTime
  updatedAt : GoTime
deriving Repr, DecidableEq

/-- RankedChunk (types.go): a chunk plus a query-scoped score.  The Go score
    is a float64; it is modelled as a rational, which is exact for the
    integer-count-over-term-count scores the ranker produces on the small
    inputs considered here. -/
structure RankedChunk where
  chunk : DocumentChunk
  score : ℚ
deriving Repr, DecidableEq

/-! Directory ingestion (ingest part, IngestDirectory / processFile).
    The file system and the chunk-and-store pipeline are external
    collaborators, passed as oracles: `readFile` models os.ReadFile and
    `ingestText` models Service.IngestText (chunk, id, upsert). -/

/-- FileIngestResult (types.go). -/
structure FileIngestResult where
  filePath : GoStr
  documentID : GoStr
  status : GoStr
  error : GoStr
deriving Repr, DecidableEq

/-- IngestResponse (types.go). -/
structure IngestResponse where
  documentID : GoStr
  chunksCount : Int
  status : GoStr
  processingTime : GoStr
deriving Repr, DecidableEq

/-- DirectoryIngestResponse (types.go).  ProcessingTime is wall-clock text
    produced from the external clock; it is modelled as the empty string. -/
structure DirectoryIngestResponse where
  directoryPath : GoStr
  processedFiles : Int
  successfulIngestions : List IngestResponse
  errors : List GoStr
  processingTime : GoStr
deriving Repr, DecidableEq

/-- processFile (ingest part, lines 160-201): derive the id, read the file,
    skip empty content, else ingest; failures are reported in the result,
    never thrown. -/
def processFile (readFile : GoStr → Except GoStr GoStr)
    (ingestText : GoStr → GoStr → Except GoStr Int) (filePath : GoStr) : FileIngestResult :=
  let docID := generateDocumentID filePath
  match readFile filePath with
  | .error e => ⟨filePath, docID, "failed".toList, ("failed to read file: ".toList) ++ e⟩
  | .ok content =>
    if content.length = 0 then
      ⟨filePath, docID, "skipped".toList, "file is empty".toList⟩
    else
      match ingestText docID content with
      | .error e => ⟨filePath, docID, "failed".toList, ("failed to ingest: ".toList) ++ e⟩
      | .ok _ => ⟨filePath, docID, "success".toList, []⟩

/-- Aggregation loop of IngestDirectory (lines 91-102): a result with a
    non-empty Error string goes to the error list as "path: error", any other
    result becomes a successful-ingestion entry (chunk count not filled in). -/
def aggregateResults : List FileIngestResult → List IngestResponse × List GoStr
  | [] => ([], [])
  | r :: rest =>
    let acc := aggregateResults rest
    if r.error.isEmpty then
      (⟨r.documentID, 0, r.status, []⟩ :: acc.1, acc.2)
    else
      (acc.1, (r.filePath ++ (": ".toList) ++ r.error) :: acc.2)

/-- IngestDirectory (lines 78-111) after the directory scan: `files` is the
    list of matching files produced by scanDirectory. -/
def IngestDirectory (readFile : GoStr → Except GoStr GoStr)
    (ingestText : GoStr → GoStr → Except GoStr Int)
    (dirPath : GoStr) (files : List GoStr) : DirectoryIngestResponse :=
  let results := files.map (processFile readFile ingestText)
  let acc := aggregateResults results
  ⟨dirPath, (files.length : Int), acc.1, acc.2, []⟩

/-- Concrete file system for the C3 scenario: two non-empty files and one
    empty file. -/
def exReadFile : GoStr → Except GoStr GoStr := fun p =>
  if p == ("a.txt".toList) then .ok ("x".toList)
  else if p == ("b.txt".toList) then .ok ("y".toList)
  else .ok []

/-- Concrete always-succeeding ingestion oracle. -/
def exIngest : GoStr → GoStr → Except GoStr Int := fun _ _ => .ok 1

/-- C3 counterexample: with two non-empty files and one empty file (all
    ingestions succeeding), the skipped-empty file lands in the error list
    ("c.txt: file is empty"), so the error list is not empty as claimed. -/
theorem ingestDirectory_skip_lands_in_errors :
    IngestDirectory exReadFile exIngest ("d".toList)
        ["a.txt".toList, "b.txt".toList, "c.txt".toList] =
      ⟨"d".toList, 3,
        [⟨"a.txt".toList, 0, "success".toList, []⟩, ⟨"b.txt".toList, 0, "success".toList, []⟩],
        ["c.txt: file is empty".toList], []⟩ ∧
      (IngestDirectory exReadFile exIngest ("d".toList)
          ["a.txt".toList, "b.txt".toList, "c.txt".toList]).errors ≠ [] := by
  refine ⟨by decide, by decide⟩

/-- C3 amended: for a directory scan yielding two non-empty readable files
    and one empty file, with every ingestion succeeding, IngestDirectory
    reports processed_files = 3 and two successful ingestions, and the
    skipped-empty file is recorded as the single entry "path: file is empty"
    of the error list (not as a separate outcome); the batch is not
    aborted. -/
theorem ingestDirectory_two_files_one_empty
    (readFile : GoStr → Except GoStr GoStr) (ingestText : GoStr → GoStr → Except GoStr Int)
    (dir f1 f2 f3 c1 c2 : GoStr)
    (h1 : readFile f1 = .ok c1) (h2 : readFile f2 = .ok c2) (h3 : readFile f3 = .ok [])
    (hc1 : c1 ≠ []) (hc2 : c2 ≠ [])
    (hing : ∀ d t, ∃ n, ingestText d t = Except.ok n) :
    IngestDirectory readFile ingestText dir [f1, f2, f3] =
      ⟨dir, 3,
        [⟨generateDocumentID f1, 0, "success".toList, []⟩,
         ⟨generateDocumentID f2, 0, "success".toList, []⟩],
        [f3 ++ (": ".toList) ++ ("file is empty".toList)], []⟩ := by
  obtain ⟨n1, hn1⟩ := hing (generateDocumentID f1) c1
  obtain ⟨n2, hn2⟩ := hing (generateDocumentID f2) c2
  have hl1 : ¬ c1.length = 0 := by simpa [List.length_eq_zero] using hc1
  have hl2 : ¬ c2.length = 0 := by simpa [List.length_eq_zero] using hc2
  have hfe : ("file is empty".toList).isEmpty = false := by decide
  simp only [IngestDirectory, List.map_cons, List.map_nil, processFile, h1, h2, h3,
    hl1, hl2, if_false, hn1, hn2, List.length_nil, if_true, aggregateResults,
    List.isEmpty_nil, List.length_cons, hfe, Bool.false_eq_true]
  norm_num

/-- Witness for the C3 amended theorem at the concrete scenario. -/
theorem ingestDirectory_two_files_one_empty_witness :
    IngestDirectory exReadFile exIngest ("d".toList)
        ["a.txt".toList, "b.txt".toList, "c.txt".toList] =
      ⟨"d".toList, 3,
        [⟨generateDocumentID ("a.txt".toList), 0, "success".toList, []⟩,
         ⟨generateDocumentID ("b.txt".toList), 0, "success".toList, []⟩],
        [("c.txt".toList) ++ (": ".toList) ++ ("file is empty".toList)], []⟩ :=
  ingestDirectory_two_files_one_empty exReadFile exIngest ("d".toList)
    ("a.txt".toList) ("b.txt".toList) ("c.txt".toList) ("x".toList) ("y".toList)
    rfl rfl rfl (by decide) (by decide)
    (fun d t => ⟨1, rfl⟩)

/-! Generation orchestrator (internal/generate/generate.go).  The OpenAI
    client is an external collaborator; `client` maps a prompt to an error
    or the list of choice contents of the completion. -/

/-- GeneratedResponse (types.go). -/
structure GeneratedResponse where
  response : GoStr
  sources : List GoStr
deriving Repr, DecidableEq

/-- Fallback text of GenerateResponse for an empty chunk list. -/
def fallbackResponse : GoStr :=
  ("I don".toList) ++ [Char.ofNat 39] ++ ("t have enough information to answer your question.".toList)

/-- buildContext (generate.go lines 74-82): numbered "Context N:" labels,
    joined by blank lines, in input order. -/
def buildContext (chunks : List RankedChunk) : GoStr :=
  goJoin ['\n', '\n']
    ((chunks.enum).map (fun p =>
      ("Context ".toList) ++ natDec (p.1 + 1) ++ (": ".toList) ++ p.2.chunk.content))

/-- Fixed head of the prompt template (generate.go lines 85-94). -/
def promptHead : GoStr :=
  ("Based on the following context, please answer the question. If the context doesn".toList)
    ++ [Char.ofNat 39]
    ++ ("t contain enough information to answer the question, please say so.\n\nContext:\n".toList)

/-- buildPrompt (generate.go lines 85-94). -/
def buildPrompt (query context : GoStr) : GoStr :=
  promptHead ++ context ++ ("\n\nQuestion: ".toList) ++ query ++ ("\n\nAnswer:".toList)

/-- generateWithLLM (generate.go lines 97-124), instrumented with the number
    of provider invocations (0 or 1): empty prompt is rejected before the
    call; a provider error is wrapped; an empty choice list is an error;
    otherwise the first choice is returned. -/
def generateWithLLM (client : GoStr → Except GoStr (List GoStr)) (prompt : GoStr) :
    Except GoStr GoStr × Nat :=
  if prompt.isEmpty then (.error ("prompt cannot be empty".toList), 0)
  else
    match client prompt with
    | .error e => (.error (("failed to create chat completion: ".toList) ++ e), 1)
    | .ok [] => (.error ("no response choices returned".toList), 1)
    | .ok (c :: _) => (.ok c, 1)

/-- extractSources (generate.go lines 127-139): first-seen-order
    deduplication of document ids (the seen set is modelled as a list). -/
def extractSourcesAux : List RankedChunk → List GoStr → List GoStr
  | [], _ => []
  | c :: rest, seen =>
    if seen.contains c.chunk.documentID then extractSourcesAux rest seen
    else c.chunk.documentID :: extractSourcesAux rest (c.chunk.documentID :: seen)

/-- extractSources (generate.go lines 127-139). -/
def extractSources (chunks : List RankedChunk) : List GoStr := extractSourcesAux chunks []

/-- GenerateResponse (generate.go lines 44-71), instrumented with the number
    of provider invocations. -/
def GenerateResponse (client : GoStr → Except GoStr (List GoStr)) (query : GoStr)
    (chunks : List RankedChunk) : Except GoStr GeneratedResponse × Nat :=
  if chunks.isEmpty then (.ok ⟨fallbackResponse, []⟩, 0)
  else
    let prompt := buildPrompt query (buildContext chunks)
    let r := generateWithLLM client prompt
    match r.1 with
    | .error e => (.error (("failed to generate response: ".toList) ++ e), r.2)
    | .ok response => (.ok ⟨response, extractSources chunks⟩, r.2)

/-- C6: for every query and every provider, GenerateResponse on an empty
    chunk list returns the fixed fallback text with an empty source list and
    performs zero provider invocations. -/
theorem generateResponse_empty_short_circuit (client : GoStr → Except GoStr (List GoStr))
    (query : GoStr) :
    GenerateResponse client query [] = (.ok ⟨fallbackResponse, []⟩, 0) := rfl

/-- Values sent on the stream channel before it is closed (StreamResponse,
    generate.go lines 142-157): the goroutine sends exactly one value — the
    error text on failure, the blocking response text on success — and then
    closes the channel. -/
def streamSentValues (client : GoStr → Except GoStr (List GoStr)) (query : GoStr)
    (chunks : List RankedChunk) : List GoStr :=
  match (GenerateResponse client query chunks).1 with
  | .error e => [("Error generating response: ".toList) ++ e]
  | .ok r => [r.response]

/-- Concrete always-failing provider. -/
def exFailClient : GoStr → Except GoStr (List GoStr) := fun _ => .error ("boom".toList)

/-- Concrete chunk for the streaming scenario. -/
def exChunk : RankedChunk :=
  ⟨⟨1, "doc".toList, "text".toList, 0, ⟨[], [], [], [], [], [], []⟩, ⟨0, 0⟩, ⟨0, 0⟩⟩, 1⟩

/-- C7: when the provider call fails, the stream goroutine sends the error
    text "Error generating response: ..." on the channel before closing it,
    instead of closing without sending a value. -/
theorem streamResponse_sends_error_value :
    streamSentValues exFailClient ("q".toList) [exChunk] =
      [("Error generating response: failed to generate response: ".toList)
        ++ ("failed to create chat completion: boom".toList)] ∧
      streamSentValues exFailClient ("q".toList) [exChunk] ≠ [] := by
  refine ⟨by decide, by decide⟩

/-! Payload codec (store part: StoreChunks payload construction and
    pointToDocumentChunk).  Qdrant protobuf values are modelled by the
    variants the codec produces and reads; protobuf getters return the zero
    value on a kind mismatch. -/

/-- Qdrant payload value. -/
inductive QValue
  | str (s : GoStr)
  | int (n : Int)
  | list (vs : List QValue)

/-- Protobuf GetStringValue: zero value on mismatch. -/
def QValue.getStringValue : QValue → GoStr
  | .str s => s
  | _ => []

/-- Protobuf GetIntegerValue: zero value on mismatch. -/
def QValue.getIntegerValue : QValue → Int
  | .int n => n
  | _ => 0

/-- Protobuf GetListValue: nil on mismatch. -/
def QValue.getListValue : QValue → Option (List QValue)
  | .list vs => some vs
  | _ => none

/-- Qdrant point id, a oneof of numeric and uuid forms. -/
inductive PointId
  | num (n : Nat)
  | uuid (s : GoStr)
deriving Repr, DecidableEq

/-- Protobuf GetNum: zero on a non-numeric id. -/
def PointId.getNum : PointId → Nat
  | .num n => n
  | .uuid _ => 0

/-- Payload attribute map: a Go map modelled as an association list with
    unique keys; indexing is first-match lookup. -/
abbrev Payload := List (GoStr × QValue)

/-- Go map indexing with ok-flag, as `payload[key]`. -/
def lookupPayload (payload : Payload) (key : GoStr) : Option QValue :=
  match payload.find? (fun p => p.1 == key) with
  | some p => some p.2
  | none => none

/-- Qdrant ScoredPoint: protobuf pointers are optional. -/
structure ScoredPoint where
  id : Option PointId
  payload : Option Payload

/-! Go time formatting and parsing with the RFC3339 layout
    "2006-01-02T15:04:05Z07:00".  GoTime.sec counts seconds since
    0001-01-01T00:00:00 UTC (Go's internal epoch), and the location is
    modelled as UTC, so the offset renders as "Z". -/

/-- Civil date from a day count relative to 0000-03-01 (era-based
    proleptic-Gregorian conversion): returns (year, month, day). -/
def civilFromDays (z : Nat) : Nat × Nat × Nat :=
  let era := z / 146097
  let doe := z % 146097
  let yoe := (doe - doe / 1460 + doe / 36524 - doe / 146096) / 365
  let y := yoe + era * 400
  let doy := doe - (365 * yoe + yoe / 4 - yoe / 100)
  let mp := (5 * doy + 2) / 153
  let d := doy - (153 * mp + 2) / 5 + 1
  let m := if mp < 10 then mp + 3 else mp - 9
  (if m ≤ 2 then y + 1 else y, m, d)

/-- Day count relative to 0000-03-01 of a civil date. -/
def daysFromCivil (y m d : Int) : Int :=
  let y2 := if m ≤ 2 then y - 1 else y
  let era := y2.fdiv 400
  let yoe := y2 - era * 400
  let mp := if 2 < m then m - 3 else m + 9
  let doy := (153 * mp + 2).fdiv 5 + d - 1
  let doe := yoe * 365 + yoe.fdiv 4 - yoe.fdiv 100 + doy
  era * 146097 + doe

/-- Zero-padded decimal of the given width. -/
def padNum (width n : Nat) : List Char :=
  let ds := natDec n
  List.replicate (width - ds.length) '0' ++ ds

/-- Go t.Format(time.RFC3339) for a UTC instant at or after year 1: the
    layout carries no fractional second, so nsec is not rendered. -/
def formatRFC3339 (t : GoTime) : GoStr :=
  let total := t.sec.toNat
  let days := total / 86400
  let rem := total % 86400
  let c := civilFromDays (days + 306)
  padNum 4 c.1 ++ ['-'] ++ padNum 2 c.2.1 ++ ['-'] ++ padNum 2 c.2.2 ++ ['T'] ++
    padNum 2 (rem / 3600) ++ [':'] ++ padNum 2 (rem % 3600 / 60) ++ [':'] ++
    padNum 2 (rem % 60) ++ ['Z']

/-- Leap year predicate (Gregorian). -/
def isLeap (y : Nat) : Bool := y % 4 == 0 && (y % 100 != 0 || y % 400 == 0)

/-- Days in a month. -/
def daysIn (m y : Nat) : Nat :=
  if m == 2 then (if isLeap y then 29 else 28)
  else if ([4, 6, 9, 11] : List Nat).contains m then 30 else 31

/-- Digit-pair value, if both characters are digits. -/
def parse2Digits (a b : Char) : Option Nat :=
  if a.isDigit && b.isDigit then some ((a.toNat - 48) * 10 + (b.toNat - 48)) else none

/-- Digit-quadruple value, if all four characters are digits. -/
def parse4Digits (a b c d : Char) : Option Nat :=
  if a.isDigit && b.isDigit && c.isDigit && d.isDigit then
    some (((a.toNat - 48) * 10 + (b.toNat - 48)) * 100 + (c.toNat - 48) * 10 + (d.toNat - 48))
  else none

/-- Fractional second: ".digits" scaled to nanoseconds (at most nine digits,
    as in Go's parseNanoseconds; longer fractions error out and the RFC3339
    fast path then treats the whole input as invalid). -/
def parseFraction : GoStr → Option (Nat × GoStr)
  | '.' :: c :: rest =>
    if c.isDigit then
      let digits := (c :: rest).takeWhile Char.isDigit
      let remainder := (c :: rest).dropWhile Char.isDigit
      if digits.length ≤ 9 then
        some ((digits.foldl (fun a d => a * 10 + (d.toNat - 48)) 0) *
          10 ^ (9 - digits.length), remainder)
      else none
    else none
  | s => some (0, s)

/-- Time-zone suffix: "Z" or ±hh:mm; returns the offset in seconds. -/
def parseZone : GoStr → Option Int
  | ['Z'] => some 0
  | [sign, h1, h2, ':', m1, m2] =>
    if sign == '+' || sign == '-' then
      match parse2Digits h1 h2, parse2Digits m1 m2 with
      | some hh, some mm =>
        if hh ≤ 23 && mm ≤ 59 then
          let off : Int := (hh * 60 + mm) * 60
          some (if sign == '-' then -off else off)
        else none
      | _, _ => none
    else none
  | _ => none

/-- Go time.Parse(time.RFC3339, s) (the strict RFC3339 fast path):
    "YYYY-MM-DDTHH:MM:SS", optional fraction, then "Z" or ±hh:mm, with
    range validation; yields the UTC instant. -/
def parseRFC3339 (s : GoStr) : Option GoTime :=
  match s with
  | y1 :: y2 :: y3 :: y4 :: '-' :: mo1 :: mo2 :: '-' :: d1 :: d2 :: 'T' ::
      h1 :: h2 :: ':' :: mi1 :: mi2 :: ':' :: s1 :: s2 :: rest =>
    match parse4Digits y1 y2 y3 y4, parse2Digits mo1 mo2, parse2Digits d1 d2,
        parse2Digits h1 h2, parse2Digits mi1 mi2, parse2Digits s1 s2 with
    | some year, some month, some day, some hour, some minute, some second =>
      if year ≤ 9999 && 1 ≤ month && month ≤ 12 && 1 ≤ day && day ≤ daysIn month year &&
          hour ≤ 23 && minute ≤ 59 && second ≤ 59 then
        match parseFraction rest with
        | some (nsec, rest2) =>
          match parseZone rest2 with
          | some off =>
            some ⟨(daysFromCivil year month day - 306) * 86400 +
              (hour * 3600 + minute * 60 + second : Nat) - off, nsec⟩
          | none => none
        | none => none
      else none
    | _, _, _, _, _, _ => none
  | _ => none

/-- Payload constructed for one chunk by StoreChunks (store part, lines
    100-138): five always-present attributes, optional scalar metadata,
    optional tag list, and prefix-flattened custom metadata. -/
def encodeChunkPayload (chunk : DocumentChunk) : Payload :=
  [(("document_id".toList), QValue.str chunk.documentID),
   (("content".toList), QValue.str chunk.content),
   (("chunk_index".toList), QValue.int chunk.chunkIndex),
   (("created_at".toList), QValue.str (formatRFC3339 chunk.createdAt)),
   (("updated_at".toList), QValue.str (formatRFC3339 chunk.updatedAt))]
  ++ (if chunk.metadata.title ≠ [] then [(("title".toList), QValue.str chunk.metadata.title)] else [])
  ++ (if chunk.metadata.author ≠ [] then [(("author".toList), QValue.str chunk.metadata.author)] else [])
  ++ (if chunk.metadata.source ≠ [] then [(("source".toList), QValue.str chunk.metadata.source)] else [])
  ++ (if chunk.metadata.language ≠ [] then [(("language".toList), QValue.str chunk.metadata.language)] else [])
  ++ (if chunk.metadata.contentType ≠ [] then [(("content_type".toList), QValue.str chunk.metadata.contentType)] else [])
  ++ (if 0 < chunk.metadata.tags.length then [(("tags".toList), QValue.list (chunk.metadata.tags.map QValue.str))] else [])
  ++ chunk.metadata.custom.map (fun p => (("custom_".toList) ++ p.1, QValue.str p.2))

/-- Point constructed for a chunk by StoreChunks (lines 140-144): numeric id
    and the attribute payload (the vector itself is external). -/
def storeChunkPoint (chunk : DocumentChunk) : ScoredPoint :=
  ⟨some (.num chunk.id), some (encodeChunkPayload chunk)⟩

/-- getStringFromPayload (store part, lines 277-282). -/
def getStringFromPayload (payload : Payload) (key : GoStr) : GoStr :=
  match lookupPayload payload key with
  | some v => v.getStringValue
  | none => []

/-- getIntFromPayload (store part, lines 284-289). -/
def getIntFromPayload (payload : Payload) (key : GoStr) : Int :=
  match lookupPayload payload key with
  | some v => v.getIntegerValue
  | none => 0

/-- The zero Go time.Time (result of an ignored time.Parse error). -/
def zeroGoTime : GoTime := ⟨0, 0⟩

/-- Tag extraction of pointToDocumentChunk (lines 246-255): present only as
    a list attribute; non-string and empty-string elements are dropped. -/
def decodeTags (payload : Payload) : List GoStr :=
  match lookupPayload payload ("tags".toList) with
  | some v =>
    match v.getListValue with
    | some vs => (vs.map QValue.getStringValue).filter (fun t => !t.isEmpty)
    | none => []
  | none => []

/-- Custom-metadata extraction of pointToDocumentChunk (lines 257-263):
    keys longer than the reserved prefix and starting with it, stripped. -/
def decodeCustom (payload : Payload) : List (GoStr × GoStr) :=
  (payload.filter (fun p =>
    decide (7 < p.1.length) && startsWithStr p.1 ("custom_".toList))).map
    (fun p => (p.1.drop 7, p.2.getStringValue))

/-- pointToDocumentChunk (store part, lines 206-274): fails on a missing,
    non-numeric, or zero id and on a missing payload; every other field
    degrades to its zero value (empty string / 0 / zero time). -/
def pointToDocumentChunk (point : ScoredPoint) : Except GoStr DocumentChunk :=
  match point.id with
  | none => .error ("point ID is missing".toList)
  | some pid =>
    if pid.getNum = 0 then .error ("point ID must be numeric".toList)
    else
      match point.payload with
      | none => .error ("point payload is missing".toList)
      | some payload =>
        let documentID := getStringFromPayload payload ("document_id".toList)
        let content := getStringFromPayload payload ("content".toList)
        let chunkIndex := getIntFromPayload payload ("chunk_index".toList)
        let createdAt := (parseRFC3339 (getStringFromPayload payload ("created_at".toList))).getD zeroGoTime
        let updatedAt := (parseRFC3339 (getStringFromPayload payload ("updated_at".toList))).getD zeroGoTime
        .ok ⟨pid.getNum, documentID, content, chunkIndex,
          ⟨getStringFromPayload payload ("title".toList),
           getStringFromPayload payload ("author".toList),
           getStringFromPayload payload ("source".toList),
           decodeTags payload,
           getStringFromPayload payload ("language".toList),
           getStringFromPayload payload ("content_type".toList),
           decodeCustom payload⟩,
          createdAt, updatedAt⟩

/-! Lookup facts about the encoded payload. -/

theorem lookupPayload_cons (p : GoStr × QValue) (r : Payload) (k : GoStr) :
    lookupPayload (p :: r) k = if (p.1 == k) = true then some p.2 else lookupPayload r k := by
  unfold lookupPayload
  rw [List.find?]
  cases hpk : (p.1 == k) <;> simp [hpk]

theorem lookupPayload_append (l₁ l₂ : Payload) (k : GoStr) :
    lookupPayload (l₁ ++ l₂) k = (lookupPayload l₁ k).or (lookupPayload l₂ k) := by
  unfold lookupPayload
  rw [List.find?_append]
  cases (l₁.find? fun p => p.1 == k) <;> simp [Option.or]

theorem lookupPayload_nil (k : GoStr) : lookupPayload [] k = none := rfl

theorem lookupPayload_ifSection_none (c : Prop) [Decidable c] (e : GoStr × QValue) (k : GoStr)
    (h : (e.1 == k) = false) :
    lookupPayload (if c then [e] else []) k = none := by
  split
  · rw [lookupPayload_cons]
    simp [h, lookupPayload_nil]
  · rfl

theorem lookupPayload_customs_none (custom : List (GoStr × GoStr)) (k : GoStr)
    (h : ∀ k' : GoStr, ((("custom_".toList) ++ k') == k) = false) :
    lookupPayload (custom.map (fun p => (("custom_".toList) ++ p.1, QValue.str p.2))) k = none := by
  unfold lookupPayload
  rw [List.find?_map]
  have h2 : custom.find? ((fun (p : GoStr × QValue) => p.1 == k) ∘
      (fun p => (("custom_".toList) ++ p.1, QValue.str p.2))) = none := by
    rw [List.find?_eq_none]
    intro x hx
    show ¬(((("custom_".toList) ++ x.1) == k) = true)
    rw [h x.1]
    simp
  rw [h2]
  rfl

theorem lookupPayload_base5 (ch : DocumentChunk) (k : GoStr)
    (h1 : (("document_id".toList : GoStr) == k) = false)
    (h2 : (("content".toList : GoStr) == k) = false)
    (h3 : (("chunk_index".toList : GoStr) == k) = false)
    (h4 : (("created_at".toList : GoStr) == k) = false)
    (h5 : (("updated_at".toList : GoStr) == k) = false) :
    lookupPayload [(("document_id".toList), QValue.str ch.documentID),
      (("content".toList), QValue.str ch.content),
      (("chunk_index".toList), QValue.int ch.chunkIndex),
      (("created_at".toList), QValue.str (formatRFC3339 ch.createdAt)),
      (("updated_at".toList), QValue.str (formatRFC3339 ch.updatedAt))] k = none := by
  simp only [lookupPayload_cons, h1, h2, h3, h4, h5, Bool.false_eq_true, if_false]
  rfl

theorem getString_enc_title (ch : DocumentChunk) :
    getStringFromPayload (encodeChunkPayload ch) ("title".toList) = ch.metadata.title := by
  by_cases h : ch.metadata.title = []
  · rw [getStringFromPayload]
    unfold encodeChunkPayload
    rw [if_neg (not_not_intro h)]
    simp only [lookupPayload_append]
    rw [lookupPayload_base5 ch ("title".toList) rfl rfl rfl rfl rfl,
      lookupPayload_ifSection_none _ _ _ (by rfl),
      lookupPayload_ifSection_none _ _ _ (by rfl),
      lookupPayload_ifSection_none _ _ _ (by rfl),
      lookupPayload_ifSection_none _ _ _ (by rfl),
      lookupPayload_ifSection_none _ _ _ (by rfl),
      lookupPayload_customs_none ch.metadata.custom ("title".toList) (fun k' => rfl),
      lookupPayload_nil]
    simp only [Option.none_or, Option.or_none]
    exact h.symm
  · rw [getStringFromPayload]
    unfold encodeChunkPayload
    simp only [lookupPayload_append]
    rw [lookupPayload_base5 ch ("title".toList) rfl rfl rfl rfl rfl,
      if_pos h,
      show lookupPayload [(("title".toList), QValue.str ch.metadata.title)] ("title".toList) =
        some (QValue.str ch.metadata.title) from rfl]
    simp only [Option.none_or, Option.or_some]
    rfl

theorem getString_enc_author (ch : DocumentChunk) :
    getStringFromPayload (encodeChunkPayload ch) ("author".toList) = ch.metadata.author := by
  by_cases h : ch.metadata.author = []
  · rw [getStringFromPayload]
    unfold encodeChunkPayload
    rw [if_neg (not_not_intro h)]
    simp only [lookupPayload_append]
    rw [lookupPayload_base5 ch ("author".toList) rfl rfl rfl rfl rfl,
      lookupPayload_ifSection_none _ _ _ (by rfl),
      lookupPayload_ifSection_none _ _ _ (by rfl),
      lookupPayload_ifSection_none _ _ _ (by rfl),
      lookupPayload_ifSection_none _ _ _ (by rfl),
      lookupPayload_ifSection_none _ _ _ (by rfl),
      lookupPayload_customs_none ch.metadata.custom ("author".toList) (fun k' => rfl),
      lookupPayload_nil]
    simp only [Option.none_or, Option.or_none]
    exact h.symm
  · rw [getStringFromPayload]
    unfold encodeChunkPayload
    simp only [lookupPayload_append]
    rw [lookupPayload_base5 ch ("author".toList) rfl rfl rfl rfl rfl,
      lookupPayload_ifSection_none _ _ _ (by rfl),
      if_pos h,
      show lookupPayload [(("author".toList), QValue.str ch.metadata.author)] ("author".toList) =
        some (QValue.str ch.metadata.author) from rfl]
    simp only [Option.none_or, Option.or_some]
    rfl

theorem getString_enc_source (ch : DocumentChunk) :
    getStringFromPayload (encodeChunkPayload ch) ("source".toList) = ch.metadata.source := by
  by_cases h : ch.metadata.source = []
  · rw [getStringFromPayload]
    unfold encodeChunkPayload
    rw [if_neg (not_not_intro h)]
    simp only [lookupPayload_append]
    rw [lookupPayload_base5 ch ("source".toList) rfl rfl rfl rfl rfl,
      lookupPayload_ifSection_none _ _ _ (by rfl),
      lookupPayload_ifSection_none _ _ _ (by rfl),
      lookupPayload_ifSection_none _ _ _ (by rfl),
      lookupPayload_ifSection_none _ _ _ (by rfl),
      lookupPayload_ifSection_none _ _ _ (by rfl),
      lookupPayload_customs_none ch.metadata.custom ("source".toList) (fun k' => rfl),
      lookupPayload_nil]
    simp only [Option.none_or, Option.or_none]
    exact h.symm
  · rw [getStringFromPayload]
    unfold encodeChunkPayload
    simp only [lookupPayload_append]
    rw [lookupPayload_base5 ch ("source".toList) rfl rfl rfl rfl rfl,
      lookupPayload_ifSection_none _ _ _ (by rfl),
      lookupPayload_ifSection_none _ _ _ (by rfl),
      if_pos h,
      show lookupPayload [(("source".toList), QValue.str ch.metadata.source)] ("source".toList) =
        some (QValue.str ch.metadata.source) from rfl]
    simp only [Option.none_or, Option.or_some]
    rfl

theorem getString_enc_language (ch : DocumentChunk) :
    getStringFromPayload (encodeChunkPayload ch) ("language".toList) = ch.metadata.language := by
  by_cases h : ch.metadata.language = []
  · rw [getStringFromPayload]
    unfold encodeChunkPayload
    rw [if_neg (not_not_intro h)]
    simp only [lookupPayload_append]
    rw [lookupPayload_base5 ch ("language".toList) rfl rfl rfl rfl rfl,
      lookupPayload_ifSection_none _ _ _ (by rfl),
      lookupPayload_ifSection_none _ _ _ (by rfl),
      lookupPayload_ifSection_none _ _ _ (by rfl),
      lookupPayload_ifSection_none _ _ _ (by rfl),
      lookupPayload_ifSection_none _ _ _ (by rfl),
      lookupPayload_customs_none ch.metadata.custom ("language".toList) (fun k' => rfl),
      lookupPayload_nil]
    simp only [Option.none_or, Option.or_none]
    exact h.symm
  · rw [getStringFromPayload]
    unfold encodeChunkPayload
    simp only [lookupPayload_append]
    rw [lookupPayload_base5 ch ("language".toList) rfl rfl rfl rfl rfl,
      lookupPayload_ifSection_none _ _ _ (by rfl),
      lookupPayload_ifSection_none _ _ _ (by rfl),
      lookupPayload_ifSection_none _ _ _ (by rfl),
      if_pos h,
      show lookupPayload [(("language".toList), QValue.str ch.metadata.language)] ("language".toList) =
        some (QValue.str ch.metadata.language) from rfl]
    simp only [Option.none_or, Option.or_some]
    rfl

theorem getString_enc_contentType (ch : DocumentChunk) :
    getStringFromPayload (encodeChunkPayload ch) ("content_type".toList) = ch.metadata.contentType := by
  by_cases h : ch.metadata.contentType = []
  · rw [getStringFromPayload]
    unfold encodeChunkPayload
    rw [if_neg (not_not_intro h)]
    simp only [lookupPayload_append]
    rw [lookupPayload_base5 ch ("content_type".toList) rfl rfl rfl rfl rfl,
      lookupPayload_ifSection_none _ _ _ (by rfl),
      lookupPayload_ifSection_none _ _ _ (by rfl),
      lookupPayload_ifSection_none _ _ _ (by rfl),
      lookupPayload_ifSection_none _ _ _ (by rfl),
      lookupPayload_ifSection_none _ _ _ (by rfl),
      lookupPayload_customs_none ch.metadata.custom ("content_type".toList) (fun k' => rfl),
      lookupPayload_nil]
    simp only [Option.none_or, Option.or_none]
    exact h.symm
  · rw [getStringFromPayload]
    unfold encodeChunkPayload
    simp only [lookupPayload_append]
    rw [lookupPayload_base5 ch ("content_type".toList) rfl rfl rfl rfl rfl,
      lookupPayload_ifSection_none _ _ _ (by rfl),
      lookupPayload_ifSection_none _ _ _ (by rfl),
      lookupPayload_ifSection_none _ _ _ (by rfl),
      lookupPayload_ifSection_none _ _ _ (by rfl),
      if_pos h,
      show lookupPayload [(("content_type".toList), QValue.str ch.metadata.contentType)] ("content_type".toList) =
        some (QValue.str ch.metadata.contentType) from rfl]
    simp only [Option.none_or, Option.or_some]
    rfl

theorem lookup_enc_tags_pos (ch : DocumentChunk) (h : 0 < ch.metadata.tags.length) :
    lookupPayload (encodeChunkPayload ch) ("tags".toList) =
      some (QValue.list (ch.metadata.tags.map QValue.str)) := by
  unfold encodeChunkPayload
  simp only [lookupPayload_append]
  rw [lookupPayload_base5 ch ("tags".toList) rfl rfl rfl rfl rfl,
    lookupPayload_ifSection_none _ _ _ (by rfl),
    lookupPayload_ifSection_none _ _ _ (by rfl),
    lookupPayload_ifSection_none _ _ _ (by rfl),
    lookupPayload_ifSection_none _ _ _ (by rfl),
    lookupPayload_ifSection_none _ _ _ (by rfl),
    if_pos h,
    show lookupPayload [(("tags".toList), QValue.list (ch.metadata.tags.map QValue.str))]
      ("tags".toList) = some (QValue.list (ch.metadata.tags.map QValue.str)) from rfl]
  simp only [Option.none_or, Option.or_some]

theorem lookup_enc_tags_neg (ch : DocumentChunk) (h : ¬ 0 < ch.metadata.tags.length) :
    lookupPayload (encodeChunkPayload ch) ("tags".toList) = none := by
  unfold encodeChunkPayload
  rw [if_neg h]
  simp only [lookupPayload_append]
  rw [lookupPayload_base5 ch ("tags".toList) rfl rfl rfl rfl rfl,
    lookupPayload_ifSection_none _ _ _ (by rfl),
    lookupPayload_ifSection_none _ _ _ (by rfl),
    lookupPayload_ifSection_none _ _ _ (by rfl),
    lookupPayload_ifSection_none _ _ _ (by rfl),
    lookupPayload_ifSection_none _ _ _ (by rfl),
    lookupPayload_customs_none ch.metadata.custom ("tags".toList) (fun k' => rfl),
    lookupPayload_nil]
  simp only [Option.none_or, Option.or_none]

theorem startsWithStr_append_self : ∀ (pre s : GoStr), startsWithStr (pre ++ s) pre = true := by
  intro pre
  induction pre with
  | nil => intro s; cases s <;> rfl
  | cons c rest ih =>
    intro s
    simp only [List.cons_append, startsWithStr, beq_self_eq_true, Bool.true_and]
    exact ih s

/-- Mapping a string list into string values and reading it back is the
    identity. -/
theorem map_str_getString (l : List GoStr) :
    (l.map QValue.str).map QValue.getStringValue = l := by
  induction l with
  | nil => rfl
  | cons a t ih => simp only [List.map_cons, QValue.getStringValue, ih]

/-- Flattening custom entries under the prefix and stripping it back is the
    identity. -/
theorem customs_decode_map (l : List (GoStr × GoStr)) :
    (l.map (fun p => (("custom_".toList) ++ p.1, QValue.str p.2))).map
      (fun p => (p.1.drop 7, p.2.getStringValue)) = l := by
  induction l with
  | nil => rfl
  | cons a t ih =>
    cases a with
    | mk k v =>
      simp only [List.map_cons, ih]
      rfl

theorem filter_ifSection_nil (c : Prop) [Decidable c] (e : GoStr × QValue)
    (p : GoStr × QValue → Bool) (h : p e = false) :
    (if c then [e] else []).filter p = [] := by
  split
  · simp [List.filter_cons, h]
  · rfl

/-- The custom-metadata extraction of the decoder recovers exactly the
    encoded custom map, provided no custom key is empty. -/
theorem decode_customs_enc (ch : DocumentChunk) (hck : ∀ p ∈ ch.metadata.custom, p.1 ≠ []) :
    decodeCustom (encodeChunkPayload ch) = ch.metadata.custom := by
  unfold decodeCustom encodeChunkPayload
  simp only [List.filter_append]
  rw [show List.filter (fun p => decide (7 < p.1.length) && startsWithStr p.1 ("custom_".toList))
      [(("document_id".toList), QValue.str ch.documentID),
       (("content".toList), QValue.str ch.content),
       (("chunk_index".toList), QValue.int ch.chunkIndex),
       (("created_at".toList), QValue.str (formatRFC3339 ch.createdAt)),
       (("updated_at".toList), QValue.str (formatRFC3339 ch.updatedAt))] = [] from rfl,
    filter_ifSection_nil _ _ _ rfl, filter_ifSection_nil _ _ _ rfl,
    filter_ifSection_nil _ _ _ rfl, filter_ifSection_nil _ _ _ rfl,
    filter_ifSection_nil _ _ _ rfl, filter_ifSection_nil _ _ _ rfl]
  simp only [List.nil_append]
  rw [List.filter_map]
  have hall : ch.metadata.custom.filter ((fun (p : GoStr × QValue) =>
      decide (7 < p.1.length) && startsWithStr p.1 ("custom_".toList)) ∘
      (fun p => (("custom_".toList) ++ p.1, QValue.str p.2))) = ch.metadata.custom := by
    rw [List.filter_eq_self]
    intro a ha
    simp only [Function.comp_apply, Bool.and_eq_true, decide_eq_true_eq]
    refine ⟨?_, startsWithStr_append_self _ _⟩
    have h0 : a.1 ≠ [] := hck a ha
    have h1 : 0 < a.1.length := List.length_pos.mpr h0
    show 7 < (("custom_".toList : GoStr) ++ a.1).length
    rw [List.length_append]
    show 7 < 7 + a.1.length
    omega
  rw [hall, customs_decode_map]

/-- Shape of a successful decode: for a present id and payload the decoder
    returns the record assembled from the payload getters. -/
theorem pointToDocumentChunk_some_some (pid : PointId) (payload : Payload)
    (h : ¬ pid.getNum = 0) :
    pointToDocumentChunk ⟨some pid, some payload⟩ = .ok
      ⟨pid.getNum,
       getStringFromPayload payload ("document_id".toList),
       getStringFromPayload payload ("content".toList),
       getIntFromPayload payload ("chunk_index".toList),
       ⟨getStringFromPayload payload ("title".toList),
        getStringFromPayload payload ("author".toList),
        getStringFromPayload payload ("source".toList),
        decodeTags payload,
        getStringFromPayload payload ("language".toList),
        getStringFromPayload payload ("content_type".toList),
        decodeCustom payload⟩,
       (parseRFC3339 (getStringFromPayload payload ("created_at".toList))).getD zeroGoTime,
       (parseRFC3339 (getStringFromPayload payload ("updated_at".toList))).getD zeroGoTime⟩ := by
  simp only [pointToDocumentChunk, if_neg h]

/-- C4 amended: the encode-decode round trip restores the chunk exactly,
    for every chunk with a non-zero id, non-empty custom keys, no
    empty-string tags, and timestamps that survive RFC3339 formatting
    (whole seconds, year in range); absent optional scalars decode to the
    empty string, which then equals the original empty field. -/
theorem storeChunks_roundTrip (ch : DocumentChunk)
    (hid : ch.id ≠ 0)
    (hck : ∀ p ∈ ch.metadata.custom, p.1 ≠ [])
    (htg : ∀ t ∈ ch.metadata.tags, t ≠ [])
    (hca : parseRFC3339 (formatRFC3339 ch.createdAt) = some ch.createdAt)
    (hua : parseRFC3339 (formatRFC3339 ch.updatedAt) = some ch.updatedAt) :
    pointToDocumentChunk (storeChunkPoint ch) = .ok ch := by
  rw [show storeChunkPoint ch = ⟨some (.num ch.id), some (encodeChunkPayload ch)⟩ from rfl,
    pointToDocumentChunk_some_some (.num ch.id) (encodeChunkPayload ch)
      (by simpa [PointId.getNum] using hid)]
  have hdoc : getStringFromPayload (encodeChunkPayload ch) ("document_id".toList) =
      ch.documentID := rfl
  have hcont : getStringFromPayload (encodeChunkPayload ch) ("content".toList) =
      ch.content := rfl
  have hidx : getIntFromPayload (encodeChunkPayload ch) ("chunk_index".toList) =
      ch.chunkIndex := rfl
  have hcat : getStringFromPayload (encodeChunkPayload ch) ("created_at".toList) =
      formatRFC3339 ch.createdAt := rfl
  have huat : getStringFromPayload (encodeChunkPayload ch) ("updated_at".toList) =
      formatRFC3339 ch.updatedAt := rfl
  have htags : decodeTags (encodeChunkPayload ch) = ch.metadata.tags := by
    unfold decodeTags
    by_cases h : 0 < ch.metadata.tags.length
    · rw [lookup_enc_tags_pos ch h]
      show ((ch.metadata.tags.map QValue.str).map QValue.getStringValue).filter
        (fun t => !t.isEmpty) = ch.metadata.tags
      rw [map_str_getString, List.filter_eq_self]
      intro t ht
      simpa using htg t ht
    · rw [lookup_enc_tags_neg ch h]
      have hnil : ch.metadata.tags = [] := by
        cases hx : ch.metadata.tags with
        | nil => rfl
        | cons a l => rw [hx] at h; simp at h
      rw [hnil]
  have hcust := decode_customs_enc ch hck
  have htitle := getString_enc_title ch
  have hauthor := getString_enc_author ch
  have hsource := getString_enc_source ch
  have hlang := getString_enc_language ch
  have hct := getString_enc_contentType ch
  cases ch with
  | mk id documentID content chunkIndex metadata createdAt updatedAt =>
    cases metadata with
    | mk title author source tags language contentType custom =>
      simp only [Except.ok.injEq, DocumentChunk.mk.injEq, Metadata.mk.injEq]
      refine ⟨rfl, hdoc, hcont, hidx, ⟨htitle, hauthor, hsource, htags, hlang, hct, hcust⟩,
        ?_, ?_⟩
      · rw [hcat, hca]
        rfl
      · rw [huat, hua]
        rfl

/-- Concrete chunk whose id is zero (custom keys trivially non-colliding). -/
def exZeroIdChunk : DocumentChunk :=
  ⟨0, "d".toList, "c".toList, 0, ⟨[], [], [], [], [], [], []⟩, zeroGoTime, zeroGoTime⟩

/-- C4 counterexample: for a chunk with id 0 the decode of its own encoding
    fails ("point ID must be numeric") instead of returning the chunk. -/
theorem roundTrip_zero_id_fails :
    pointToDocumentChunk (storeChunkPoint exZeroIdChunk) =
      .error ("point ID must be numeric".toList) ∧
      pointToDocumentChunk (storeChunkPoint exZeroIdChunk) ≠ .ok exZeroIdChunk := by
  refine ⟨rfl, ?_⟩
  intro hcon
  exact Except.noConfusion (show Except.error ("point ID must be numeric".toList) =
    (Except.ok exZeroIdChunk : Except GoStr DocumentChunk) from hcon)

/-- Concrete fully-populated chunk for the round-trip witness. -/
def exRoundChunk : DocumentChunk :=
  ⟨7, "doc1".toList, "hello world".toList, 2,
   ⟨"T".toList, "A".toList, "S".toList, ["t1".toList, "t2".toList], "en".toList,
    "text".toList, [("k1".toList, "v1".toList), ("k2".toList, "v2".toList)]⟩,
   ⟨62135596800, 0⟩, ⟨63808822923, 0⟩⟩

/-- Witness for the C4 amended round-trip theorem at a concrete chunk. -/
theorem storeChunks_roundTrip_witness :
    pointToDocumentChunk (storeChunkPoint exRoundChunk) = .ok exRoundChunk :=
  storeChunks_roundTrip exRoundChunk (by decide) (by decide) (by decide)
    (by decide) (by decide)

/-- C5 amended: decoding fails exactly when the id is missing, non-numeric,
    or zero, or when the payload is missing entirely; moreover any absent
    attribute reads as the empty string / zero, and any attribute of the
    wrong kind reads as the empty string. -/
theorem pointToDocumentChunk_error_characterization (p : ScoredPoint) :
    ((∃ e, pointToDocumentChunk p = .error e) ↔
      p.id = none ∨ (∃ pid, p.id = some pid ∧ pid.getNum = 0) ∨ p.payload = none) ∧
    (∀ (payload : Payload) (key : GoStr), lookupPayload payload key = none →
      getStringFromPayload payload key = [] ∧ getIntFromPayload payload key = 0) ∧
    (∀ (payload : Payload) (key : GoStr) (v : QValue), lookupPayload payload key = some v →
      (∀ s, v ≠ QValue.str s) → getStringFromPayload payload key = []) := by
  refine ⟨?_, ?_, ?_⟩
  · cases hpid : p.id with
    | none =>
      constructor
      · intro _; exact Or.inl rfl
      · intro _
        refine ⟨("point ID is missing".toList), ?_⟩
        simp [pointToDocumentChunk, hpid]
    | some pid =>
      by_cases hz : pid.getNum = 0
      · constructor
        · intro _; exact Or.inr (Or.inl ⟨pid, rfl, hz⟩)
        · intro _
          refine ⟨("point ID must be numeric".toList), ?_⟩
          simp [pointToDocumentChunk, hpid, hz]
      · cases hpl : p.payload with
        | none =>
          constructor
          · intro _; exact Or.inr (Or.inr rfl)
          · intro _
            refine ⟨("point payload is missing".toList), ?_⟩
            simp [pointToDocumentChunk, hpid, hz, hpl]
        | some payload =>
          have hp : p = ⟨some pid, some payload⟩ := by
            cases p
            simp_all
          rw [hp]
          constructor
          · rintro ⟨e, he⟩
            rw [pointToDocumentChunk_some_some pid payload hz] at he
            exact Except.noConfusion he
          · rintro (h | ⟨pid', hpid', hz'⟩ | h)
            · exact Option.noConfusion h
            · have h2 : some pid = some pid' := hpid'
              injection h2 with h'
              exact absurd (h' ▸ hz') hz
            · exact Option.noConfusion h
  · intro payload key h
    constructor
    · rw [getStringFromPayload, h]
    · rw [getIntFromPayload, h]
  · intro payload key v h hv
    rw [getStringFromPayload, h]
    cases v with
    | str s => exact absurd rfl (hv s)
    | int n => rfl
    | list vs => rfl

/-- Witness for the C5 amended theorem at concrete inputs. -/
theorem pointToDocumentChunk_error_characterization_witness :
    (∃ e, pointToDocumentChunk ⟨none, none⟩ = .error e) ∧
      getStringFromPayload [] ("title".toList) = [] := by
  obtain ⟨h1, h2, _⟩ := pointToDocumentChunk_error_characterization ⟨none, none⟩
  exact ⟨h1.mpr (Or.inl rfl), (h2 [] ("title".toList) rfl).1⟩

/-- C5 counterexample: a point with the valid numeric id 5 but a nil payload
    is rejected ("point payload is missing"), so decode errors do not happen
    only for missing/non-numeric/zero ids. -/
theorem pointToDocumentChunk_nil_payload_error :
    pointToDocumentChunk ⟨some (.num 5), none⟩ = .error ("point payload is missing".toList) ∧
      (some (PointId.num 5) ≠ (none : Option PointId) ∧ PointId.getNum (.num 5) ≠ 0) := by
  refine ⟨rfl, by decide, by decide⟩

/-! Ranker (internal/ranker/ranker.go) and Go sort.Slice.

    RankChunks sorts with sort.Slice, which since Go 1.19 runs the
    pattern-defeating quicksort of sort/zsortfunc.go; that algorithm is
    embedded below over lists, one function per Go function, with explicit
    fuel for each loop (every use below supplies enough fuel).  The
    element state is a list; data.Swap is `listSwap`, and data.Less reads
    the current list through `lessAt`.  Scores (Go float64) are modelled
    as rationals, exact for the scores arising here (small integer counts
    and one division). -/

/-- Element swap (reflect.Swapper): out-of-range indices cannot occur in
    the sort (Go would panic); the list is then returned unchanged. -/
def listSwap (l : List α) (i j : Nat) : List α :=
  match l[i]?, l[j]? with
  | some x, some y => (l.set i y).set j x
  | _, _ => l

/-- data.Less(i, j) on the current list. -/
def lessAt (lt : α → α → Bool) (d : List α) (i j : Nat) : Bool :=
  match d[i]?, d[j]? with
  | some x, some y => lt x y
  | _, _ => false

/-- Inner loop of insertionSort_func: sift data[j] down while it is less
    than its left neighbour. -/
def insertInner (lt : α → α → Bool) (a : Nat) : List α → Nat → List α
  | d, 0 => d
  | d, j + 1 =>
    if a < j + 1 ∧ lessAt lt d (j + 1) j then insertInner lt a (listSwap d (j + 1) j) j
    else d

/-- Outer loop of insertionSort_func, fuelled. -/
def insertionSortOuter (lt : α → α → Bool) (a b : Nat) : Nat → List α → Nat → List α
  | 0, d, _ => d
  | fuel + 1, d, i =>
    if i < b then insertionSortOuter lt a b fuel (insertInner lt a d i) (i + 1) else d

/-- insertionSort_func: sorts data[a:b]. -/
def insertionSortFunc (lt : α → α → Bool) (d : List α) (a b : Nat) : List α :=
  insertionSortOuter lt a b (b - a) d (a + 1)

/-- siftDown_func, fuelled (the root strictly increases below hi). -/
def siftDownFunc (lt : α → α → Bool) : Nat → List α → Nat → Nat → Nat → List α
  | 0, d, _, _, _ => d
  | fuel + 1, d, root, hi, first =>
    let child0 := 2 * root + 1
    if child0 ≥ hi then d
    else
      let child :=
        if child0 + 1 < hi ∧ lessAt lt d (first + child0) (first + child0 + 1) then child0 + 1
        else child0
      if ¬ lessAt lt d (first + root) (first + child) then d
      else siftDownFunc lt fuel (listSwap d (first + root) (first + child)) child hi first

/-- Heap-building loop of heapSort_func (i counts down from (hi-1)/2). -/
def heapBuild (lt : α → α → Bool) (hi first : Nat) : Nat → List α → Nat → List α
  | 0, d, _ => d
  | count + 1, d, i => heapBuild lt hi first count (siftDownFunc lt hi d i hi first) (i - 1)

/-- Pop loop of heapSort_func (i counts down from hi-1). -/
def heapPop (lt : α → α → Bool) (first : Nat) : Nat → List α → Nat → List α
  | 0, d, _ => d
  | count + 1, d, i =>
    heapPop lt first count (siftDownFunc lt i (listSwap d first (first + i)) 0 i first) (i - 1)

/-- heapSort_func: sorts data[a:b]. -/
def heapSortFunc (lt : α → α → Bool) (d : List α) (a b : Nat) : List α :=
  let first := a
  let hi := b - a
  let d1 := heapBuild lt hi first ((hi - 1) / 2 + 1) d ((hi - 1) / 2)
  heapPop lt first hi d1 (hi - 1)

/-- Scan of partition_func: advance i while data[i] < pivot. -/
def scanLess (lt : α → α → Bool) (d : List α) (aIdx j : Nat) : Nat → Nat → Nat
  | 0, i => i
  | fuel + 1, i => if i ≤ j ∧ lessAt lt d i aIdx then scanLess lt d aIdx j fuel (i + 1) else i

/-- Scan of partition_func: retreat j while data[j] >= pivot. -/
def scanGe (lt : α → α → Bool) (d : List α) (aIdx i : Nat) : Nat → Nat → Nat
  | 0, j => j
  | fuel + 1, j => if i ≤ j ∧ ¬ lessAt lt d j aIdx then scanGe lt d aIdx i fuel (j - 1) else j

/-- Main loop of partition_func after the first crossing swap. -/
def partitionLoop (lt : α → α → Bool) (aIdx b : Nat) :
    Nat → List α → Nat → Nat → List α × Nat × Nat
  | 0, d, i, j => (d, i, j)
  | fuel + 1, d, i, j =>
    let i1 := scanLess lt d aIdx j b i
    let j1 := scanGe lt d aIdx i1 b j
    if i1 > j1 then (d, i1, j1)
    else partitionLoop lt aIdx b fuel (listSwap d i1 j1) (i1 + 1) (j1 - 1)

/-- partition_func: Hoare partition around data[pivot]; returns the new
    pivot position and whether the range was already partitioned. -/
def partitionFunc (lt : α → α → Bool) (d0 : List α) (a b pivot : Nat) :
    List α × Nat × Bool :=
  let d1 := listSwap d0 a pivot
  let i0 := scanLess lt d1 a (b - 1) b (a + 1)
  let j0 := scanGe lt d1 a i0 b (b - 1)
  if i0 > j0 then (listSwap d1 j0 a, j0, true)
  else
    let r := partitionLoop lt a b b (listSwap d1 i0 j0) (i0 + 1) (j0 - 1)
    (listSwap r.1 r.2.2 a, r.2.2, false)

/-- Scan of partitionEqual_func: advance i while not (pivot < data[i]). -/
def scanEqI (lt : α → α → Bool) (d : List α) (aIdx j : Nat) : Nat → Nat → Nat
  | 0, i => i
  | fuel + 1, i => if i ≤ j ∧ ¬ lessAt lt d aIdx i then scanEqI lt d aIdx j fuel (i + 1) else i

/-- Scan of partitionEqual_func: retreat j while pivot < data[j]. -/
def scanEqJ (lt : α → α → Bool) (d : List α) (aIdx i : Nat) : Nat → Nat → Nat
  | 0, j => j
  | fuel + 1, j => if i ≤ j ∧ lessAt lt d aIdx j then scanEqJ lt d aIdx i fuel (j - 1) else j

/-- Loop of partitionEqual_func. -/
def partitionEqualLoop (lt : α → α → Bool) (aIdx b : Nat) :
    Nat → List α → Nat → Nat → List α × Nat
  | 0, d, i, _ => (d, i)
  | fuel + 1, d, i, j =>
    let i1 := scanEqI lt d aIdx j b i
    let j1 := scanEqJ lt d aIdx i1 b j
    if i1 > j1 then (d, i1)
    else partitionEqualLoop lt aIdx b fuel (listSwap d i1 j1) (i1 + 1) (j1 - 1)

/-- partitionEqual_func: moves elements equal to data[pivot] to the front
    of data[a:b], returning the first index of the greater part. -/
def partitionEqualFunc (lt : α → α → Bool) (d0 : List α) (a b pivot : Nat) :
    List α × Nat :=
  let d1 := listSwap d0 a pivot
  partitionEqualLoop lt a b b d1 (a + 1) (b - 1)

/-- Forward scan of partialInsertionSort_func over already-ordered pairs. -/
def padvance (lt : α → α → Bool) (d : List α) (b : Nat) : Nat → Nat → Nat
  | 0, i => i
  | fuel + 1, i => if i < b ∧ ¬ lessAt lt d i (i - 1) then padvance lt d b fuel (i + 1) else i

/-- Left shift of partialInsertionSort_func. -/
def shiftLeft (lt : α → α → Bool) : Nat → List α → Nat → List α
  | 0, d, _ => d
  | fuel + 1, d, j =>
    if 1 ≤ j then
      if ¬ lessAt lt d j (j - 1) then d
      else shiftLeft lt fuel (listSwap d j (j - 1)) (j - 1)
    else d

/-- Right shift of partialInsertionSort_func. -/
def shiftRight (lt : α → α → Bool) (b : Nat) : Nat → List α → Nat → List α
  | 0, d, _ => d
  | fuel + 1, d, j =>
    if j < b then
      if ¬ lessAt lt d j (j - 1) then d
      else shiftRight lt b fuel (listSwap d j (j - 1)) (j + 1)
    else d

/-- Steps loop of partialInsertionSort_func (at most five adjacent
    out-of-order pairs are shifted; shifting only on ranges of 50+). -/
def pisLoop (lt : α → α → Bool) (a b : Nat) : Nat → List α → Nat → List α × Bool
  | 0, d, _ => (d, false)
  | steps + 1, d, i =>
    let i1 := padvance lt d b b i
    if i1 = b then (d, true)
    else if b - a < 50 then (d, false)
    else
      let d1 := listSwap d i1 (i1 - 1)
      let d2 := if i1 - a ≥ 2 then shiftLeft lt i1 d1 (i1 - 1) else d1
      let d3 := if b - i1 ≥ 2 then shiftRight lt b b d2 (i1 + 1) else d2
      pisLoop lt a b steps d3 i1

/-- partialInsertionSort_func: returns the data and whether data[a:b] ended
    up sorted. -/
def partialInsertionSortFunc (lt : α → α → Bool) (d : List α) (a b : Nat) :
    List α × Bool :=
  pisLoop lt a b 5 d (a + 1)

/-- One xorshift step on a uint64 state. -/
def xorshiftNext (r : Nat) : Nat :=
  let r1 := (r ^^^ ((r <<< 13) % 2 ^ 64)) % 2 ^ 64
  let r2 := (r1 ^^^ (r1 >>> 7)) % 2 ^ 64
  (r2 ^^^ ((r2 <<< 17) % 2 ^ 64)) % 2 ^ 64

/-- Helper for bits.Len, fuelled by the number itself. -/
def bitsLenAux : Nat → Nat → Nat
  | 0, _ => 0
  | fuel + 1, n => if n = 0 then 0 else bitsLenAux fuel (n / 2) + 1

/-- bits.Len for a uint: the number of bits required to represent it. -/
def bitsLen (n : Nat) : Nat := bitsLenAux (n + 1) n

/-- nextPowerOfTwo from zsortfunc.go. -/
def nextPowerOfTwo (length : Nat) : Nat := 1 <<< bitsLen length

/-- One swap of breakPatterns_func. -/
def breakPatternsStep (d : List α) (a length idx step r : Nat) : List α × Nat :=
  let r1 := xorshiftNext r
  let modulus := nextPowerOfTwo length
  let other0 := r1 % 2 ^ 64 &&& (modulus - 1)
  let other := if other0 ≥ length then other0 - length else other0
  (listSwap d (idx - 1 + step) (a + other), r1)

/-- breakPatterns_func: scatters three elements pseudo-randomly (xorshift
    seeded with the range length) to break adversarial patterns. -/
def breakPatternsFunc (d : List α) (a b : Nat) : List α :=
  let length := b - a
  if length ≥ 8 then
    let idx := a + (length / 4) * 2 - 1
    let p1 := breakPatternsStep d a length idx 0 length
    let p2 := breakPatternsStep p1.1 a length idx 1 p1.2
    (breakPatternsStep p2.1 a length idx 2 p2.2).1
  else d

/-- Sorted hints of choosePivot_func. -/
inductive SortedHint
  | increasing
  | decreasing
  | unknown
deriving Repr, DecidableEq

/-- order2_func with its swaps counter. -/
def order2Func (lt : α → α → Bool) (d : List α) (x y swaps : Nat) : Nat × Nat × Nat :=
  if lessAt lt d y x then (y, x, swaps + 1) else (x, y, swaps)

/-- median_func: index of the median of data[x], data[y], data[z]. -/
def medianFunc (lt : α → α → Bool) (d : List α) (x y z swaps : Nat) : Nat × Nat :=
  let r1 := order2Func lt d x y swaps
  let r2 := order2Func lt d r1.2.1 z r1.2.2
  let r3 := order2Func lt d r1.1 r2.1 r2.2.2
  (r3.2.1, r3.2.2)

/-- medianAdjacent_func: median of data[x-1], data[x], data[x+1]. -/
def medianAdjacentFunc (lt : α → α → Bool) (d : List α) (x swaps : Nat) : Nat × Nat :=
  medianFunc lt d (x - 1) x (x + 1) swaps

/-- choosePivot_func: static pivot, median of three, or Tukey ninther,
    with a sortedness hint from the comparison-swap count. -/
def choosePivotFunc (lt : α → α → Bool) (d : List α) (a b : Nat) : Nat × SortedHint :=
  let l := b - a
  let i0 := a + l / 4 * 1
  let j0 := a + l / 4 * 2
  let k0 := a + l / 4 * 3
  let r :=
    if l ≥ 8 then
      if l ≥ 50 then
        let ri := medianAdjacentFunc lt d i0 0
        let rj := medianAdjacentFunc lt d j0 ri.2
        let rk := medianAdjacentFunc lt d k0 rj.2
        medianFunc lt d ri.1 rj.1 rk.1 rk.2
      else medianFunc lt d i0 j0 k0 0
    else (j0, 0)
  if r.2 = 0 then (r.1, SortedHint.increasing)
  else if r.2 = 12 then (r.1, SortedHint.decreasing)
  else (r.1, SortedHint.unknown)

/-- reverseRange_func, fuelled. -/
def reverseRangeFunc : Nat → List α → Nat → Nat → List α
  | 0, d, _, _ => d
  | fuel + 1, d, i, j =>
    if i < j then reverseRangeFunc fuel (listSwap d i j) (i + 1) (j - 1) else d

/-- pdqsort_func: the fuel decreases on every loop continuation and
    recursive call; since the range shrinks strictly each time, fuel equal
    to the initial range length suffices. -/
def pdqsortFunc (lt : α → α → Bool) :
    Nat → List α → Nat → Nat → Nat → Bool → Bool → List α
  | 0, d, _, _, _, _, _ => d
  | fuel + 1, d, a, b, limit, wasBalanced, wasPartitioned =>
    let length := b - a
    if length ≤ 12 then insertionSortFunc lt d a b
    else if limit = 0 then heapSortFunc lt d a b
    else
      let d0 := if ¬ wasBalanced then breakPatternsFunc d a b else d
      let limit1 := if ¬ wasBalanced then limit - 1 else limit
      let pv := choosePivotFunc lt d0 a b
      let state :=
        if pv.2 = SortedHint.decreasing then
          (reverseRangeFunc b d0 a (b - 1), (b - 1) - (pv.1 - a), SortedHint.increasing)
        else (d0, pv.1, pv.2)
      let d1 := state.1
      let pivot := state.2.1
      let hint := state.2.2
      let pis :=
        if wasBalanced ∧ wasPartitioned ∧ hint = SortedHint.increasing then
          partialInsertionSortFunc lt d1 a b
        else (d1, false)
      if pis.2 then pis.1
      else
        let d2 := pis.1
        if 0 < a ∧ ¬ lessAt lt d2 (a - 1) pivot then
          let pe := partitionEqualFunc lt d2 a b pivot
          pdqsortFunc lt fuel pe.1 pe.2 b limit1 wasBalanced wasPartitioned
        else
          let pr := partitionFunc lt d2 a b pivot
          let d3 := pr.1
          let mid := pr.2.1
          let alreadyPartitioned := pr.2.2
          let leftLen := mid - a
          let rightLen := b - mid
          let balanceThreshold := length / 8
          let wasBalanced1 := decide (min leftLen rightLen ≥ balanceThreshold)
          let wasPartitioned1 := alreadyPartitioned
          if leftLen < rightLen then
            let d4 := pdqsortFunc lt fuel d3 a mid limit1 true true
            pdqsortFunc lt fuel d4 (mid + 1) b limit1 wasBalanced1 wasPartitioned1
          else
            let d4 := pdqsortFunc lt fuel d3 (mid + 1) b limit1 true true
            pdqsortFunc lt fuel d4 a mid limit1 wasBalanced1 wasPartitioned1

/-- sort.Slice: pdqsort over the whole slice with limit = bits.Len(length). -/
def sortSlice (lt : α → α → Bool) (d : List α) : List α :=
  pdqsortFunc lt d.length d 0 d.length (bitsLen d.length) true true

/-- Go strings.ToLower, modelled for ASCII letters (the general Unicode
    mapping agrees on the ASCII inputs used here). -/
def goToLower (s : GoStr) : GoStr :=
  s.map (fun c => if 'A' ≤ c ∧ c ≤ 'Z' then Char.ofNat (c.toNat + 32) else c)

/-- Go strings.Contains. -/
def containsStr : GoStr → GoStr → Bool
  | [], sub => sub.isEmpty
  | c :: rest, sub => startsWithStr (c :: rest) sub || containsStr rest sub

/-- calculateRelevanceScore (ranker.go lines 43-63): fraction of
    whitespace-delimited lowercase query terms occurring as substrings of
    the lowercase content; zero-term queries score 0. -/
def calculateRelevanceScore (query content : GoStr) : ℚ :=
  let queryWords := goFields (goToLower query)
  let contentLower := goToLower content
  let score : ℚ :=
    queryWords.foldl (fun acc w => if containsStr contentLower w then acc + 1 else acc) 0
  if 0 < queryWords.length then score / (queryWords.length : ℚ) else score

/-- Scored chunks before sorting, in input order. -/
def scoredChunks (query : GoStr) (chunks : List DocumentChunk) : List RankedChunk :=
  chunks.map (fun c => ⟨c, calculateRelevanceScore query c.content⟩)

/-- RankChunks (ranker.go lines 22-39): score every chunk, then sort by
    score descending with sort.Slice. -/
def RankChunks (query : GoStr) (chunks : List DocumentChunk) : List RankedChunk :=
  sortSlice (fun x y : RankedChunk => decide (y.score < x.score)) (scoredChunks query chunks)

/-! Permutation facts: every sorting subroutine only swaps elements, so
    each returns a permutation of its input list. -/

theorem set_cons_perm (t : List α) (m : Nat) (x : α) (hm : m < t.length) :
    (t[m] :: t.set m x).Perm (x :: t) := by
  rw [List.set_eq_take_append_cons_drop, if_pos hm]
  conv_rhs => rw [show t = t.take m ++ t.drop m from (List.take_append_drop m t).symm,
    ← List.getElem_cons_drop t m hm]
  exact (List.perm_middle.cons _).trans
    ((List.Perm.swap x _ _).trans (List.perm_middle.symm.cons _))

theorem listSwap_perm (l : List α) : ∀ (i j : Nat), (listSwap l i j).Perm l := by
  induction l with
  | nil => intro i j; exact .refl _
  | cons c t ih =>
    intro i j
    cases i with
    | zero =>
      cases j with
      | zero =>
        unfold listSwap
        rw [List.getElem?_cons_zero]
        dsimp only
        rw [List.set_set, List.set_cons_zero]
      | succ m =>
        unfold listSwap
        rw [List.getElem?_cons_zero, List.getElem?_cons_succ]
        cases h : t[m]? with
        | none => exact .refl _
        | some y =>
          obtain ⟨hm, hy⟩ := List.getElem?_eq_some_iff.mp h
          dsimp only
          rw [List.set_cons_zero, List.set_cons_succ, ← hy]
          exact set_cons_perm t m c hm
    | succ n =>
      cases j with
      | zero =>
        unfold listSwap
        rw [List.getElem?_cons_succ, List.getElem?_cons_zero]
        cases h : t[n]? with
        | none => exact .refl _
        | some y =>
          obtain ⟨hm, hy⟩ := List.getElem?_eq_some_iff.mp h
          dsimp only
          rw [List.set_cons_succ, List.set_cons_zero, ← hy]
          exact set_cons_perm t n c hm
      | succ m =>
        have hstep : listSwap (c :: t) (n + 1) (m + 1) = c :: listSwap t n m := by
          unfold listSwap
          rw [List.getElem?_cons_succ, List.getElem?_cons_succ]
          cases t[n]? <;> cases t[m]? <;> rfl
        rw [hstep]
        exact (ih n m).cons c

theorem insertInner_perm (lt : α → α → Bool) (a : Nat) :
    ∀ (j : Nat) (d : List α), (insertInner lt a d j).Perm d := by
  intro j
  induction j with
  | zero => intro d; exact .refl _
  | succ n ih =>
    intro d
    unfold insertInner
    split
    · exact (ih _).trans (listSwap_perm d (n + 1) n)
    · exact .refl _

theorem insertionSortOuter_perm (lt : α → α → Bool) (a b : Nat) :
    ∀ (fuel : Nat) (d : List α) (i : Nat), (insertionSortOuter lt a b fuel d i).Perm d := by
  intro fuel
  induction fuel with
  | zero => intro d i; exact .refl _
  | succ n ih =>
    intro d i
    unfold insertionSortOuter
    split
    · exact (ih _ _).trans (insertInner_perm lt a i d)
    · exact .refl _

theorem insertionSortFunc_perm (lt : α → α → Bool) (d : List α) (a b : Nat) :
    (insertionSortFunc lt d a b).Perm d :=
  insertionSortOuter_perm lt a b (b - a) d (a + 1)

theorem siftDownFunc_perm (lt : α → α → Bool) :
    ∀ (fuel : Nat) (d : List α) (root hi first : Nat),
      (siftDownFunc lt fuel d root hi first).Perm d := by
  intro fuel
  induction fuel with
  | zero => intro d root hi first; exact .refl _
  | succ n ih =>
    intro d root hi first
    unfold siftDownFunc
    dsimp only
    split
    · exact .refl _
    · split
      all_goals split
      all_goals first
        | exact .refl _
        | exact (ih _ _ _ _).trans (listSwap_perm d _ _)

theorem heapBuild_perm (lt : α → α → Bool) (hi first : Nat) :
    ∀ (count : Nat) (d : List α) (i : Nat), (heapBuild lt hi first count d i).Perm d := by
  intro count
  induction count with
  | zero => intro d i; exact .refl _
  | succ n ih =>
    intro d i
    exact (ih _ _).trans (siftDownFunc_perm lt hi d i hi first)

theorem heapPop_perm (lt : α → α → Bool) (first : Nat) :
    ∀ (count : Nat) (d : List α) (i : Nat), (heapPop lt first count d i).Perm d := by
  intro count
  induction count with
  | zero => intro d i; exact .refl _
  | succ n ih =>
    intro d i
    exact (ih _ _).trans ((siftDownFunc_perm lt i _ 0 i first).trans
      (listSwap_perm d first (first + i)))

theorem heapSortFunc_perm (lt : α → α → Bool) (d : List α) (a b : Nat) :
    (heapSortFunc lt d a b).Perm d :=
  (heapPop_perm lt a (b - a) _ (b - a - 1)).trans
    (heapBuild_perm lt (b - a) a ((b - a - 1) / 2 + 1) d ((b - a - 1) / 2))

theorem partitionLoop_perm (lt : α → α → Bool) (aIdx b : Nat) :
    ∀ (fuel : Nat) (d : List α) (i j : Nat), (partitionLoop lt aIdx b fuel d i j).1.Perm d := by
  intro fuel
  induction fuel with
  | zero => intro d i j; exact .refl _
  | succ n ih =>
    intro d i j
    unfold partitionLoop
    dsimp only
    split
    · exact .refl _
    · exact (ih _ _ _).trans (listSwap_perm d _ _)

theorem partitionFunc_perm (lt : α → α → Bool) (d : List α) (a b pivot : Nat) :
    (partitionFunc lt d a b pivot).1.Perm d := by
  unfold partitionFunc
  dsimp only
  split
  · exact (listSwap_perm _ _ _).trans (listSwap_perm d a pivot)
  · exact (listSwap_perm _ _ _).trans ((partitionLoop_perm lt a b b _ _ _).trans
      ((listSwap_perm _ _ _).trans (listSwap_perm d a pivot)))

theorem partitionEqualLoop_perm (lt : α → α → Bool) (aIdx b : Nat) :
    ∀ (fuel : Nat) (d : List α) (i j : Nat),
      (partitionEqualLoop lt aIdx b fuel d i j).1.Perm d := by
  intro fuel
  induction fuel with
  | zero => intro d i j; exact .refl _
  | succ n ih =>
    intro d i j
    unfold partitionEqualLoop
    dsimp only
    split
    · exact .refl _
    · exact (ih _ _ _).trans (listSwap_perm d _ _)

theorem partitionEqualFunc_perm (lt : α → α → Bool) (d : List α) (a b pivot : Nat) :
    (partitionEqualFunc lt d a b pivot).1.Perm d :=
  (partitionEqualLoop_perm lt a b b _ (a + 1) (b - 1)).trans (listSwap_perm d a pivot)

theorem shiftLeft_perm (lt : α → α → Bool) :
    ∀ (fuel : Nat) (d : List α) (j : Nat), (shiftLeft lt fuel d j).Perm d := by
  intro fuel
  induction fuel with
  | zero => intro d j; exact .refl _
  | succ n ih =>
    intro d j
    unfold shiftLeft
    split
    · split
      · exact .refl _
      · exact (ih _ _).trans (listSwap_perm d _ _)
    · exact .refl _

theorem shiftRight_perm (lt : α → α → Bool) (b : Nat) :
    ∀ (fuel : Nat) (d : List α) (j : Nat), (shiftRight lt b fuel d j).Perm d := by
  intro fuel
  induction fuel with
  | zero => intro d j; exact .refl _
  | succ n ih =>
    intro d j
    unfold shiftRight
    split
    · split
      · exact .refl _
      · exact (ih _ _).trans (listSwap_perm d _ _)
    · exact .refl _

theorem pisLoop_perm (lt : α → α → Bool) (a b : Nat) :
    ∀ (steps : Nat) (d : List α) (i : Nat), (pisLoop lt a b steps d i).1.Perm d := by
  intro steps
  induction steps with
  | zero => intro d i; exact .refl _
  | succ n ih =>
    intro d i
    unfold pisLoop
    dsimp only
    split
    · exact .refl _
    · split
      · exact .refl _
      · refine (ih _ _).trans ?_
        have h3 : ∀ (x : List α) (c : Prop) [Decidable c] (j : Nat),
            (if c then shiftRight lt b b x j else x).Perm x := by
          intro x c hc j
          split
          · exact shiftRight_perm lt b b x j
          · exact .refl _
        have h2 : ∀ (x : List α) (c : Prop) [Decidable c] (f j : Nat),
            (if c then shiftLeft lt f x j else x).Perm x := by
          intro x c hc f j
          split
          · exact shiftLeft_perm lt f x j
          · exact .refl _
        exact (h3 _ _ _).trans ((h2 _ _ _ _).trans (listSwap_perm d _ _))

theorem partialInsertionSortFunc_perm (lt : α → α → Bool) (d : List α) (a b : Nat) :
    (partialInsertionSortFunc lt d a b).1.Perm d :=
  pisLoop_perm lt a b 5 d (a + 1)

theorem breakPatternsFunc_perm (d : List α) (a b : Nat) :
    (breakPatternsFunc d a b).Perm d := by
  unfold breakPatternsFunc breakPatternsStep
  dsimp only
  split
  · exact (listSwap_perm _ _ _).trans ((listSwap_perm _ _ _).trans (listSwap_perm d _ _))
  · exact .refl _

theorem reverseRangeFunc_perm :
    ∀ (fuel : Nat) (d : List α) (i j : Nat), (reverseRangeFunc fuel d i j).Perm d := by
  intro fuel
  induction fuel with
  | zero => intro d i j; exact .refl _
  | succ n ih =>
    intro d i j
    unfold reverseRangeFunc
    split
    · exact (ih _ _ _).trans (listSwap_perm d i j)
    · exact .refl _

theorem pdqsortFunc_perm (lt : α → α → Bool) :
    ∀ (fuel : Nat) (d : List α) (a b limit : Nat) (wb wp : Bool),
      (pdqsortFunc lt fuel d a b limit wb wp).Perm d := by
  intro fuel
  induction fuel with
  | zero => intro d a b limit wb wp; exact .refl _
  | succ n ih =>
    intro d a b limit wb wp
    unfold pdqsortFunc
    lift_lets
    intro length d0 limit1 pv state d1 pivot hint pis d2 pe pr d3 mid ap ll rl bt wb1 wp1 d4 d5
    have hd0 : d0.Perm d := by
      show (if ¬ wb = true then breakPatternsFunc d a b else d).Perm d
      split
      · exact breakPatternsFunc_perm d a b
      · exact .refl _
    have hd1 : d1.Perm d0 := by
      show (if pv.2 = SortedHint.decreasing then
          (reverseRangeFunc b d0 a (b - 1), b - 1 - (pv.1 - a), SortedHint.increasing)
        else (d0, pv.1, pv.2)).1.Perm d0
      split
      · exact reverseRangeFunc_perm b d0 a (b - 1)
      · exact .refl _
    have hd2 : d2.Perm d := by
      refine List.Perm.trans ?_ (hd1.trans hd0)
      show (if wb = true ∧ wp = true ∧ hint = SortedHint.increasing then
          partialInsertionSortFunc lt d1 a b else (d1, false)).1.Perm d1
      split
      · exact partialInsertionSortFunc_perm lt d1 a b
      · exact .refl _
    have hd3 : d3.Perm d := (partitionFunc_perm lt d2 a b pivot).trans hd2
    split
    · exact insertionSortFunc_perm lt d a b
    · split
      · exact heapSortFunc_perm lt d a b
      · split
        · exact hd2
        · split
          · exact (ih pe.1 pe.2 b limit1 wb wp).trans
              ((partitionEqualFunc_perm lt d2 a b pivot).trans hd2)
          · split
            · exact (ih d4 (mid + 1) b limit1 wb1 wp1).trans
                ((ih d3 a mid limit1 true true).trans hd3)
            · exact (ih d5 a mid limit1 wb1 wp1).trans
                ((ih d3 (mid + 1) b limit1 true true).trans hd3)

theorem sortSlice_perm (lt : α → α → Bool) (d : List α) : (sortSlice lt d).Perm d :=
  pdqsortFunc_perm lt d.length d 0 d.length (bitsLen d.length) true true

/-- RankChunks returns a permutation of the scored chunks (one RankedChunk
    per input chunk, scored by calculateRelevanceScore): sort.Slice only
    rearranges the scored slice in place. -/
theorem rankChunks_perm_of_scored (query : GoStr) (chunks : List DocumentChunk) :
    (RankChunks query chunks).Perm (scoredChunks query chunks) :=
  sortSlice_perm (fun x y : RankedChunk => decide (y.score < x.score))
    (scoredChunks query chunks)

/-! Sortedness of the embedded pdqsort.  The comparison is assumed to be a
    strict weak order (transitive, negatively transitive, irreflexive),
    which holds for the descending score comparison. -/

/-- Strict weak order assumptions on a Boolean comparison. -/
structure IsSWO (lt : α → α → Bool) : Prop where
  trans : ∀ x y z, lt x y = true → lt y z = true → lt x z = true
  negTrans : ∀ x y z, lt x y = false → lt y z = false → lt x z = false
  irrefl : ∀ x, lt x x = false

theorem IsSWO.asym {lt : α → α → Bool} (h : IsSWO lt) (x y : α)
    (hxy : lt x y = true) : lt y x = false := by
  cases hyx : lt y x with
  | false => rfl
  | true => exact absurd (h.trans x y x hxy hyx) (by simp [h.irrefl x])

/-- Element at an index (the default is never read in the in-range uses). -/
def ga [Inhabited α] (d : List α) (i : Nat) : α := d.getD i default

/-- The segment d[a:b]. -/
def seg (d : List α) (a b : Nat) : List α := (d.drop a).take (b - a)

/-- Sortedness of the segment [a, b): no later element is strictly less. -/
def SortedRange [Inhabited α] (lt : α → α → Bool) (d : List α) (a b : Nat) : Prop :=
  ∀ i j, a ≤ i → i < j → j < b → lt (ga d j) (ga d i) = false

/-- v is a lower bound of the segment [a, b). -/
def LBP (lt : α → α → Bool) (v : α) (d : List α) (a b : Nat) : Prop :=
  ∀ x ∈ seg d a b, lt x v = false

theorem length_listSwap (d : List α) (i j : Nat) : (listSwap d i j).length = d.length := by
  unfold listSwap
  cases d[i]? <;> cases d[j]? <;> simp

theorem getElem?_listSwap_ne (d : List α) (i j k : Nat) (hki : k ≠ i) (hkj : k ≠ j) :
    (listSwap d i j)[k]? = d[k]? := by
  unfold listSwap
  cases d[i]? <;> cases d[j]? <;>
    simp [List.getElem?_set_ne (Ne.symm hki), List.getElem?_set_ne (Ne.symm hkj)]

theorem ga_of_getElem? [Inhabited α] (d : List α) (k : Nat) (x : α) (h : d[k]? = some x) :
    ga d k = x := by
  unfold ga
  rw [List.getD_eq_getElem?_getD, h]
  rfl

theorem ga_listSwap [Inhabited α] (d : List α) (i j : Nat) (hi : i < d.length)
    (hj : j < d.length) (k : Nat) :
    ga (listSwap d i j) k = if k = j then ga d i else if k = i then ga d j else ga d k := by
  have hgi : d[i]? = some (d[i]) := List.getElem?_eq_getElem hi
  have hgj : d[j]? = some (d[j]) := List.getElem?_eq_getElem hj
  have hswap : listSwap d i j = (d.set i (d[j])).set j (d[i]) := by
    unfold listSwap
    rw [hgi, hgj]
  by_cases hkj : k = j
  · subst hkj
    rw [if_pos rfl, hswap]
    refine (ga_of_getElem? _ _ _ ?_).trans (ga_of_getElem? d i d[i] hgi).symm
    exact List.getElem?_set_self (by simpa using hj)
  · by_cases hki : k = i
    · subst hki
      rw [if_neg hkj, if_pos rfl, hswap]
      refine (ga_of_getElem? _ _ _ ?_).trans (ga_of_getElem? d j d[j] hgj).symm
      rw [List.getElem?_set_ne (Ne.symm hkj)]
      exact List.getElem?_set_self hi
    · rw [if_neg hkj, if_neg hki]
      unfold ga
      rw [List.getD_eq_getElem?_getD, List.getD_eq_getElem?_getD,
        getElem?_listSwap_ne d i j k hki hkj]

theorem seg_getElem? (d : List α) (a b k : Nat) (hk : k < b - a) :
    (seg d a b)[k]? = d[a + k]? := by
  unfold seg
  rw [List.getElem?_take, if_pos hk, List.getElem?_drop]

theorem ga_mem_seg [Inhabited α] (d : List α) (a b k : Nat) (h1 : a ≤ k) (h2 : k < b)
    (h3 : b ≤ d.length) : ga d k ∈ seg d a b := by
  have hk : k < d.length := lt_of_lt_of_le h2 h3
  have hget : d[k]? = some (d[k]) := List.getElem?_eq_getElem hk
  have : (seg d a b)[k - a]? = some (d[k]) := by
    rw [seg_getElem? d a b (k - a) (by omega)]
    rw [show a + (k - a) = k by omega]
    exact hget
  rw [ga_of_getElem? d k (d[k]) hget]
  exact List.getElem?_mem this

theorem seg_decomposition (d : List α) (a b : Nat) (hab : a ≤ b) :
    d = d.take a ++ (seg d a b ++ d.drop b) := by
  have h1 : d.take a ++ d.drop a = d := List.take_append_drop a d
  have h2 : (d.drop a).take (b - a) ++ (d.drop a).drop (b - a) = d.drop a :=
    List.take_append_drop (b - a) (d.drop a)
  have h3 : (d.drop a).drop (b - a) = d.drop b := by
    rw [List.drop_drop]
    rw [show a + (b - a) = b by omega]
  have h4 : seg d a b ++ d.drop b = d.drop a := by
    unfold seg
    rw [← h3]
    exact h2
  rw [h4]
  exact h1.symm

theorem seg_perm_of_frame (d d' : List α) (a b : Nat) (hperm : d'.Perm d) (hab : a ≤ b)
    (hframe : ∀ k, k < a ∨ b ≤ k → d'[k]? = d[k]?) :
    (seg d' a b).Perm (seg d a b) := by
  have hlen : d'.length = d.length := hperm.length_eq
  have htake : d'.take a = d.take a := by
    apply List.ext_getElem?
    intro n
    rw [List.getElem?_take, List.getElem?_take]
    by_cases hn : n < a
    · rw [if_pos hn, if_pos hn, hframe n (Or.inl hn)]
    · rw [if_neg hn, if_neg hn]
  have hdrop : d'.drop b = d.drop b := by
    apply List.ext_getElem?
    intro n
    rw [List.getElem?_drop, List.getElem?_drop, hframe (b + n) (Or.inr (by omega))]
  have hd : d = d.take a ++ (seg d a b ++ d.drop b) := seg_decomposition d a b hab
  have hd' : d' = d'.take a ++ (seg d' a b ++ d'.drop b) := seg_decomposition d' a b hab
  have hp2 : (d'.take a ++ (seg d' a b ++ d'.drop b)).Perm
      (d.take a ++ (seg d a b ++ d.drop b)) := by
    rw [← hd, ← hd']
    exact hperm
  rw [htake, hdrop] at hp2
  have hp3 := (List.perm_append_left_iff (d.take a)).mp hp2
  exact (List.perm_append_right_iff (d.drop b)).mp hp3

theorem LBP_of_seg_perm [Inhabited α] (lt : α → α → Bool) (v : α) (d d' : List α)
    (a b : Nat) (hp : (seg d' a b).Perm (seg d a b)) (h : LBP lt v d a b) :
    LBP lt v d' a b := by
  intro x hx
  exact h x (hp.mem_iff.mp hx)

theorem mem_seg_mono (d : List α) (a a' b b' : Nat) (x : α) (ha : a ≤ a') (hb : b' ≤ b)
    (hx : x ∈ seg d a' b') : x ∈ seg d a b := by
  obtain ⟨n, hn, hx2⟩ := List.getElem_of_mem hx
  have hlen : (seg d a' b').length = min (b' - a') (d.length - a') := by
    unfold seg
    simp
  have hget : (seg d a' b')[n]? = some x := by
    rw [List.getElem?_eq_getElem hn, hx2]
  rw [seg_getElem? d a' b' n (by omega)] at hget
  have hmem : (seg d a b)[a' + n - a]? = some x := by
    rw [seg_getElem? d a b (a' + n - a) (by omega)]
    rw [show a + (a' + n - a) = a' + n by omega]
    exact hget
  exact List.getElem?_mem hmem

theorem LBP_restrict [Inhabited α] (lt : α → α → Bool) (v : α) (d : List α) (a a' b b' : Nat)
    (ha : a ≤ a') (hb : b' ≤ b) (h : LBP lt v d a b) :
    LBP lt v d a' b' := by
  intro x hx
  exact h x (mem_seg_mono d a a' b b' x ha hb hx)

/-- v is an upper bound of the segment [a, b). -/
def UBP (lt : α → α → Bool) (v : α) (d : List α) (a b : Nat) : Prop :=
  ∀ x ∈ seg d a b, lt v x = false

theorem ga_eq_of_frame [Inhabited α] (d d' : List α) (k : Nat) {k2 : Nat}
    (h : d'[k]? = d[k2]?) : ga d' k = ga d k2 := by
  unfold ga
  rw [List.getD_eq_getElem?_getD, List.getD_eq_getElem?_getD, h]

theorem mem_seg_exists (d : List α) (a b : Nat) (x : α) (hx : x ∈ seg d a b) :
    ∃ k, a ≤ k ∧ k < b ∧ k < d.length ∧ d[k]? = some x := by
  obtain ⟨n, hn, heq⟩ := List.getElem_of_mem hx
  have hlen : (seg d a b).length = min (b - a) (d.length - a) := by
    unfold seg
    simp
  have hget : (seg d a b)[n]? = some x := by
    rw [List.getElem?_eq_getElem hn, heq]
  rw [seg_getElem? d a b n (by omega)] at hget
  refine ⟨a + n, by omega, by omega, ?_, hget⟩
  have := List.getElem?_eq_some_iff.mp hget
  exact this.choose

theorem ga_of_mem_seg [Inhabited α] (d : List α) (a b : Nat) (x : α) (hx : x ∈ seg d a b) :
    ∃ k, a ≤ k ∧ k < b ∧ k < d.length ∧ ga d k = x := by
  obtain ⟨k, h1, h2, h3, h4⟩ := mem_seg_exists d a b x hx
  exact ⟨k, h1, h2, h3, ga_of_getElem? d k x h4⟩

theorem lessAt_eq_ga [Inhabited α] (lt : α → α → Bool) (d : List α) (i j : Nat)
    (hi : i < d.length) (hj : j < d.length) :
    lessAt lt d i j = lt (ga d i) (ga d j) := by
  have hgi : d[i]? = some (d[i]) := List.getElem?_eq_getElem hi
  have hgj : d[j]? = some (d[j]) := List.getElem?_eq_getElem hj
  unfold lessAt
  rw [hgi, hgj, ga_of_getElem? d i (d[i]) hgi, ga_of_getElem? d j (d[j]) hgj]

theorem sortedRange_of_adjacent [Inhabited α] (lt : α → α → Bool) (hswo : IsSWO lt)
    (d : List α) (a b : Nat)
    (h : ∀ k, a < k → k < b → lt (ga d k) (ga d (k - 1)) = false) :
    SortedRange lt d a b := by
  intro i j hai hij hjb
  induction j using Nat.strong_induction_on with
  | _ j ih =>
    by_cases hj1 : j = i + 1
    · subst hj1
      have := h (i + 1) (by omega) hjb
      simpa using this
    · have hj2 : i < j - 1 := by omega
      have h1 : lt (ga d j) (ga d (j - 1)) = false := h j (by omega) hjb
      have h2 : lt (ga d (j - 1)) (ga d i) = false := by
        have := ih (j - 1) (by omega) hj2 (by omega)
        exact this
      exact hswo.negTrans _ _ _ h1 h2

theorem insertInner_spec [Inhabited α] (lt : α → α → Bool) (hswo : IsSWO lt) (a : Nat) :
    ∀ (j : Nat) (d : List α), j < d.length →
      (∀ k, a < k → k < j → lt (ga d k) (ga d (k - 1)) = false) →
      (∀ k, a < k → k ≤ j →
        lt (ga (insertInner lt a d j) k) (ga (insertInner lt a d j) (k - 1)) = false) ∧
      (∀ k, k < a ∨ j < k → (insertInner lt a d j)[k]? = d[k]?) ∧
      (ga (insertInner lt a d j) j = ga d j ∨
        (a < j ∧ ga (insertInner lt a d j) j = ga d (j - 1))) := by
  intro j
  induction j with
  | zero =>
    intro d _ _
    refine ⟨fun k hk1 hk2 => absurd hk1 (by omega), fun k _ => rfl, Or.inl rfl⟩
  | succ j ih =>
    intro d hlen hpre
    by_cases hc : a < j + 1 ∧ lessAt lt d (j + 1) j = true
    · have hstep : insertInner lt a d (j + 1) = insertInner lt a (listSwap d (j + 1) j) j := by
        conv_lhs => rw [insertInner]
        rw [if_pos (show a < j + 1 ∧ lessAt lt d (j + 1) j = true from ⟨hc.1, hc.2⟩)]
      have hj1 : j + 1 < d.length := hlen
      have hjl : j < d.length := by omega
      have hlen' : (listSwap d (j + 1) j).length = d.length := length_listSwap d (j + 1) j
      have hga : ∀ k, ga (listSwap d (j + 1) j) k =
          if k = j then ga d (j + 1) else if k = j + 1 then ga d j else ga d k :=
        fun k => ga_listSwap d (j + 1) j hj1 hjl k
      have hpre' : ∀ k, a < k → k < j →
          lt (ga (listSwap d (j + 1) j) k) (ga (listSwap d (j + 1) j) (k - 1)) = false := by
        intro k hk1 hk2
        rw [hga k, if_neg (by omega), if_neg (by omega), hga (k - 1), if_neg (by omega),
          if_neg (by omega)]
        exact hpre k hk1 (by omega)
      obtain ⟨ih1, ih2, ih3⟩ := ih (listSwap d (j + 1) j) (by omega) hpre'
      have hfr : ∀ k, k < a ∨ j + 1 < k → (insertInner lt a d (j + 1))[k]? = d[k]? := by
        intro k hk
        rw [hstep, ih2 k (by omega), getElem?_listSwap_ne d (j + 1) j k (by omega) (by omega)]
      have hlast : ga (insertInner lt a d (j + 1)) (j + 1) = ga d j := by
        rw [hstep]
        have := ga_eq_of_frame _ _ (j + 1) (ih2 (j + 1) (by omega))
        rw [this, hga (j + 1), if_neg (by omega), if_pos rfl]
      have hltj : lt (ga d (j + 1)) (ga d j) = true := by
        rw [← lessAt_eq_ga lt d (j + 1) j hj1 hjl]
        exact hc.2
      refine ⟨?_, hfr, Or.inr ⟨hc.1, by simpa using hlast⟩⟩
      intro k hk1 hk2
      by_cases hkj : k = j + 1
      · subst hkj
        rw [hlast]
        rw [show j + 1 - 1 = j by omega]
        rcases ih3 with h3 | ⟨haj, h3⟩
        · rw [hstep, h3, hga j, if_pos rfl]
          exact hswo.asym _ _ hltj
        · rw [hstep, h3, hga (j - 1), if_neg (by omega), if_neg (by omega)]
          exact hpre j haj (by omega)
      · rw [hstep]
        exact ih1 k hk1 (by omega)
    · have hstep : insertInner lt a d (j + 1) = d := by
        unfold insertInner
        rw [if_neg]
        intro hcon
        exact hc ⟨hcon.1, hcon.2⟩
      rw [hstep]
      refine ⟨?_, fun k _ => rfl, Or.inl rfl⟩
      intro k hk1 hk2
      by_cases hkj : k = j + 1
      · subst hkj
        have hj1 : j + 1 < d.length := hlen
        have hle : lessAt lt d (j + 1) j = false := by
          cases hl : lessAt lt d (j + 1) j with
          | false => rfl
          | true => exact absurd ⟨hk1, hl⟩ hc
        rw [show j + 1 - 1 = j by omega]
        rw [← lessAt_eq_ga lt d (j + 1) j hj1 (by omega)]
        exact hle
      · exact hpre k hk1 (by omega)

theorem insertionSortOuter_spec [Inhabited α] (lt : α → α → Bool) (hswo : IsSWO lt)
    (a b : Nat) :
    ∀ (fuel : Nat) (d : List α) (i : Nat), b ≤ d.length → a + 1 ≤ i → b ≤ fuel + i →
      (∀ k, a < k → k < i → lt (ga d k) (ga d (k - 1)) = false) →
      (∀ k, a < k → k < b →
        lt (ga (insertionSortOuter lt a b fuel d i) k)
          (ga (insertionSortOuter lt a b fuel d i) (k - 1)) = false) ∧
      (∀ k, k < a ∨ b ≤ k → (insertionSortOuter lt a b fuel d i)[k]? = d[k]?) := by
  intro fuel
  induction fuel with
  | zero =>
    intro d i _ _ hfuel hpre
    exact ⟨fun k hk1 hk2 => hpre k hk1 (by omega), fun k _ => rfl⟩
  | succ fuel ih =>
    intro d i hblen hai hfuel hpre
    by_cases hib : i < b
    · have hstep : insertionSortOuter lt a b (fuel + 1) d i =
          insertionSortOuter lt a b fuel (insertInner lt a d i) (i + 1) := by
        conv_lhs => rw [insertionSortOuter]
        rw [if_pos hib]
      obtain ⟨s1, s2, _⟩ := insertInner_spec lt hswo a i d (by omega) hpre
      have hlen1 : (insertInner lt a d i).length = d.length :=
        (insertInner_perm lt a i d).length_eq
      obtain ⟨o1, o2⟩ := ih (insertInner lt a d i) (i + 1) (by omega) (by omega) (by omega)
        (fun k hk1 hk2 => s1 k hk1 (by omega))
      rw [hstep]
      refine ⟨o1, ?_⟩
      intro k hk
      rw [o2 k hk, s2 k (by omega)]
    · have hstep : insertionSortOuter lt a b (fuel + 1) d i = d := by
        conv_lhs => rw [insertionSortOuter]
        rw [if_neg hib]
      rw [hstep]
      exact ⟨fun k hk1 hk2 => hpre k hk1 (by omega), fun k _ => rfl⟩

theorem insertionSortFunc_spec [Inhabited α] (lt : α → α → Bool) (hswo : IsSWO lt)
    (d : List α) (a b : Nat) (hb : b ≤ d.length) :
    SortedRange lt (insertionSortFunc lt d a b) a b ∧
    (∀ k, k < a ∨ b ≤ k → (insertionSortFunc lt d a b)[k]? = d[k]?) := by
  obtain ⟨o1, o2⟩ := insertionSortOuter_spec lt hswo a b (b - a) d (a + 1) hb (by omega)
    (by omega) (fun k hk1 hk2 => absurd hk1 (by omega))
  unfold insertionSortFunc
  exact ⟨sortedRange_of_adjacent lt hswo _ a b o1, o2⟩

theorem scanLess_spec (lt : α → α → Bool) (d : List α) (aIdx j : Nat) :
    ∀ (fuel i : Nat), j + 1 ≤ fuel + i →
      i ≤ scanLess lt d aIdx j fuel i ∧
      (∀ k, i ≤ k → k < scanLess lt d aIdx j fuel i → lessAt lt d k aIdx = true) ∧
      (j < scanLess lt d aIdx j fuel i ∨
        lessAt lt d (scanLess lt d aIdx j fuel i) aIdx = false) ∧
      scanLess lt d aIdx j fuel i ≤ max i (j + 1) := by
  intro fuel
  induction fuel with
  | zero =>
    intro i hfuel
    rw [show scanLess lt d aIdx j 0 i = i from rfl]
    exact ⟨le_refl i, fun k hk1 hk2 => absurd (lt_of_le_of_lt hk1 hk2) (by omega),
      Or.inl (by omega), le_max_left i (j + 1)⟩
  | succ fuel ih =>
    intro i hfuel
    by_cases hc : i ≤ j ∧ lessAt lt d i aIdx = true
    · have hstep : scanLess lt d aIdx j (fuel + 1) i = scanLess lt d aIdx j fuel (i + 1) := by
        conv_lhs => rw [scanLess]
        rw [if_pos hc]
      obtain ⟨s1, s2, s3, s4⟩ := ih (i + 1) (by omega)
      rw [hstep]
      refine ⟨by omega, ?_, s3, by omega⟩
      intro k hk1 hk2
      by_cases hki : k = i
      · subst hki
        exact hc.2
      · exact s2 k (by omega) hk2
    · have hstep : scanLess lt d aIdx j (fuel + 1) i = i := by
        conv_lhs => rw [scanLess]
        rw [if_neg hc]
      rw [hstep]
      refine ⟨le_refl i, fun k hk1 hk2 => absurd (lt_of_le_of_lt hk1 hk2) (by omega), ?_,
        le_max_left i (j + 1)⟩
      by_cases hij : i ≤ j
      · refine Or.inr ?_
        cases hl : lessAt lt d i aIdx with
        | false => rfl
        | true => exact absurd ⟨hij, hl⟩ hc
      · exact Or.inl (by omega)

theorem scanGe_spec (lt : α → α → Bool) (d : List α) (aIdx i : Nat) (hi : 1 ≤ i) :
    ∀ (fuel j : Nat), j + 2 ≤ fuel + i →
      scanGe lt d aIdx i fuel j ≤ j ∧
      (∀ k, scanGe lt d aIdx i fuel j < k → k ≤ j → lessAt lt d k aIdx = false) ∧
      (scanGe lt d aIdx i fuel j < i ∨
        lessAt lt d (scanGe lt d aIdx i fuel j) aIdx = true) ∧
      min (i - 1) j ≤ scanGe lt d aIdx i fuel j := by
  intro fuel
  induction fuel with
  | zero =>
    intro j hfuel
    rw [show scanGe lt d aIdx i 0 j = j from rfl]
    exact ⟨le_refl j, fun k hk1 hk2 => absurd (lt_of_lt_of_le hk1 hk2) (by omega),
      Or.inl (by omega), min_le_right (i - 1) j⟩
  | succ fuel ih =>
    intro j hfuel
    by_cases hc : i ≤ j ∧ ¬ lessAt lt d j aIdx = true
    · have hstep : scanGe lt d aIdx i (fuel + 1) j = scanGe lt d aIdx i fuel (j - 1) := by
        conv_lhs => rw [scanGe]
        rw [if_pos hc]
      obtain ⟨s1, s2, s3, s4⟩ := ih (j - 1) (by omega)
      rw [hstep]
      refine ⟨by omega, ?_, s3, by omega⟩
      intro k hk1 hk2
      by_cases hkj : k = j
      · subst hkj
        cases hl : lessAt lt d k aIdx with
        | false => rfl
        | true => exact absurd hl hc.2
      · exact s2 k hk1 (by omega)
    · have hstep : scanGe lt d aIdx i (fuel + 1) j = j := by
        conv_lhs => rw [scanGe]
        rw [if_neg hc]
      rw [hstep]
      refine ⟨le_refl j, fun k hk1 hk2 => absurd (lt_of_lt_of_le hk1 hk2) (by omega), ?_,
        min_le_right (i - 1) j⟩
      by_cases hij : i ≤ j
      · refine Or.inr ?_
        cases hl : lessAt lt d j aIdx with
        | false => exact absurd ⟨hij, by simp [hl]⟩ hc
        | true => rfl
      · exact Or.inl (by omega)

theorem getElem?_listSwap_j (d : List α) (i j : Nat) (hi : i < d.length)
    (hj : j < d.length) : (listSwap d i j)[j]? = d[i]? := by
  have hgi : d[i]? = some (d[i]) := List.getElem?_eq_getElem hi
  have hgj : d[j]? = some (d[j]) := List.getElem?_eq_getElem hj
  unfold listSwap
  rw [hgi, hgj]
  show ((d.set i (d[j])).set j (d[i]))[j]? = some (d[i])
  exact List.getElem?_set_self (by simpa using hj)

theorem getElem?_listSwap_i (d : List α) (i j : Nat) (hi : i < d.length)
    (hj : j < d.length) : (listSwap d i j)[i]? = d[j]? := by
  by_cases hij : i = j
  · subst hij
    exact getElem?_listSwap_j d i i hi hi
  · have hgi : d[i]? = some (d[i]) := List.getElem?_eq_getElem hi
    have hgj : d[j]? = some (d[j]) := List.getElem?_eq_getElem hj
    unfold listSwap
    rw [hgi, hgj]
    show ((d.set i (d[j])).set j (d[i]))[i]? = some (d[j])
    rw [List.getElem?_set_ne (Ne.symm hij)]
    exact List.getElem?_set_self hi

theorem lessAt_congr (lt : α → α → Bool) (d d' : List α) (k l : Nat) {k2 l2 : Nat}
    (hk : d'[k]? = d[k2]?) (hl : d'[l]? = d[l2]?) : lessAt lt d' k l = lessAt lt d k2 l2 := by
  unfold lessAt
  rw [hk, hl]

theorem partitionLoop_spec (lt : α → α → Bool) (a b : Nat) :
    ∀ (fuel : Nat) (d : List α) (i j : Nat) (e : List α) (fi fj : Nat),
      partitionLoop lt a b fuel d i j = (e, fi, fj) →
      b ≤ d.length → a + 1 ≤ i → a ≤ j → j < b → i ≤ j + 2 → j + 2 ≤ fuel + i →
      (∀ k, a < k → k < i → lessAt lt d k a = true) →
      (∀ k, j < k → k < b → lessAt lt d k a = false) →
      (∀ k, k < a + 1 ∨ b ≤ k → e[k]? = d[k]?) ∧
      fj < fi ∧ a ≤ fj ∧ fj < b ∧
      (∀ k, a < k → k < fi → lessAt lt e k a = true) ∧
      (∀ k, fj < k → k < b → lessAt lt e k a = false) := by
  intro fuel
  induction fuel with
  | zero =>
    intro d i j e fi fj hr hblen hai haj hjb hij hfuel hL hR
    rw [show partitionLoop lt a b 0 d i j = (d, i, j) from rfl] at hr
    simp only [Prod.mk.injEq] at hr
    obtain ⟨rfl, rfl, rfl⟩ := hr
    exact ⟨fun k _ => rfl, by omega, haj, hjb, fun k hk1 hk2 => hL k hk1 hk2, hR⟩
  | succ fuel ih =>
    intro d i j e fi fj hr hblen hai haj hjb hij hfuel hL hR
    rw [partitionLoop] at hr
    obtain ⟨s1, s2, s3, s4⟩ := scanLess_spec lt d a j b i (by omega)
    obtain ⟨t1, t2, t3, t4⟩ :=
      scanGe_spec lt d a (scanLess lt d a j b i) (by omega) b j (by omega)
    have hL1 : ∀ k, a < k → k < scanLess lt d a j b i → lessAt lt d k a = true := by
      intro k hk1 hk2
      by_cases hki : k < i
      · exact hL k hk1 hki
      · exact s2 k (by omega) hk2
    have hR1 : ∀ k, scanGe lt d a (scanLess lt d a j b i) b j < k → k < b →
        lessAt lt d k a = false := by
      intro k hk1 hk2
      by_cases hkj : j < k
      · exact hR k hkj hk2
      · exact t2 k hk1 (by omega)
    split at hr
    · simp only [Prod.mk.injEq] at hr
      obtain ⟨rfl, rfl, rfl⟩ := hr
      refine ⟨fun k _ => rfl, by omega, by omega, by omega, hL1, hR1⟩
    · next hgt =>
      have hle : scanLess lt d a j b i ≤ scanGe lt d a (scanLess lt d a j b i) b j := by
        omega
      set i1 := scanLess lt d a j b i with hi1
      set j1 := scanGe lt d a i1 b j with hj1
      have hi1b : i1 ≤ j + 1 := by
        have := s4
        omega
      have hswl : ∀ k, k ≠ i1 → k ≠ j1 → (listSwap d i1 j1)[k]? = d[k]? :=
        fun k h1 h2 => getElem?_listSwap_ne d i1 j1 k h1 h2
      have hi1len : i1 < d.length := by omega
      have hj1len : j1 < d.length := by omega
      have halen : a < d.length := by omega
      have hga : (listSwap d i1 j1)[a]? = d[a]? := hswl a (by omega) (by omega)
      have hLs : ∀ k, a < k → k < i1 + 1 → lessAt lt (listSwap d i1 j1) k a = true := by
        intro k hk1 hk2
        by_cases hki : k = i1
        · subst hki
          rw [lessAt_congr lt d _ i1 a (getElem?_listSwap_i d i1 j1 hi1len hj1len) hga]
          rcases t3 with h | h
          · omega
          · exact h
        · rw [lessAt_congr lt d _ k a (hswl k hki (by omega)) hga]
          exact hL1 k hk1 (by omega)
      have hRs : ∀ k, j1 - 1 < k → k < b → lessAt lt (listSwap d i1 j1) k a = false := by
        intro k hk1 hk2
        by_cases hkj : k = j1
        · subst hkj
          rw [lessAt_congr lt d _ j1 a (getElem?_listSwap_j d i1 j1 hi1len hj1len) hga]
          rcases s3 with h | h
          · omega
          · exact h
        · rw [lessAt_congr lt d _ k a (hswl k (by omega) hkj) hga]
          exact hR1 k (by omega) hk2
      obtain ⟨c1, c2, c3, c4, c5, c6⟩ := ih (listSwap d i1 j1) (i1 + 1) (j1 - 1) e fi fj hr
        (by rw [length_listSwap]; exact hblen) (by omega) (by omega) (by omega) (by omega)
        (by omega) hLs hRs
      refine ⟨?_, c2, c3, c4, c5, c6⟩
      intro k hk
      rw [c1 k hk, hswl k (by omega) (by omega)]

theorem partitionFunc_spec [Inhabited α] (lt : α → α → Bool) (d0 : List α)
    (a b pivot : Nat) (hab : a < b) (hblen : b ≤ d0.length) (hpa : a ≤ pivot)
    (hpb : pivot < b) :
    ∀ (e : List α) (mid : Nat) (ap : Bool), partitionFunc lt d0 a b pivot = (e, mid, ap) →
      a ≤ mid ∧ mid < b ∧
      ga e mid = ga d0 pivot ∧
      (∀ k, a ≤ k → k < mid → lt (ga e k) (ga e mid) = true) ∧
      (∀ k, mid < k → k < b → lt (ga e k) (ga e mid) = false) ∧
      (∀ k, k < a ∨ b ≤ k → e[k]? = d0[k]?) := by
  intro e mid ap hr
  rw [partitionFunc] at hr
  set d1 := listSwap d0 a pivot with hd1
  have hd1len : d1.length = d0.length := length_listSwap d0 a pivot
  have halen : a < d1.length := by omega
  have hga1 : ga d1 a = ga d0 pivot :=
    ga_eq_of_frame d0 d1 a (getElem?_listSwap_i d0 a pivot (by omega) (by omega))
  obtain ⟨s1, s2, s3, s4⟩ := scanLess_spec lt d1 a (b - 1) b (a + 1) (by omega)
  set i0 := scanLess lt d1 a (b - 1) b (a + 1) with hi0
  have hi0b : i0 ≤ b := le_trans s4 (max_le (by omega) (by omega))
  obtain ⟨t1, t2, t3, t4⟩ := scanGe_spec lt d1 a i0 (by omega) b (b - 1) (by omega)
  set j0 := scanGe lt d1 a i0 b (b - 1) with hj0
  have haj0 : a ≤ j0 := le_trans (le_min (by omega) (by omega)) t4
  have hj0b : j0 < b := by omega
  have hL0 : ∀ k, a < k → k < i0 → lessAt lt d1 k a = true :=
    fun k hk1 hk2 => s2 k (by omega) hk2
  have hR0 : ∀ k, j0 < k → k < b → lessAt lt d1 k a = false :=
    fun k hk1 hk2 => t2 k hk1 (by omega)
  split at hr
  · next hgt =>
    simp only [Prod.mk.injEq] at hr
    obtain ⟨rfl, rfl, rfl⟩ := hr
    have hj0len : j0 < d1.length := by omega
    have hgemid : ga (listSwap d1 j0 a) j0 = ga d0 pivot := by
      rw [ga_eq_of_frame d1 _ j0 (getElem?_listSwap_i d1 j0 a hj0len halen)]
      exact hga1
    refine ⟨haj0, hj0b, hgemid, ?_, ?_, ?_⟩
    · intro k hk1 hk2
      rw [hgemid]
      by_cases hka : k = a
      · subst hka
        rw [ga_eq_of_frame d1 _ k (getElem?_listSwap_j d1 j0 k hj0len halen), ← hga1,
          ← lessAt_eq_ga lt d1 j0 k hj0len halen]
        exact hL0 j0 (by omega) (by omega)
      · rw [ga_eq_of_frame d1 _ k
          (getElem?_listSwap_ne d1 j0 a k (by omega) (by omega)), ← hga1,
          ← lessAt_eq_ga lt d1 k a (by omega) halen]
        exact hL0 k (by omega) (by omega)
    · intro k hk1 hk2
      rw [hgemid]
      rw [ga_eq_of_frame d1 _ k
        (getElem?_listSwap_ne d1 j0 a k (by omega) (by omega)), ← hga1,
        ← lessAt_eq_ga lt d1 k a (by omega) halen]
      exact hR0 k hk1 hk2
    · intro k hk
      rw [getElem?_listSwap_ne d1 j0 a k (by omega) (by omega),
        getElem?_listSwap_ne d0 a pivot k (by omega) (by omega)]
  · next hgt =>
    have hij : i0 ≤ j0 := by omega
    have hi0len : i0 < d1.length := by omega
    have hj0len : j0 < d1.length := by omega
    set din := listSwap d1 i0 j0 with hdin
    have hdinlen : din.length = d0.length := by
      rw [hdin, length_listSwap]
      exact hd1len
    have hdina : din[a]? = d1[a]? :=
      getElem?_listSwap_ne d1 i0 j0 a (by omega) (by omega)
    have hLs : ∀ k, a < k → k < i0 + 1 → lessAt lt din k a = true := by
      intro k hk1 hk2
      by_cases hki : k = i0
      · subst hki
        rw [lessAt_congr lt d1 din i0 a (getElem?_listSwap_i d1 i0 j0 hi0len hj0len) hdina]
        rcases t3 with h | h
        · omega
        · exact h
      · rw [lessAt_congr lt d1 din k a
          (getElem?_listSwap_ne d1 i0 j0 k (by omega) (by omega)) hdina]
        exact hL0 k hk1 (by omega)
    have hRs : ∀ k, j0 - 1 < k → k < b → lessAt lt din k a = false := by
      intro k hk1 hk2
      by_cases hkj : k = j0
      · subst hkj
        rw [lessAt_congr lt d1 din j0 a (getElem?_listSwap_j d1 i0 j0 hi0len hj0len) hdina]
        rcases s3 with h | h
        · omega
        · exact h
      · rw [lessAt_congr lt d1 din k a
          (getElem?_listSwap_ne d1 i0 j0 k (by omega) (by omega)) hdina]
        exact hR0 k (by omega) hk2
    obtain ⟨c1, c2, c3, c4, c5, c6⟩ := partitionLoop_spec lt a b b din (i0 + 1) (j0 - 1)
      (partitionLoop lt a b b din (i0 + 1) (j0 - 1)).1
      (partitionLoop lt a b b din (i0 + 1) (j0 - 1)).2.1
      (partitionLoop lt a b b din (i0 + 1) (j0 - 1)).2.2 rfl
      (by omega) (by omega) (by omega) (by omega) (by omega) (by omega) hLs hRs
    set r := partitionLoop lt a b b din (i0 + 1) (j0 - 1) with hrl
    have hrlen : r.1.length = d0.length := by
      rw [(partitionLoop_perm lt a b b din (i0 + 1) (j0 - 1)).length_eq]
      exact hdinlen
    simp only [Prod.mk.injEq] at hr
    obtain ⟨rfl, rfl, rfl⟩ := hr
    have hfjlen : r.2.2 < r.1.length := by omega
    have harlen : a < r.1.length := by omega
    have hra : r.1[a]? = d1[a]? := by
      rw [c1 a (Or.inl (by omega)), hdina]
    have hgemid : ga (listSwap r.1 r.2.2 a) r.2.2 = ga d0 pivot := by
      rw [ga_eq_of_frame r.1 _ r.2.2 (getElem?_listSwap_i r.1 r.2.2 a hfjlen harlen),
        ga_eq_of_frame d1 r.1 a hra]
      exact hga1
    have hgra : ga r.1 a = ga d0 pivot := by
      rw [ga_eq_of_frame d1 r.1 a hra]
      exact hga1
    refine ⟨c3, c4, hgemid, ?_, ?_, ?_⟩
    · intro k hk1 hk2
      rw [hgemid]
      by_cases hka : k = a
      · subst hka
        rw [ga_eq_of_frame r.1 _ k (getElem?_listSwap_j r.1 r.2.2 k hfjlen harlen),
          ← hgra, ← lessAt_eq_ga lt r.1 r.2.2 k hfjlen harlen]
        exact c5 r.2.2 (by omega) (by omega)
      · rw [ga_eq_of_frame r.1 _ k
          (getElem?_listSwap_ne r.1 r.2.2 a k (by omega) (by omega)), ← hgra,
          ← lessAt_eq_ga lt r.1 k a (by omega) harlen]
        exact c5 k (by omega) (by omega)
    · intro k hk1 hk2
      rw [hgemid]
      rw [ga_eq_of_frame r.1 _ k
        (getElem?_listSwap_ne r.1 r.2.2 a k (by omega) (by omega)), ← hgra,
        ← lessAt_eq_ga lt r.1 k a (by omega) harlen]
      exact c6 k hk1 hk2
    · intro k hk
      rw [getElem?_listSwap_ne r.1 r.2.2 a k (by omega) (by omega),
        c1 k (by omega), hdin, getElem?_listSwap_ne d1 i0 j0 k (by omega) (by omega),
        hd1, getElem?_listSwap_ne d0 a pivot k (by omega) (by omega)]

theorem scanEqI_spec (lt : α → α → Bool) (d : List α) (aIdx j : Nat) :
    ∀ (fuel i : Nat), j + 1 ≤ fuel + i →
      i ≤ scanEqI lt d aIdx j fuel i ∧
      (∀ k, i ≤ k → k < scanEqI lt d aIdx j fuel i → lessAt lt d aIdx k = false) ∧
      (j < scanEqI lt d aIdx j fuel i ∨
        lessAt lt d aIdx (scanEqI lt d aIdx j fuel i) = true) ∧
      scanEqI lt d aIdx j fuel i ≤ max i (j + 1) := by
  intro fuel
  induction fuel with
  | zero =>
    intro i hfuel
    rw [show scanEqI lt d aIdx j 0 i = i from rfl]
    exact ⟨le_refl i, fun k hk1 hk2 => absurd (lt_of_le_of_lt hk1 hk2) (by omega),
      Or.inl (by omega), le_max_left i (j + 1)⟩
  | succ fuel ih =>
    intro i hfuel
    by_cases hc : i ≤ j ∧ ¬ lessAt lt d aIdx i = true
    · have hstep : scanEqI lt d aIdx j (fuel + 1) i = scanEqI lt d aIdx j fuel (i + 1) := by
        conv_lhs => rw [scanEqI]
        rw [if_pos hc]
      obtain ⟨s1, s2, s3, s4⟩ := ih (i + 1) (by omega)
      rw [hstep]
      refine ⟨by omega, ?_, s3, by omega⟩
      intro k hk1 hk2
      by_cases hki : k = i
      · subst hki
        cases hl : lessAt lt d aIdx k with
        | false => rfl
        | true => exact absurd hl hc.2
      · exact s2 k (by omega) hk2
    · have hstep : scanEqI lt d aIdx j (fuel + 1) i = i := by
        conv_lhs => rw [scanEqI]
        rw [if_neg hc]
      rw [hstep]
      refine ⟨le_refl i, fun k hk1 hk2 => absurd (lt_of_le_of_lt hk1 hk2) (by omega), ?_,
        le_max_left i (j + 1)⟩
      by_cases hij : i ≤ j
      · refine Or.inr ?_
        cases hl : lessAt lt d aIdx i with
        | false => exact absurd ⟨hij, by simp [hl]⟩ hc
        | true => rfl
      · exact Or.inl (by omega)

theorem scanEqJ_spec (lt : α → α → Bool) (d : List α) (aIdx i : Nat) (hi : 1 ≤ i) :
    ∀ (fuel j : Nat), j + 2 ≤ fuel + i →
      scanEqJ lt d aIdx i fuel j ≤ j ∧
      (∀ k, scanEqJ lt d aIdx i fuel j < k → k ≤ j → lessAt lt d aIdx k = true) ∧
      (scanEqJ lt d aIdx i fuel j < i ∨
        lessAt lt d aIdx (scanEqJ lt d aIdx i fuel j) = false) ∧
      min (i - 1) j ≤ scanEqJ lt d aIdx i fuel j := by
  intro fuel
  induction fuel with
  | zero =>
    intro j hfuel
    rw [show scanEqJ lt d aIdx i 0 j = j from rfl]
    exact ⟨le_refl j, fun k hk1 hk2 => absurd (lt_of_lt_of_le hk1 hk2) (by omega),
      Or.inl (by omega), min_le_right (i - 1) j⟩
  | succ fuel ih =>
    intro j hfuel
    by_cases hc : i ≤ j ∧ lessAt lt d aIdx j = true
    · have hstep : scanEqJ lt d aIdx i (fuel + 1) j = scanEqJ lt d aIdx i fuel (j - 1) := by
        conv_lhs => rw [scanEqJ]
        rw [if_pos hc]
      obtain ⟨s1, s2, s3, s4⟩ := ih (j - 1) (by omega)
      rw [hstep]
      refine ⟨by omega, ?_, s3, by omega⟩
      intro k hk1 hk2
      by_cases hkj : k = j
      · subst hkj
        exact hc.2
      · exact s2 k hk1 (by omega)
    · have hstep : scanEqJ lt d aIdx i (fuel + 1) j = j := by
        conv_lhs => rw [scanEqJ]
        rw [if_neg hc]
      rw [hstep]
      refine ⟨le_refl j, fun k hk1 hk2 => absurd (lt_of_lt_of_le hk1 hk2) (by omega), ?_,
        min_le_right (i - 1) j⟩
      by_cases hij : i ≤ j
      · refine Or.inr ?_
        cases hl : lessAt lt d aIdx j with
        | false => rfl
        | true => exact absurd ⟨hij, hl⟩ hc
      · exact Or.inl (by omega)

theorem partitionEqualLoop_spec (lt : α → α → Bool) (a b : Nat) :
    ∀ (fuel : Nat) (d : List α) (i j : Nat) (e : List α) (m : Nat),
      partitionEqualLoop lt a b fuel d i j = (e, m) →
      b ≤ d.length → a + 1 ≤ i → a ≤ j → j < b → i ≤ j + 2 → i ≤ b → j + 2 ≤ fuel + i →
      (∀ k, a < k → k < i → lessAt lt d a k = false) →
      (∀ k, j < k → k < b → lessAt lt d a k = true) →
      (∀ k, k < a + 1 ∨ b ≤ k → e[k]? = d[k]?) ∧
      a + 1 ≤ m ∧ m ≤ b ∧
      (∀ k, a < k → k < m → lessAt lt e a k = false) ∧
      (∀ k, m ≤ k → k < b → lessAt lt e a k = true) := by
  intro fuel
  induction fuel with
  | zero =>
    intro d i j e m hr hblen hai haj hjb hij hib hfuel hL hR
    rw [show partitionEqualLoop lt a b 0 d i j = (d, i) from rfl] at hr
    simp only [Prod.mk.injEq] at hr
    obtain ⟨rfl, rfl⟩ := hr
    exact ⟨fun k _ => rfl, hai, hib, hL, fun k hk1 hk2 => hR k (by omega) hk2⟩
  | succ fuel ih =>
    intro d i j e m hr hblen hai haj hjb hij hib hfuel hL hR
    rw [partitionEqualLoop] at hr
    obtain ⟨s1, s2, s3, s4⟩ := scanEqI_spec lt d a j b i (by omega)
    obtain ⟨t1, t2, t3, t4⟩ :=
      scanEqJ_spec lt d a (scanEqI lt d a j b i) (by omega) b j (by omega)
    have hL1 : ∀ k, a < k → k < scanEqI lt d a j b i → lessAt lt d a k = false := by
      intro k hk1 hk2
      by_cases hki : k < i
      · exact hL k hk1 hki
      · exact s2 k (by omega) hk2
    have hR1 : ∀ k, scanEqJ lt d a (scanEqI lt d a j b i) b j < k → k < b →
        lessAt lt d a k = true := by
      intro k hk1 hk2
      by_cases hkj : j < k
      · exact hR k hkj hk2
      · exact t2 k hk1 (by omega)
    split at hr
    · next hgt =>
      simp only [Prod.mk.injEq] at hr
      obtain ⟨rfl, rfl⟩ := hr
      have hmb : scanEqI lt d a j b i ≤ b := le_trans s4 (max_le hib (by omega))
      refine ⟨fun k _ => rfl, by omega, hmb, hL1, ?_⟩
      intro k hk1 hk2
      exact hR1 k (by omega) hk2
    · next hgt =>
      set i1 := scanEqI lt d a j b i with hi1
      set j1 := scanEqJ lt d a i1 b j with hj1
      have hle : i1 ≤ j1 := by omega
      have hi1len : i1 < d.length := by omega
      have hj1len : j1 < d.length := by omega
      have hswl : ∀ k, k ≠ i1 → k ≠ j1 → (listSwap d i1 j1)[k]? = d[k]? :=
        fun k h1 h2 => getElem?_listSwap_ne d i1 j1 k h1 h2
      have hga : (listSwap d i1 j1)[a]? = d[a]? := hswl a (by omega) (by omega)
      have hLs : ∀ k, a < k → k < i1 + 1 → lessAt lt (listSwap d i1 j1) a k = false := by
        intro k hk1 hk2
        by_cases hki : k = i1
        · subst hki
          rw [lessAt_congr lt d _ a i1 hga (getElem?_listSwap_i d i1 j1 hi1len hj1len)]
          rcases t3 with h | h
          · omega
          · exact h
        · rw [lessAt_congr lt d _ a k hga (hswl k hki (by omega))]
          exact hL1 k hk1 (by omega)
      have hRs : ∀ k, j1 - 1 < k → k < b → lessAt lt (listSwap d i1 j1) a k = true := by
        intro k hk1 hk2
        by_cases hkj : k = j1
        · subst hkj
          rw [lessAt_congr lt d _ a j1 hga (getElem?_listSwap_j d i1 j1 hi1len hj1len)]
          rcases s3 with h | h
          · omega
          · exact h
        · rw [lessAt_congr lt d _ a k hga (hswl k (by omega) hkj)]
          exact hR1 k (by omega) hk2
      obtain ⟨c1, c2, c3, c4, c5⟩ := ih (listSwap d i1 j1) (i1 + 1) (j1 - 1) e m hr
        (by rw [length_listSwap]; exact hblen) (by omega) (by omega) (by omega) (by omega)
        (by omega) (by omega) hLs hRs
      refine ⟨?_, c2, c3, c4, c5⟩
      intro k hk
      rw [c1 k hk, hswl k (by omega) (by omega)]

theorem partitionEqualFunc_spec [Inhabited α] (lt : α → α → Bool) (hswo : IsSWO lt)
    (d0 : List α) (a b pivot : Nat) (hab : a < b) (hblen : b ≤ d0.length)
    (hpa : a ≤ pivot) (hpb : pivot < b) :
    ∀ (e : List α) (m : Nat), partitionEqualFunc lt d0 a b pivot = (e, m) →
      a + 1 ≤ m ∧ m ≤ b ∧
      (∀ k, a ≤ k → k < m → lt (ga d0 pivot) (ga e k) = false) ∧
      (∀ k, m ≤ k → k < b → lt (ga d0 pivot) (ga e k) = true) ∧
      (∀ k, k < a ∨ b ≤ k → e[k]? = d0[k]?) := by
  intro e m hr
  rw [partitionEqualFunc] at hr
  set d1 := listSwap d0 a pivot with hd1
  have hd1len : d1.length = d0.length := length_listSwap d0 a pivot
  have halen : a < d1.length := by omega
  have hga1 : ga d1 a = ga d0 pivot :=
    ga_eq_of_frame d0 d1 a (getElem?_listSwap_i d0 a pivot (by omega) (by omega))
  obtain ⟨c1, c2, c3, c4, c5⟩ := partitionEqualLoop_spec lt a b b d1 (a + 1) (b - 1) e m hr
    (by omega) (by omega) (by omega) (by omega) (by omega) (by omega) (by omega)
    (fun k hk1 hk2 => absurd hk1 (by omega))
    (fun k hk1 hk2 => absurd (lt_of_le_of_lt hk1 hk2) (by omega))
  have helen : e.length = d0.length := by
    have hp : e.Perm d1 := by
      have := partitionEqualLoop_perm lt a b b d1 (a + 1) (b - 1)
      rw [hr] at this
      exact this
    rw [hp.length_eq]
    exact hd1len
  have hea : ga e a = ga d0 pivot := by
    rw [ga_eq_of_frame d1 e a (c1 a (Or.inl (by omega)))]
    exact hga1
  refine ⟨c2, c3, ?_, ?_, ?_⟩
  · intro k hk1 hk2
    by_cases hka : k = a
    · subst hka
      rw [hea]
      exact hswo.irrefl _
    · rw [← hea, ← lessAt_eq_ga lt e a k (by omega) (by omega)]
      exact c4 k (by omega) hk2
  · intro k hk1 hk2
    rw [← hea, ← lessAt_eq_ga lt e a k (by omega) (by omega)]
    exact c5 k hk1 hk2
  · intro k hk
    rw [c1 k (by omega), hd1, getElem?_listSwap_ne d0 a pivot k (by omega) (by omega)]

theorem padvance_spec (lt : α → α → Bool) (d : List α) (b : Nat) :
    ∀ (fuel i : Nat), i ≤ b → b ≤ fuel + i →
      i ≤ padvance lt d b fuel i ∧ padvance lt d b fuel i ≤ b ∧
      (∀ k, i ≤ k → k < padvance lt d b fuel i → lessAt lt d k (k - 1) = false) ∧
      (padvance lt d b fuel i = b ∨
        lessAt lt d (padvance lt d b fuel i) (padvance lt d b fuel i - 1) = true) := by
  intro fuel
  induction fuel with
  | zero =>
    intro i hib hfuel
    rw [show padvance lt d b 0 i = i from rfl]
    exact ⟨le_refl i, hib, fun k hk1 hk2 => absurd (lt_of_le_of_lt hk1 hk2) (by omega),
      Or.inl (by omega)⟩
  | succ fuel ih =>
    intro i hib hfuel
    by_cases hc : i < b ∧ ¬ lessAt lt d i (i - 1) = true
    · have hstep : padvance lt d b (fuel + 1) i = padvance lt d b fuel (i + 1) := by
        conv_lhs => rw [padvance]
        rw [if_pos hc]
      obtain ⟨s1, s2, s3, s4⟩ := ih (i + 1) (by omega) (by omega)
      rw [hstep]
      refine ⟨by omega, s2, ?_, s4⟩
      intro k hk1 hk2
      by_cases hki : k = i
      · subst hki
        cases hl : lessAt lt d k (k - 1) with
        | false => rfl
        | true => exact absurd hl hc.2
      · exact s3 k (by omega) hk2
    · have hstep : padvance lt d b (fuel + 1) i = i := by
        conv_lhs => rw [padvance]
        rw [if_neg hc]
      rw [hstep]
      refine ⟨le_refl i, hib, fun k hk1 hk2 => absurd (lt_of_le_of_lt hk1 hk2) (by omega), ?_⟩
      by_cases hibs : i < b
      · refine Or.inr ?_
        cases hl : lessAt lt d i (i - 1) with
        | false => exact absurd ⟨hibs, by simp [hl]⟩ hc
        | true => rfl
      · exact Or.inl (by omega)

theorem shiftLeft_spec [Inhabited α] (lt : α → α → Bool) (hswo : IsSWO lt) (a b : Nat) :
    ∀ (fuel : Nat) (d : List α) (j : Nat), j < fuel → a ≤ j → j < b → b ≤ d.length →
      (0 < a → ∀ x ∈ seg d a b, lt x (ga d (a - 1)) = false) →
      (∀ k, a < k → k < j → lt (ga d k) (ga d (k - 1)) = false) →
      (∀ k, k < a ∨ j < k → (shiftLeft lt fuel d j)[k]? = d[k]?) ∧
      (∀ k, a < k → k ≤ j →
        lt (ga (shiftLeft lt fuel d j) k) (ga (shiftLeft lt fuel d j) (k - 1)) = false) ∧
      (ga (shiftLeft lt fuel d j) j = ga d j ∨
        (a < j ∧ ga (shiftLeft lt fuel d j) j = ga d (j - 1))) := by
  intro fuel
  induction fuel with
  | zero =>
    intro d j hfuel
    omega
  | succ fuel ih =>
    intro d j hfuel haj hjb hblen hLB hsort
    by_cases hj1 : 1 ≤ j
    · by_cases hc : lessAt lt d j (j - 1) = true
      · have hstep : shiftLeft lt (fuel + 1) d j =
            shiftLeft lt fuel (listSwap d j (j - 1)) (j - 1) := by
          conv_lhs => rw [shiftLeft]
          rw [if_pos hj1, if_neg (by simp [hc])]
        have hjlen : j < d.length := by omega
        have hj1len : j - 1 < d.length := by omega
        have haj2 : a < j := by
          by_contra hcon
          have hja : j = a := by omega
          have ha0 : 0 < a := by omega
          have hmem : ga d a ∈ seg d a b := ga_mem_seg d a b a (le_refl a) (by omega) hblen
          have hfa := hLB ha0 (ga d a) hmem
          have h2 : lt (ga d a) (ga d (a - 1)) = true := by
            rw [← lessAt_eq_ga lt d a (a - 1) (by omega) (by omega), ← hja]
            exact hc
          rw [h2] at hfa
          exact Bool.true_eq_false.mp hfa
        have hswlen : (listSwap d j (j - 1)).length = d.length := length_listSwap d j (j - 1)
        have hsegp : (seg (listSwap d j (j - 1)) a b).Perm (seg d a b) :=
          seg_perm_of_frame d (listSwap d j (j - 1)) a b (listSwap_perm d j (j - 1))
            (by omega)
            (fun k hk => getElem?_listSwap_ne d j (j - 1) k (by omega) (by omega))
        have hLB' : 0 < a → ∀ x ∈ seg (listSwap d j (j - 1)) a b,
            lt x (ga (listSwap d j (j - 1)) (a - 1)) = false := by
          intro ha0 x hx
          rw [ga_eq_of_frame d _ (a - 1)
            (getElem?_listSwap_ne d j (j - 1) (a - 1) (by omega) (by omega))]
          exact hLB ha0 x (hsegp.mem_iff.mp hx)
        have hsort' : ∀ k, a < k → k < j - 1 →
            lt (ga (listSwap d j (j - 1)) k) (ga (listSwap d j (j - 1)) (k - 1)) = false := by
          intro k hk1 hk2
          rw [ga_eq_of_frame d _ k (getElem?_listSwap_ne d j (j - 1) k (by omega) (by omega)),
            ga_eq_of_frame d _ (k - 1)
              (getElem?_listSwap_ne d j (j - 1) (k - 1) (by omega) (by omega))]
          exact hsort k hk1 (by omega)
        obtain ⟨f1, f2, f3⟩ := ih (listSwap d j (j - 1)) (j - 1) (by omega) (by omega)
          (by omega) (by omega) hLB' hsort'
        have hgj : ga (shiftLeft lt fuel (listSwap d j (j - 1)) (j - 1)) j = ga d (j - 1) := by
          rw [ga_eq_of_frame (listSwap d j (j - 1)) _ j (f1 j (by omega))]
          exact ga_eq_of_frame d _ j (getElem?_listSwap_i d j (j - 1) hjlen hj1len)
        rw [hstep]
        refine ⟨?_, ?_, Or.inr ⟨haj2, hgj⟩⟩
        · intro k hk
          rw [f1 k (by omega), getElem?_listSwap_ne d j (j - 1) k (by omega) (by omega)]
        · intro k hk1 hk2
          by_cases hkj : k = j
          · subst hkj
            rw [hgj]
            have hlt : lt (ga d k) (ga d (k - 1)) = true := by
              rw [← lessAt_eq_ga lt d k (k - 1) hjlen hj1len]
              exact hc
            rcases f3 with h3 | ⟨haj3, h3⟩
            · rw [h3, ga_eq_of_frame d _ (k - 1)
                (getElem?_listSwap_j d k (k - 1) hjlen hj1len)]
              exact hswo.asym _ _ hlt
            · rw [h3, ga_eq_of_frame d _ (k - 1 - 1)
                (getElem?_listSwap_ne d k (k - 1) (k - 1 - 1) (by omega) (by omega))]
              exact hsort (k - 1) haj3 (by omega)
          · exact f2 k hk1 (by omega)
      · have hstep : shiftLeft lt (fuel + 1) d j = d := by
          conv_lhs => rw [shiftLeft]
          rw [if_pos hj1, if_pos (by simp [hc])]
        rw [hstep]
        refine ⟨fun k _ => rfl, ?_, Or.inl rfl⟩
        intro k hk1 hk2
        by_cases hkj : k = j
        · subst hkj
          rw [← lessAt_eq_ga lt d k (k - 1) (by omega) (by omega)]
          cases hl : lessAt lt d k (k - 1) with
          | false => rfl
          | true => exact absurd hl hc
        · exact hsort k hk1 (by omega)
    · have hstep : shiftLeft lt (fuel + 1) d j = d := by
        conv_lhs => rw [shiftLeft]
        rw [if_neg hj1]
      rw [hstep]
      exact ⟨fun k _ => rfl, fun k hk1 hk2 => absurd hk1 (by omega), Or.inl rfl⟩

theorem shiftRight_frame (lt : α → α → Bool) (b : Nat) :
    ∀ (fuel : Nat) (d : List α) (j : Nat), 1 ≤ j →
      ∀ k, k < j - 1 ∨ b ≤ k → (shiftRight lt b fuel d j)[k]? = d[k]? := by
  intro fuel
  induction fuel with
  | zero =>
    intro d j _ k _
    rfl
  | succ fuel ih =>
    intro d j hj1 k hk
    by_cases hjb : j < b
    · by_cases hc : lessAt lt d j (j - 1) = true
      · have hstep : shiftRight lt b (fuel + 1) d j =
            shiftRight lt b fuel (listSwap d j (j - 1)) (j + 1) := by
          conv_lhs => rw [shiftRight]
          rw [if_pos hjb, if_neg (by simp [hc])]
        rw [hstep, ih (listSwap d j (j - 1)) (j + 1) (by omega) k (by omega),
          getElem?_listSwap_ne d j (j - 1) k (by omega) (by omega)]
      · have hstep : shiftRight lt b (fuel + 1) d j = d := by
          conv_lhs => rw [shiftRight]
          rw [if_pos hjb, if_pos (by simp [hc])]
        rw [hstep]
    · have hstep : shiftRight lt b (fuel + 1) d j = d := by
        conv_lhs => rw [shiftRight]
        rw [if_neg hjb]
      rw [hstep]

theorem pisLoop_spec [Inhabited α] (lt : α → α → Bool) (hswo : IsSWO lt) (a b : Nat) :
    ∀ (steps : Nat) (d : List α) (i : Nat) (e : List α) (flag : Bool),
      pisLoop lt a b steps d i = (e, flag) →
      b ≤ d.length → a + 1 ≤ i → i ≤ b →
      (0 < a → ∀ x ∈ seg d a b, lt x (ga d (a - 1)) = false) →
      (∀ k, a < k → k < i → lt (ga d k) (ga d (k - 1)) = false) →
      (∀ k, k < a ∨ b ≤ k → e[k]? = d[k]?) ∧
      (flag = true → SortedRange lt e a b) := by
  intro steps
  induction steps with
  | zero =>
    intro d i e flag hr hblen hai hib hLB hsort
    rw [show pisLoop lt a b 0 d i = (d, false) from rfl] at hr
    simp only [Prod.mk.injEq] at hr
    obtain ⟨rfl, rfl⟩ := hr
    exact ⟨fun k _ => rfl, fun h => absurd h (by simp)⟩
  | succ steps ih =>
    intro d i e flag hr hblen hai hib hLB hsort
    rw [pisLoop] at hr
    obtain ⟨p1, p2, p3, p4⟩ := padvance_spec lt d b b i hib (by omega)
    split at hr
    · next heq =>
      simp only [Prod.mk.injEq] at hr
      obtain ⟨rfl, rfl⟩ := hr
      refine ⟨fun k _ => rfl, fun _ => ?_⟩
      apply sortedRange_of_adjacent lt hswo
      intro k hk1 hk2
      by_cases hki : k < i
      · exact hsort k hk1 hki
      · rw [← lessAt_eq_ga lt d k (k - 1) (by omega) (by omega)]
        exact p3 k (by omega) (by omega)
    · next hne =>
      split at hr
      · simp only [Prod.mk.injEq] at hr
        obtain ⟨rfl, rfl⟩ := hr
        exact ⟨fun k _ => rfl, fun h => absurd h (by simp)⟩
      · next hb50 =>
        set i1 := padvance lt d b b i with hi1
        have hi1b : i1 < b := by omega
        have hi1a : a + 1 ≤ i1 := by omega
        have hi1len : i1 < d.length := by omega
        have hi11len : i1 - 1 < d.length := by omega
        set d1 := listSwap d i1 (i1 - 1) with hd1
        have hd1len : d1.length = d.length := length_listSwap d i1 (i1 - 1)
        have hd1p : d1.Perm d := listSwap_perm d i1 (i1 - 1)
        have hd1fr : ∀ k, k < a ∨ b ≤ k → d1[k]? = d[k]? :=
          fun k hk => getElem?_listSwap_ne d i1 (i1 - 1) k (by omega) (by omega)
        have hd1seg : (seg d1 a b).Perm (seg d a b) :=
          seg_perm_of_frame d d1 a b hd1p (by omega) hd1fr
        have hd1LB : 0 < a → ∀ x ∈ seg d1 a b, lt x (ga d1 (a - 1)) = false := by
          intro ha0 x hx
          rw [ga_eq_of_frame d d1 (a - 1) (hd1fr (a - 1) (Or.inl (by omega)))]
          exact hLB ha0 x (hd1seg.mem_iff.mp hx)
        have hd1sort : ∀ k, a < k → k < i1 - 1 →
            lt (ga d1 k) (ga d1 (k - 1)) = false := by
          intro k hk1 hk2
          rw [ga_eq_of_frame d d1 k
            (getElem?_listSwap_ne d i1 (i1 - 1) k (by omega) (by omega)),
            ga_eq_of_frame d d1 (k - 1)
              (getElem?_listSwap_ne d i1 (i1 - 1) (k - 1) (by omega) (by omega))]
          by_cases hki : k < i
          · exact hsort k hk1 hki
          · rw [← lessAt_eq_ga lt d k (k - 1) (by omega) (by omega)]
            exact p3 k (by omega) (by omega)
        set d2 := if i1 - a ≥ 2 then shiftLeft lt i1 d1 (i1 - 1) else d1 with hd2
        have hd2all : d2.Perm d1 ∧ (∀ k, k < a ∨ i1 - 1 < k → d2[k]? = d1[k]?) ∧
            (∀ k, a < k → k ≤ i1 - 1 → lt (ga d2 k) (ga d2 (k - 1)) = false) := by
          by_cases h2 : i1 - a ≥ 2
          · rw [hd2, if_pos h2]
            obtain ⟨f1, f2, _⟩ := shiftLeft_spec lt hswo a b i1 d1 (i1 - 1) (by omega)
              (by omega) (by omega) (by omega) hd1LB hd1sort
            exact ⟨shiftLeft_perm lt i1 d1 (i1 - 1), f1, f2⟩
          · rw [hd2, if_neg h2]
            refine ⟨List.Perm.refl d1, fun k _ => rfl, ?_⟩
            intro k hk1 hk2
            exact absurd hk1 (by omega)
        obtain ⟨hd2p, hd2fr, hd2sort⟩ := hd2all
        have hd2len : d2.length = d.length := by
          rw [hd2p.length_eq, hd1len]
        set d3 := if b - i1 ≥ 2 then shiftRight lt b b d2 (i1 + 1) else d2 with hd3
        have hd3all : d3.Perm d2 ∧ (∀ k, k < i1 ∨ b ≤ k → d3[k]? = d2[k]?) := by
          by_cases h3 : b - i1 ≥ 2
          · rw [hd3, if_pos h3]
            refine ⟨shiftRight_perm lt b b d2 (i1 + 1), ?_⟩
            intro k hk
            exact shiftRight_frame lt b b d2 (i1 + 1) (by omega) k (by omega)
          · rw [hd3, if_neg h3]
            exact ⟨List.Perm.refl d2, fun k _ => rfl⟩
        obtain ⟨hd3p, hd3fr⟩ := hd3all
        have hd3len : d3.length = d.length := by
          rw [hd3p.length_eq, hd2len]
        have hd3sort : ∀ k, a < k → k < i1 → lt (ga d3 k) (ga d3 (k - 1)) = false := by
          intro k hk1 hk2
          rw [ga_eq_of_frame d2 d3 k (hd3fr k (Or.inl (by omega))),
            ga_eq_of_frame d2 d3 (k - 1) (hd3fr (k - 1) (Or.inl (by omega)))]
          exact hd2sort k hk1 (by omega)
        have hd3LB : 0 < a → ∀ x ∈ seg d3 a b, lt x (ga d3 (a - 1)) = false := by
          intro ha0 x hx
          have hseg2 : (seg d2 a b).Perm (seg d1 a b) :=
            seg_perm_of_frame d1 d2 a b hd2p (by omega)
              (fun k hk => hd2fr k (by omega))
          have hseg3 : (seg d3 a b).Perm (seg d2 a b) :=
            seg_perm_of_frame d2 d3 a b hd3p (by omega)
              (fun k hk => hd3fr k (by omega))
          rw [ga_eq_of_frame d2 d3 (a - 1) (hd3fr (a - 1) (Or.inl (by omega))),
            ga_eq_of_frame d1 d2 (a - 1) (hd2fr (a - 1) (Or.inl (by omega))),
            ga_eq_of_frame d d1 (a - 1) (hd1fr (a - 1) (Or.inl (by omega)))]
          exact hLB ha0 x
            (hd1seg.mem_iff.mp (hseg2.mem_iff.mp (hseg3.mem_iff.mp hx)))
        obtain ⟨c1, c2⟩ := ih d3 i1 e flag hr (by omega) hi1a (by omega) hd3LB hd3sort
        refine ⟨?_, c2⟩
        intro k hk
        rw [c1 k hk, hd3fr k (by omega), hd2fr k (by omega), hd1fr k hk]

theorem partialInsertionSortFunc_spec [Inhabited α] (lt : α → α → Bool) (hswo : IsSWO lt)
    (d : List α) (a b : Nat) (hab : a < b) (hblen : b ≤ d.length)
    (hLB : 0 < a → ∀ x ∈ seg d a b, lt x (ga d (a - 1)) = false) :
    ∀ (e : List α) (flag : Bool), partialInsertionSortFunc lt d a b = (e, flag) →
      (∀ k, k < a ∨ b ≤ k → e[k]? = d[k]?) ∧
      (flag = true → SortedRange lt e a b) := by
  intro e flag hr
  rw [partialInsertionSortFunc] at hr
  exact pisLoop_spec lt hswo a b 5 d (a + 1) e flag hr hblen (by omega) (by omega) hLB
    (fun k hk1 hk2 => absurd hk1 (by omega))

/-- Max-heap property restricted to parents at relative index at least r:
    data[first+t] is not less than either child data[first+c] for c < n. -/
def HeapFrom [Inhabited α] (lt : α → α → Bool) (first : Nat) (d : List α) (r n : Nat) :
    Prop :=
  ∀ t c, r ≤ t → (c = 2 * t + 1 ∨ c = 2 * t + 2) → c < n →
    lt (ga d (first + t)) (ga d (first + c)) = false

theorem siftDownFunc_spec [Inhabited α] (lt : α → α → Bool) (hswo : IsSWO lt)
    (hi first : Nat) :
    ∀ (fuel : Nat) (d : List α) (root : Nat) (e : List α),
      siftDownFunc lt fuel d root hi first = e →
      hi ≤ fuel + root → first + hi ≤ d.length →
      HeapFrom lt first d (root + 1) hi →
      HeapFrom lt first e root hi ∧
      (∀ k, k ≠ first + root → (k < first + (2 * root + 1) ∨ first + hi ≤ k) →
        e[k]? = d[k]?) ∧
      (ga e (first + root) = ga d (first + root) ∨
        ∃ c, (c = 2 * root + 1 ∨ c = 2 * root + 2) ∧ c < hi ∧
          ga e (first + root) = ga d (first + c)) := by
  intro fuel
  induction fuel with
  | zero =>
    intro d root e hr hfuel hblen hpre
    rw [show siftDownFunc lt 0 d root hi first = d from rfl] at hr
    subst hr
    refine ⟨?_, fun k _ _ => rfl, Or.inl rfl⟩
    intro t c ht hc hcn
    rcases Nat.lt_or_ge t (root + 1) with htr | htr
    · omega
    · exact hpre t c htr hc hcn
  | succ fuel ih =>
    intro d root e hr hfuel hblen hpre
    rw [siftDownFunc] at hr
    by_cases hc0 : 2 * root + 1 ≥ hi
    · rw [if_pos hc0] at hr
      subst hr
      refine ⟨?_, fun k _ _ => rfl, Or.inl rfl⟩
      intro t c ht hc hcn
      rcases Nat.lt_or_ge t (root + 1) with htr | htr
      · omega
      · exact hpre t c htr hc hcn
    · rw [if_neg hc0] at hr
      have hrootlen : first + root < d.length := by omega
      have hch0len : first + (2 * root + 1) < d.length := by omega
      set ch := if 2 * root + 1 + 1 < hi ∧
          lessAt lt d (first + (2 * root + 1)) (first + (2 * root + 1) + 1) = true then
          2 * root + 1 + 1 else 2 * root + 1 with hch
      have hchcases : ch = 2 * root + 1 ∨ ch = 2 * root + 2 := by
        rw [hch]
        split
        · exact Or.inr rfl
        · exact Or.inl rfl
      have hchhi : ch < hi := by
        rw [hch]
        split
        · next hcond => omega
        · omega
      have hchlen : first + ch < d.length := by omega
      have hcmax : ∀ s, (s = 2 * root + 1 ∨ s = 2 * root + 2) → s < hi →
          lt (ga d (first + ch)) (ga d (first + s)) = false := by
        intro s hs hshi
        rw [hch]
        split
        · next hcond =>
          have hlt : lt (ga d (first + (2 * root + 1)))
              (ga d (first + (2 * root + 1) + 1)) = true := by
            rw [← lessAt_eq_ga lt d _ _ hch0len (by omega)]
            exact hcond.2
          rcases hs with hs | hs
          · subst hs
            exact hswo.asym _ _ hlt
          · subst hs
            rw [show first + (2 * root + 2) = first + (2 * root + 1) + 1 by omega]
            exact hswo.irrefl _
        · next hcond =>
          rcases hs with hs | hs
          · subst hs
            exact hswo.irrefl _
          · subst hs
            have hns : ¬ (2 * root + 1 + 1 < hi ∧ lessAt lt d (first + (2 * root + 1))
                (first + (2 * root + 1) + 1) = true) := hcond
            have hlf : lessAt lt d (first + (2 * root + 1))
                (first + (2 * root + 1) + 1) = false := by
              cases hl : lessAt lt d (first + (2 * root + 1))
                  (first + (2 * root + 1) + 1) with
              | false => rfl
              | true => exact absurd ⟨by omega, hl⟩ hns
            rw [show first + (2 * root + 2) = first + (2 * root + 1) + 1 by omega]
            rw [← lessAt_eq_ga lt d _ _ hch0len (by omega)]
            exact hlf
      by_cases hnl : lessAt lt d (first + root) (first + ch) = true
      · rw [if_neg (by simp [hnl])] at hr
        have hswlen : (listSwap d (first + root) (first + ch)).length = d.length :=
          length_listSwap d _ _
        have hpre' : HeapFrom lt first (listSwap d (first + root) (first + ch))
            (ch + 1) hi := by
          intro t c ht hc hcn
          have htne : first + t ≠ first + root := by omega
          have htne2 : first + t ≠ first + ch := by omega
          have hcne : first + c ≠ first + root := by omega
          have hcne2 : first + c ≠ first + ch := by omega
          rw [ga_eq_of_frame d _ (first + t)
            (getElem?_listSwap_ne d _ _ _ htne htne2),
            ga_eq_of_frame d _ (first + c)
              (getElem?_listSwap_ne d _ _ _ hcne hcne2)]
          exact hpre t c (by omega) hc hcn
        obtain ⟨ih1, ih2, ih3⟩ := ih (listSwap d (first + root) (first + ch)) ch e hr
          (by omega) (by omega) hpre'
        have hroote : ga e (first + root) = ga d (first + ch) := by
          rw [ga_eq_of_frame _ e (first + root) (ih2 (first + root) (by omega)
            (Or.inl (by omega)))]
          exact ga_eq_of_frame d _ (first + root)
            (getElem?_listSwap_i d (first + root) (first + ch) hrootlen hchlen)
        have hltrc : lt (ga d (first + root)) (ga d (first + ch)) = true := by
          rw [← lessAt_eq_ga lt d _ _ hrootlen hchlen]
          exact hnl
        refine ⟨?_, ?_, Or.inr ⟨ch, hchcases, hchhi, hroote⟩⟩
        · intro t c ht hc hcn
          rcases Nat.lt_or_ge t ch with htch | htch
          · rcases Nat.eq_or_lt_of_le ht with htr | htr
            · subst htr
              rw [hroote]
              by_cases hcch : c = ch
              · subst hcch
                rcases ih3 with h3 | ⟨cc, hcc, hcchi, h3⟩
                · rw [h3, ga_eq_of_frame d _ (first + ch)
                    (getElem?_listSwap_j d (first + root) (first + ch) hrootlen hchlen)]
                  exact hswo.asym _ _ hltrc
                · rw [h3, ga_eq_of_frame d _ (first + cc) (getElem?_listSwap_ne d _ _ _
                    (by omega) (by omega))]
                  exact hpre ch cc (by omega) hcc hcchi
              · have hce : ga e (first + c) = ga d (first + c) := by
                  rw [ga_eq_of_frame _ e (first + c) (ih2 (first + c) (by omega)
                    (Or.inl (by omega)))]
                  exact ga_eq_of_frame d _ (first + c)
                    (getElem?_listSwap_ne d _ _ _ (by omega) (by omega))
                rw [hce]
                exact hcmax c hc hcn
            · have hte : ga e (first + t) = ga d (first + t) := by
                rw [ga_eq_of_frame _ e (first + t) (ih2 (first + t) (by omega)
                  (Or.inl (by omega)))]
                exact ga_eq_of_frame d _ (first + t)
                  (getElem?_listSwap_ne d _ _ _ (by omega) (by omega))
              have hce : ga e (first + c) = ga d (first + c) := by
                rw [ga_eq_of_frame _ e (first + c) (ih2 (first + c) (by omega)
                  (Or.inl (by omega)))]
                exact ga_eq_of_frame d _ (first + c)
                  (getElem?_listSwap_ne d _ _ _ (by omega) (by omega))
              rw [hte, hce]
              exact hpre t c (by omega) hc hcn
          · exact ih1 t c htch hc hcn
        · intro k hk1 hk2
          rw [ih2 k (by omega) (by omega), getElem?_listSwap_ne d _ _ k (by omega)
            (by omega)]
      · rw [if_pos (by simp [hnl])] at hr
        subst hr
        have hrc : lt (ga d (first + root)) (ga d (first + ch)) = false := by
          cases hl : lessAt lt d (first + root) (first + ch) with
          | false =>
            rw [← lessAt_eq_ga lt d _ _ hrootlen hchlen]
            exact hl
          | true => exact absurd hl hnl
        refine ⟨?_, fun k _ _ => rfl, Or.inl rfl⟩
        intro t c ht hc hcn
        rcases Nat.eq_or_lt_of_le ht with htr | htr
        · subst htr
          by_cases hcch : c = ch
          · subst hcch
            exact hrc
          · exact hswo.negTrans _ _ _ hrc (hcmax c hc hcn)
        · exact hpre t c htr hc hcn

theorem heapFrom_root_le [Inhabited α] (lt : α → α → Bool) (hswo : IsSWO lt)
    (first : Nat) (d : List α) (n : Nat) (h : HeapFrom lt first d 0 n) :
    ∀ t, t < n → lt (ga d first) (ga d (first + t)) = false := by
  intro t
  induction t using Nat.strong_induction_on with
  | _ t ih =>
    intro htn
    by_cases ht0 : t = 0
    · subst ht0
      rw [show first + 0 = first by omega]
      exact hswo.irrefl _
    · have hp : (t - 1) / 2 < t := by omega
      have hrel : t = 2 * ((t - 1) / 2) + 1 ∨ t = 2 * ((t - 1) / 2) + 2 := by omega
      have h1 : lt (ga d (first + (t - 1) / 2)) (ga d (first + t)) = false :=
        h ((t - 1) / 2) t (by omega) hrel htn
      have h2 : lt (ga d first) (ga d (first + (t - 1) / 2)) = false :=
        ih ((t - 1) / 2) hp (by omega)
      exact hswo.negTrans _ _ _ h2 h1

theorem heapBuild_spec [Inhabited α] (lt : α → α → Bool) (hswo : IsSWO lt)
    (hi first : Nat) (hhi : 1 ≤ hi) :
    ∀ (i : Nat) (d : List α) (e : List α), heapBuild lt hi first (i + 1) d i = e →
      first + hi ≤ d.length → i < hi →
      HeapFrom lt first d (i + 1) hi →
      HeapFrom lt first e 0 hi ∧
      (∀ k, k < first ∨ first + hi ≤ k → e[k]? = d[k]?) := by
  intro i
  induction i with
  | zero =>
    intro d e hr hblen hih hpre
    rw [show heapBuild lt hi first (0 + 1) d 0 =
      siftDownFunc lt hi d 0 hi first from rfl] at hr
    obtain ⟨s1, s2, s3⟩ := siftDownFunc_spec lt hswo hi first hi d 0 e hr (by omega)
      hblen hpre
    refine ⟨s1, ?_⟩
    intro k hk
    exact s2 k (by omega) (by omega)
  | succ i ih =>
    intro d e hr hblen hih hpre
    rw [show heapBuild lt hi first (i + 1 + 1) d (i + 1) = heapBuild lt hi first (i + 1)
      (siftDownFunc lt hi d (i + 1) hi first) i from rfl] at hr
    obtain ⟨s1, s2, s3⟩ := siftDownFunc_spec lt hswo hi first hi d (i + 1)
      (siftDownFunc lt hi d (i + 1) hi first) rfl (by omega) hblen hpre
    have hlen2 : (siftDownFunc lt hi d (i + 1) hi first).length = d.length :=
      (siftDownFunc_perm lt hi d (i + 1) hi first).length_eq
    obtain ⟨c1, c2⟩ := ih (siftDownFunc lt hi d (i + 1) hi first) e hr (by omega)
      (by omega) s1
    refine ⟨c1, ?_⟩
    intro k hk
    rw [c2 k hk]
    exact s2 k (by omega) (by omega)

theorem heapPop_spec [Inhabited α] (lt : α → α → Bool) (hswo : IsSWO lt)
    (hi first : Nat) (hhi : 1 ≤ hi) :
    ∀ (i : Nat) (d : List α) (e : List α), heapPop lt first (i + 1) d i = e →
      first + hi ≤ d.length → i < hi →
      HeapFrom lt first d 0 (i + 1) →
      (∀ j, i < j → j < hi → ∀ x ∈ seg d first (first + i + 1),
        lt (ga d (first + j)) x = false) →
      (∀ p q, i < p → p < q → q < hi →
        lt (ga d (first + q)) (ga d (first + p)) = false) →
      SortedRange lt e first (first + hi) ∧
      (∀ k, k < first ∨ first + hi ≤ k → e[k]? = d[k]?) := by
  intro i
  induction i with
  | zero =>
    intro d e hr hblen hih hH hCROSS hTS
    rw [show heapPop lt first (0 + 1) d 0 = listSwap d first (first + 0) from rfl] at hr
    subst hr
    have hfl : first < d.length := by omega
    have hgae : ∀ k, ga (listSwap d first (first + 0)) k = ga d k := by
      intro k
      rw [ga_listSwap d first (first + 0) hfl (by omega) k]
      by_cases hk : k = first
      · simp [hk]
      · rw [if_neg (by omega), if_neg (by omega)]
    constructor
    · intro pi qi hpi hpq hqb
      rw [hgae, hgae]
      by_cases hp0 : pi = first
      · subst hp0
        have hx : ga d pi ∈ seg d pi (pi + 0 + 1) := ga_mem_seg d pi (pi + 0 + 1) pi
          (le_refl pi) (by omega) (by omega)
        have := hCROSS (qi - pi) (by omega) (by omega) (ga d pi) hx
        rw [show pi + (qi - pi) = qi by omega] at this
        exact this
      · have := hTS (pi - first) (qi - first) (by omega) (by omega) (by omega)
        rw [show first + (qi - first) = qi by omega,
          show first + (pi - first) = pi by omega] at this
        exact this
    · intro k hk
      exact getElem?_listSwap_ne d first (first + 0) k (by omega) (by omega)
  | succ i ih =>
    intro d e hr hblen hih hH hCROSS hTS
    rw [show heapPop lt first (i + 1 + 1) d (i + 1) = heapPop lt first (i + 1)
      (siftDownFunc lt (i + 1) (listSwap d first (first + (i + 1))) 0 (i + 1) first) i
      from rfl] at hr
    have hfl : first < d.length := by omega
    have hfi1 : first + (i + 1) < d.length := by omega
    set d1 := listSwap d first (first + (i + 1)) with hd1
    have hd1len : d1.length = d.length := length_listSwap d first (first + (i + 1))
    have hga1 : ∀ k, ga d1 k = if k = first + (i + 1) then ga d first
        else if k = first then ga d (first + (i + 1)) else ga d k :=
      fun k => ga_listSwap d first (first + (i + 1)) hfl hfi1 k
    have hmax : ∀ t, t < i + 2 → lt (ga d first) (ga d (first + t)) = false :=
      heapFrom_root_le lt hswo first d (i + 2) hH
    have hpre' : HeapFrom lt first d1 1 (i + 1) := by
      intro t c ht hcrel hcn
      have htb : 2 * t + 1 ≤ c := by omega
      rw [hga1 (first + t), if_neg (by omega), if_neg (by omega),
        hga1 (first + c), if_neg (by omega), if_neg (by omega)]
      exact hH t c (by omega) hcrel (by omega)
    obtain ⟨s1, s2, s3⟩ := siftDownFunc_spec lt hswo (i + 1) first (i + 1) d1 0
      (siftDownFunc lt (i + 1) d1 0 (i + 1) first) rfl (by omega) (by omega)
      (by
        intro t c ht hcrel hcn
        exact hpre' t c (by omega) hcrel hcn)
    set E := siftDownFunc lt (i + 1) d1 0 (i + 1) first with hE
    have hElen : E.length = d.length := by
      rw [(siftDownFunc_perm lt (i + 1) d1 0 (i + 1) first).length_eq, hd1len]
    have hEtail : ∀ k, first + (i + 1) ≤ k → E[k]? = d1[k]? := by
      intro k hk
      exact s2 k (by omega) (Or.inr hk)
    have hElow : ∀ k, k < first → E[k]? = d1[k]? := by
      intro k hk
      exact s2 k (by omega) (Or.inl (by omega))
    have hEi1 : ga E (first + (i + 1)) = ga d first := by
      rw [ga_eq_of_frame d1 E (first + (i + 1)) (hEtail (first + (i + 1)) (le_refl _))]
      rw [hga1 (first + (i + 1)), if_pos rfl]
    have hsegE : (seg E first (first + i + 1)).Perm (seg d1 first (first + i + 1)) := by
      refine seg_perm_of_frame d1 E first (first + i + 1)
        (siftDownFunc_perm lt (i + 1) d1 0 (i + 1) first) (by omega) ?_
      intro k hk
      rcases hk with hk | hk
      · exact hElow k hk
      · exact hEtail k (by omega)
    have hxval : ∀ x, x ∈ seg E first (first + i + 1) →
        ∃ t, t < i + 2 ∧ x = ga d (first + t) := by
      intro x hx
      obtain ⟨k₀, hk1, hk2, hk3, hk4⟩ :=
        ga_of_mem_seg d1 first (first + i + 1) x (hsegE.mem_iff.mp hx)
      by_cases hk0 : k₀ = first
      · subst hk0
        refine ⟨i + 1, by omega, ?_⟩
        rw [← hk4, hga1 k₀, if_neg (by omega), if_pos rfl]
      · refine ⟨k₀ - first, by omega, ?_⟩
        rw [← hk4, hga1 k₀, if_neg (by omega), if_neg hk0,
          show first + (k₀ - first) = k₀ by omega]
    have hCROSS' : ∀ j, i < j → j < hi → ∀ x ∈ seg E first (first + i + 1),
        lt (ga E (first + j)) x = false := by
      intro j hj1 hj2 x hx
      obtain ⟨t, ht, rfl⟩ := hxval x hx
      by_cases hji : j = i + 1
      · subst hji
        rw [hEi1]
        exact hmax t ht
      · have hgEj : ga E (first + j) = ga d (first + j) := by
          rw [ga_eq_of_frame d1 E (first + j) (hEtail (first + j) (by omega)),
            hga1 (first + j), if_neg (by omega), if_neg (by omega)]
        rw [hgEj]
        exact hCROSS j (by omega) hj2 (ga d (first + t))
          (ga_mem_seg d first (first + (i + 1) + 1) (first + t) (by omega) (by omega)
            (by omega))
    have hTS' : ∀ p q, i < p → p < q → q < hi →
        lt (ga E (first + q)) (ga E (first + p)) = false := by
      intro p q hp hpq hqb
      have hgEq : ga E (first + q) = ga d (first + q) := by
        rw [ga_eq_of_frame d1 E (first + q) (hEtail (first + q) (by omega)),
          hga1 (first + q), if_neg (by omega), if_neg (by omega)]
      by_cases hpi : p = i + 1
      · subst hpi
        rw [hgEq, hEi1]
        exact hCROSS q (by omega) hqb (ga d first)
          (ga_mem_seg d first (first + (i + 1) + 1) first (by omega) (by omega) (by omega))
      · have hgEp : ga E (first + p) = ga d (first + p) := by
          rw [ga_eq_of_frame d1 E (first + p) (hEtail (first + p) (by omega)),
            hga1 (first + p), if_neg (by omega), if_neg (by omega)]
        rw [hgEq, hgEp]
        exact hTS p q (by omega) hpq hqb
    obtain ⟨c1, c2⟩ := ih E e hr (by omega) (by omega) s1 hCROSS' hTS'
    refine ⟨c1, ?_⟩
    intro k hk
    rw [c2 k hk]
    have hEd1 : E[k]? = d1[k]? := by
      rcases hk with hk | hk
      · exact hElow k hk
      · exact hEtail k (by omega)
    rw [hEd1]
    exact getElem?_listSwap_ne d first (first + (i + 1)) k (by omega) (by omega)

theorem heapSortFunc_spec [Inhabited α] (lt : α → α → Bool) (hswo : IsSWO lt)
    (d : List α) (a b : Nat) (hab : a < b) (hblen : b ≤ d.length) :
    SortedRange lt (heapSortFunc lt d a b) a b ∧
    (∀ k, k < a ∨ b ≤ k → (heapSortFunc lt d a b)[k]? = d[k]?) := by
  have hstep : heapSortFunc lt d a b = heapPop lt a (b - a)
      (heapBuild lt (b - a) a ((b - a - 1) / 2 + 1) d ((b - a - 1) / 2)) (b - a - 1) := rfl
  obtain ⟨g1, g2⟩ := heapBuild_spec lt hswo (b - a) a (by omega) ((b - a - 1) / 2) d
    (heapBuild lt (b - a) a ((b - a - 1) / 2 + 1) d ((b - a - 1) / 2)) rfl (by omega)
    (by omega)
    (by
      intro t c ht hcrel hcn
      exact absurd hcn (by omega))
  have hglen : (heapBuild lt (b - a) a ((b - a - 1) / 2 + 1) d ((b - a - 1) / 2)).length =
      d.length :=
    (heapBuild_perm lt (b - a) a ((b - a - 1) / 2 + 1) d ((b - a - 1) / 2)).length_eq
  have hr2 : heapPop lt a (b - a - 1 + 1)
      (heapBuild lt (b - a) a ((b - a - 1) / 2 + 1) d ((b - a - 1) / 2)) (b - a - 1) =
      heapSortFunc lt d a b := by
    rw [show b - a - 1 + 1 = b - a by omega]
    exact hstep.symm
  obtain ⟨c1, c2⟩ := heapPop_spec lt hswo (b - a) a (by omega) (b - a - 1)
    (heapBuild lt (b - a) a ((b - a - 1) / 2 + 1) d ((b - a - 1) / 2))
    (heapSortFunc lt d a b) hr2 (by omega) (by omega)
    (by
      intro t c ht hcrel hcn
      exact g1 t c (by omega) hcrel (by omega))
    (by
      intro j hj1 hj2 x hx
      exact absurd hj2 (by omega))
    (by
      intro p q hp hpq hqb
      exact absurd hqb (by omega))
  constructor
  · intro pi qi hpi hpq hqb
    exact c1 pi qi hpi hpq (by omega)
  · intro k hk
    rw [c2 k (by omega)]
    exact g2 k (by omega)

theorem bitsLenAux_zero : ∀ fuel, bitsLenAux fuel 0 = 0 := by
  intro fuel
  cases fuel with
  | zero => rfl
  | succ fuel =>
    rw [bitsLenAux]
    simp

theorem bitsLenAux_le : ∀ (fuel n : Nat), 0 < n → n < fuel → 2 ^ bitsLenAux fuel n ≤ 2 * n := by
  intro fuel
  induction fuel with
  | zero =>
    intro n h1 h2
    omega
  | succ fuel ih =>
    intro n h1 h2
    rw [bitsLenAux, if_neg (by omega)]
    by_cases hn1 : n = 1
    · subst hn1
      rw [show (1 : Nat) / 2 = 0 from rfl, bitsLenAux_zero]
      omega
    · have := ih (n / 2) (by omega) (by omega)
      rw [pow_succ]
      omega

theorem nextPowerOfTwo_le (n : Nat) (hn : 1 ≤ n) : nextPowerOfTwo n ≤ 2 * n := by
  unfold nextPowerOfTwo bitsLen
  rw [Nat.one_shiftLeft]
  exact bitsLenAux_le (n + 1) n hn (by omega)

theorem breakPatternsStep_frame (d : List α) (a length idx step r : Nat)
    (hlen : 8 ≤ length) (hidx : a + 1 ≤ idx) (hstep : idx - 1 + step < a + length) :
    ∀ k, k < a ∨ a + length ≤ k →
      (breakPatternsStep d a length idx step r).1[k]? = d[k]? := by
  intro k hk
  unfold breakPatternsStep
  dsimp only
  set o0 := xorshiftNext r % 2 ^ 64 &&& (nextPowerOfTwo length - 1) with ho0
  have hother0 : o0 ≤ nextPowerOfTwo length - 1 := Nat.and_le_right
  have hmod : nextPowerOfTwo length ≤ 2 * length := nextPowerOfTwo_le length (by omega)
  have hother : (if o0 ≥ length then o0 - length else o0) < length := by
    split
    · omega
    · omega
  exact getElem?_listSwap_ne d _ _ k (by omega) (by omega)

theorem breakPatternsFunc_frame (d : List α) (a b : Nat) :
    ∀ k, k < a ∨ b ≤ k → (breakPatternsFunc d a b)[k]? = d[k]? := by
  intro k hk
  unfold breakPatternsFunc
  dsimp only
  split
  · next hge =>
    have hidx : a + 1 ≤ a + ((b - a) / 4) * 2 - 1 := by omega
    have hb : a + (b - a) = b := by omega
    rw [breakPatternsStep_frame _ a (b - a) _ 2 _ hge hidx (by omega) k (by omega),
      breakPatternsStep_frame _ a (b - a) _ 1 _ hge hidx (by omega) k (by omega),
      breakPatternsStep_frame d a (b - a) _ 0 _ hge hidx (by omega) k (by omega)]
  · rfl

theorem reverseRangeFunc_frame :
    ∀ (fuel : Nat) (d : List α) (i j : Nat),
      ∀ k, k < i ∨ j < k → (reverseRangeFunc fuel d i j)[k]? = d[k]? := by
  intro fuel
  induction fuel with
  | zero =>
    intro d i j k _
    rfl
  | succ fuel ih =>
    intro d i j k hk
    by_cases hij : i < j
    · have hstep : reverseRangeFunc (fuel + 1) d i j =
          reverseRangeFunc fuel (listSwap d i j) (i + 1) (j - 1) := by
        conv_lhs => rw [reverseRangeFunc]
        rw [if_pos hij]
      rw [hstep, ih (listSwap d i j) (i + 1) (j - 1) k (by omega),
        getElem?_listSwap_ne d i j k (by omega) (by omega)]
    · have hstep : reverseRangeFunc (fuel + 1) d i j = d := by
        conv_lhs => rw [reverseRangeFunc]
        rw [if_neg hij]
      rw [hstep]

theorem order2Func_bound (lt : α → α → Bool) (d : List α) (x y s lo hi : Nat)
    (hx1 : lo ≤ x) (hx2 : x < hi) (hy1 : lo ≤ y) (hy2 : y < hi) :
    (lo ≤ (order2Func lt d x y s).1 ∧ (order2Func lt d x y s).1 < hi) ∧
    (lo ≤ (order2Func lt d x y s).2.1 ∧ (order2Func lt d x y s).2.1 < hi) := by
  unfold order2Func
  split
  · exact ⟨⟨hy1, hy2⟩, ⟨hx1, hx2⟩⟩
  · exact ⟨⟨hx1, hx2⟩, ⟨hy1, hy2⟩⟩

theorem medianFunc_bound (lt : α → α → Bool) (d : List α) (x y z s lo hi : Nat)
    (hx1 : lo ≤ x) (hx2 : x < hi) (hy1 : lo ≤ y) (hy2 : y < hi) (hz1 : lo ≤ z)
    (hz2 : z < hi) :
    lo ≤ (medianFunc lt d x y z s).1 ∧ (medianFunc lt d x y z s).1 < hi := by
  unfold medianFunc
  dsimp only
  obtain ⟨⟨a1, a2⟩, ⟨b1, b2⟩⟩ := order2Func_bound lt d x y s lo hi hx1 hx2 hy1 hy2
  obtain ⟨⟨c1, c2⟩, ⟨e1, e2⟩⟩ := order2Func_bound lt d (order2Func lt d x y s).2.1 z
    (order2Func lt d x y s).2.2 lo hi b1 b2 hz1 hz2
  obtain ⟨⟨f1, f2⟩, ⟨g1, g2⟩⟩ := order2Func_bound lt d (order2Func lt d x y s).1
    (order2Func lt d (order2Func lt d x y s).2.1 z (order2Func lt d x y s).2.2).1
    (order2Func lt d (order2Func lt d x y s).2.1 z (order2Func lt d x y s).2.2).2.2
    lo hi a1 a2 c1 c2
  exact ⟨g1, g2⟩

theorem medianAdjacentFunc_bound (lt : α → α → Bool) (d : List α) (x s lo hi : Nat)
    (h1 : lo ≤ x - 1) (h2 : x + 1 < hi) (h3 : 1 ≤ x) :
    lo ≤ (medianAdjacentFunc lt d x s).1 ∧ (medianAdjacentFunc lt d x s).1 < hi := by
  unfold medianAdjacentFunc
  exact medianFunc_bound lt d (x - 1) x (x + 1) s lo hi h1 (by omega) (by omega)
    (by omega) (by omega) h2

theorem choosePivotPair_fst (x : Nat) (c1 c2 : Prop) [Decidable c1] [Decidable c2]
    (u v w : SortedHint) :
    (if c1 then (x, u) else if c2 then (x, v) else (x, w)).1 = x := by
  split
  · rfl
  · split <;> rfl

theorem choosePivotFunc_bound (lt : α → α → Bool) (d : List α) (a b : Nat)
    (h : 8 ≤ b - a) :
    a ≤ (choosePivotFunc lt d a b).1 ∧ (choosePivotFunc lt d a b).1 < b := by
  unfold choosePivotFunc
  dsimp only
  rw [choosePivotPair_fst]
  split
  · next h8 =>
    split
    · next h50 =>
      obtain ⟨i1, i2⟩ := medianAdjacentFunc_bound lt d (a + (b - a) / 4 * 1) 0 a b
        (by omega) (by omega) (by omega)
      obtain ⟨j1, j2⟩ := medianAdjacentFunc_bound lt d (a + (b - a) / 4 * 2)
        (medianAdjacentFunc lt d (a + (b - a) / 4 * 1) 0).2 a b (by omega) (by omega)
        (by omega)
      obtain ⟨k1, k2⟩ := medianAdjacentFunc_bound lt d (a + (b - a) / 4 * 3)
        (medianAdjacentFunc lt d (a + (b - a) / 4 * 2)
          (medianAdjacentFunc lt d (a + (b - a) / 4 * 1) 0).2).2 a b (by omega) (by omega)
        (by omega)
      exact medianFunc_bound lt d _ _ _ _ a b i1 i2 j1 j2 k1 k2
    · exact medianFunc_bound lt d _ _ _ _ a b (by omega) (by omega) (by omega) (by omega)
        (by omega) (by omega)
  · constructor
    · omega
    · omega

theorem seg_eq_of_pointwise (d d' : List α) (aa bb : Nat)
    (h : ∀ k, aa ≤ k → k < bb → d'[k]? = d[k]?) : seg d' aa bb = seg d aa bb := by
  apply List.ext_getElem?
  intro t
  by_cases ht : t < bb - aa
  · rw [seg_getElem? d' aa bb t ht, seg_getElem? d aa bb t ht, h (aa + t) (by omega)
      (by omega)]
  · unfold seg
    rw [List.getElem?_take, if_neg ht, List.getElem?_take, if_neg ht]

theorem lbp_transfer [Inhabited α] (lt : α → α → Bool) (d d' : List α) (a b : Nat)
    (hp : d'.Perm d) (hab : a ≤ b) (hfr : ∀ k, k < a ∨ b ≤ k → d'[k]? = d[k]?)
    (h : 0 < a → ∀ x ∈ seg d a b, lt x (ga d (a - 1)) = false) :
    0 < a → ∀ x ∈ seg d' a b, lt x (ga d' (a - 1)) = false := by
  intro ha0 x hx
  rw [ga_eq_of_frame d d' (a - 1) (hfr (a - 1) (Or.inl (by omega)))]
  exact h ha0 x ((seg_perm_of_frame d d' a b hp hab hfr).mem_iff.mp hx)

theorem pdqsortFunc_spec [Inhabited α] (lt : α → α → Bool) (hswo : IsSWO lt) :
    ∀ (fuel : Nat) (d : List α) (a b limit : Nat) (wb wp : Bool),
      b ≤ d.length → b - a ≤ fuel →
      (0 < a → ∀ x ∈ seg d a b, lt x (ga d (a - 1)) = false) →
      SortedRange lt (pdqsortFunc lt fuel d a b limit wb wp) a b ∧
      (∀ k, k < a ∨ b ≤ k → (pdqsortFunc lt fuel d a b limit wb wp)[k]? = d[k]?) := by
  intro fuel
  induction fuel with
  | zero =>
    intro d a b limit wb wp hblen hfuel hLB
    rw [show pdqsortFunc lt 0 d a b limit wb wp = d from rfl]
    exact ⟨fun pi qi h1 h2 h3 => absurd h3 (by omega), fun k _ => rfl⟩
  | succ fuel ih =>
    intro d a b limit wb wp hblen hfuel hLB
    unfold pdqsortFunc
    lift_lets
    intro length d0 limit1 pv state d1 pivot hint pis d2 pe pr d3 mid ap ll rl bt wb1 wp1
      d4 d5
    have hlen_eq : length = b - a := rfl
    split
    · next h12 =>
      exact insertionSortFunc_spec lt hswo d a b hblen
    · next h12 =>
      split
      · next hlim =>
        exact heapSortFunc_spec lt hswo d a b (by omega) hblen
      · next hlim =>
        have hab : a < b := by omega
        have hd0p : d0.Perm d := by
          show (if ¬ wb = true then breakPatternsFunc d a b else d).Perm d
          split
          · exact breakPatternsFunc_perm d a b
          · exact .refl _
        have hd0fr : ∀ k, k < a ∨ b ≤ k → d0[k]? = d[k]? := by
          intro k hk
          show (if ¬ wb = true then breakPatternsFunc d a b else d)[k]? = d[k]?
          split
          · exact breakPatternsFunc_frame d a b k hk
          · rfl
        have hd0len : d0.length = d.length := hd0p.length_eq
        have hd0LB : 0 < a → ∀ x ∈ seg d0 a b, lt x (ga d0 (a - 1)) = false :=
          lbp_transfer lt d d0 a b hd0p (by omega) hd0fr hLB
        have hpv : a ≤ pv.1 ∧ pv.1 < b := by
          show a ≤ (choosePivotFunc lt d0 a b).1 ∧ (choosePivotFunc lt d0 a b).1 < b
          exact choosePivotFunc_bound lt d0 a b (by omega)
        have hd1p : d1.Perm d0 := by
          show (if pv.2 = SortedHint.decreasing then
              (reverseRangeFunc b d0 a (b - 1), b - 1 - (pv.1 - a), SortedHint.increasing)
            else (d0, pv.1, pv.2)).1.Perm d0
          split
          · exact reverseRangeFunc_perm b d0 a (b - 1)
          · exact .refl _
        have hd1fr : ∀ k, k < a ∨ b ≤ k → d1[k]? = d0[k]? := by
          intro k hk
          show (if pv.2 = SortedHint.decreasing then
              (reverseRangeFunc b d0 a (b - 1), b - 1 - (pv.1 - a), SortedHint.increasing)
            else (d0, pv.1, pv.2)).1[k]? = d0[k]?
          split
          · exact reverseRangeFunc_frame b d0 a (b - 1) k (by omega)
          · rfl
        have hd1len : d1.length = d.length := by rw [hd1p.length_eq, hd0len]
        have hd1LB : 0 < a → ∀ x ∈ seg d1 a b, lt x (ga d1 (a - 1)) = false :=
          lbp_transfer lt d0 d1 a b hd1p (by omega) hd1fr hd0LB
        have hpivot : a ≤ pivot ∧ pivot < b := by
          show a ≤ state.2.1 ∧ state.2.1 < b
          show a ≤ (if pv.2 = SortedHint.decreasing then
              (reverseRangeFunc b d0 a (b - 1), b - 1 - (pv.1 - a), SortedHint.increasing)
            else (d0, pv.1, pv.2)).2.1 ∧ (if pv.2 = SortedHint.decreasing then
              (reverseRangeFunc b d0 a (b - 1), b - 1 - (pv.1 - a), SortedHint.increasing)
            else (d0, pv.1, pv.2)).2.1 < b
          split
          · dsimp only
            omega
          · dsimp only
            exact hpv
        have hd2p : d2.Perm d1 := by
          show (if wb = true ∧ wp = true ∧ hint = SortedHint.increasing then
              partialInsertionSortFunc lt d1 a b else (d1, false)).1.Perm d1
          split
          · exact partialInsertionSortFunc_perm lt d1 a b
          · exact .refl _
        have hd2fr : ∀ k, k < a ∨ b ≤ k → d2[k]? = d1[k]? := by
          intro k hk
          show (if wb = true ∧ wp = true ∧ hint = SortedHint.increasing then
              partialInsertionSortFunc lt d1 a b else (d1, false)).1[k]? = d1[k]?
          split
          · exact (partialInsertionSortFunc_spec lt hswo d1 a b hab (by omega) hd1LB
              (partialInsertionSortFunc lt d1 a b).1 (partialInsertionSortFunc lt d1 a b).2
              rfl).1 k hk
          · rfl
        have hd2len : d2.length = d.length := by rw [hd2p.length_eq, hd1len]
        have hd2LB : 0 < a → ∀ x ∈ seg d2 a b, lt x (ga d2 (a - 1)) = false :=
          lbp_transfer lt d1 d2 a b hd2p (by omega) hd2fr hd1LB
        have hfr2d : ∀ k, k < a ∨ b ≤ k → d2[k]? = d[k]? := by
          intro k hk
          rw [hd2fr k hk, hd1fr k hk, hd0fr k hk]
        split
        · next hps =>
          have hco : wb = true ∧ wp = true ∧ hint = SortedHint.increasing := by
            by_contra hco
            have hfalse : pis.2 = false := by
              show (if wb = true ∧ wp = true ∧ hint = SortedHint.increasing then
                  partialInsertionSortFunc lt d1 a b else (d1, false)).2 = false
              rw [if_neg hco]
            rw [hfalse] at hps
            exact absurd hps (by simp)
          have hpise : partialInsertionSortFunc lt d1 a b = (pis.1, pis.2) := by
            have : pis = partialInsertionSortFunc lt d1 a b := by
              show (if wb = true ∧ wp = true ∧ hint = SortedHint.increasing then
                  partialInsertionSortFunc lt d1 a b else (d1, false)) = _
              rw [if_pos hco]
            rw [← this]
          obtain ⟨f1, f2⟩ := partialInsertionSortFunc_spec lt hswo d1 a b hab (by omega)
            hd1LB pis.1 pis.2 hpise
          refine ⟨f2 hps, ?_⟩
          intro k hk
          rw [f1 k hk, hd1fr k hk, hd0fr k hk]
        · next hps =>
          split
          · next hpecond =>
            obtain ⟨ha0, hnl⟩ := hpecond
            obtain ⟨q1, q2, q3, q4, q5⟩ := partitionEqualFunc_spec lt hswo d2 a b pivot hab
              (by omega) hpivot.1 hpivot.2 pe.1 pe.2 rfl
            have hpep : pe.1.Perm d2 := partitionEqualFunc_perm lt d2 a b pivot
            have hpelen : pe.1.length = d.length := by rw [hpep.length_eq, hd2len]
            have hnoless : ∀ x ∈ seg d2 a b, lt x (ga d2 pivot) = false := by
              intro x hx
              have h1 : lt (ga d2 (a - 1)) (ga d2 pivot) = false := by
                rw [← lessAt_eq_ga lt d2 (a - 1) pivot (by omega) (by omega)]
                cases hl : lessAt lt d2 (a - 1) pivot with
                | false => rfl
                | true => exact absurd hl hnl
              exact hswo.negTrans _ _ _ (hd2LB ha0 x hx) h1
            have hsegpe : (seg pe.1 a b).Perm (seg d2 a b) :=
              seg_perm_of_frame d2 pe.1 a b hpep (by omega) q5
            have hnoless2 : ∀ x ∈ seg pe.1 a b, lt x (ga d2 pivot) = false :=
              fun x hx => hnoless x (hsegpe.mem_iff.mp hx)
            have hLBright : 0 < pe.2 → ∀ x ∈ seg pe.1 pe.2 b,
                lt x (ga pe.1 (pe.2 - 1)) = false := by
              intro _ x hx
              obtain ⟨k0, hk1, hk2, hk3, hk4⟩ := ga_of_mem_seg pe.1 pe.2 b x hx
              have hxgt : lt (ga d2 pivot) x = true := by
                rw [← hk4]
                exact q4 k0 hk1 hk2
              have hvle : lt (ga d2 pivot) (ga pe.1 (pe.2 - 1)) = false :=
                q3 (pe.2 - 1) (by omega) (by omega)
              cases hl : lt x (ga pe.1 (pe.2 - 1)) with
              | false => rfl
              | true =>
                have hcon := hswo.trans _ _ _ hxgt hl
                rw [hcon] at hvle
                exact absurd hvle (by simp)
            obtain ⟨r1, r2⟩ := ih pe.1 pe.2 b limit1 wb wp (by omega) (by omega) hLBright
            constructor
            · intro pi qi h1 h2 h3
              by_cases hq : qi < pe.2
              · rw [ga_eq_of_frame pe.1 _ qi (r2 qi (Or.inl hq)),
                  ga_eq_of_frame pe.1 _ pi (r2 pi (Or.inl (by omega)))]
                have hx1 : lt (ga pe.1 qi) (ga d2 pivot) = false :=
                  hnoless2 (ga pe.1 qi) (ga_mem_seg pe.1 a b qi (by omega) (by omega)
                    (by omega))
                have hx2 : lt (ga d2 pivot) (ga pe.1 pi) = false := q3 pi h1 (by omega)
                exact hswo.negTrans _ _ _ hx1 hx2
              · by_cases hp : pi < pe.2
                · rw [ga_eq_of_frame pe.1 _ pi (r2 pi (Or.inl hp))]
                  have hy : ga (pdqsortFunc lt fuel pe.1 pe.2 b limit1 wb wp) qi ∈
                      seg (pdqsortFunc lt fuel pe.1 pe.2 b limit1 wb wp) pe.2 b :=
                    ga_mem_seg _ pe.2 b qi (by omega) h3
                      (by
                        rw [(pdqsortFunc_perm lt fuel pe.1 pe.2 b limit1 wb wp).length_eq]
                        omega)
                  have hsegr : (seg (pdqsortFunc lt fuel pe.1 pe.2 b limit1 wb wp)
                      pe.2 b).Perm (seg pe.1 pe.2 b) :=
                    seg_perm_of_frame pe.1 _ pe.2 b
                      (pdqsortFunc_perm lt fuel pe.1 pe.2 b limit1 wb wp) (by omega) r2
                  obtain ⟨k1, hk1, hk2, hk3, hk4⟩ := ga_of_mem_seg pe.1 pe.2 b _
                    (hsegr.mem_iff.mp hy)
                  have hygt : lt (ga d2 pivot)
                      (ga (pdqsortFunc lt fuel pe.1 pe.2 b limit1 wb wp) qi) = true := by
                    rw [← hk4]
                    exact q4 k1 hk1 hk2
                  have hple : lt (ga d2 pivot) (ga pe.1 pi) = false := q3 pi h1 hp
                  cases hl : lt (ga (pdqsortFunc lt fuel pe.1 pe.2 b limit1 wb wp) qi)
                      (ga pe.1 pi) with
                  | false => rfl
                  | true =>
                    have hcon := hswo.trans _ _ _ hygt hl
                    rw [hcon] at hple
                    exact absurd hple (by simp)
                · exact r1 pi qi (by omega) h2 h3
            · intro k hk
              rw [r2 k (by omega), q5 k hk, hfr2d k hk]
          · next hpecond =>
            obtain ⟨m1, m2, m3, m4, m5, m6⟩ := partitionFunc_spec lt d2 a b pivot hab
              (by omega) hpivot.1 hpivot.2 pr.1 pr.2.1 pr.2.2 rfl
            have m1' : a ≤ mid := m1
            have m2' : mid < b := m2
            have m3' : ga d3 mid = ga d2 pivot := m3
            have m4' : ∀ k, a ≤ k → k < mid → lt (ga d3 k) (ga d3 mid) = true := m4
            have m5' : ∀ k, mid < k → k < b → lt (ga d3 k) (ga d3 mid) = false := m5
            have m6' : ∀ k, k < a ∨ b ≤ k → d3[k]? = d2[k]? := m6
            have hd3p : d3.Perm d2 := partitionFunc_perm lt d2 a b pivot
            have hd3len : d3.length = d.length := by rw [hd3p.length_eq, hd2len]
            have hd3LBfull : 0 < a → ∀ x ∈ seg d3 a b, lt x (ga d3 (a - 1)) = false :=
              lbp_transfer lt d2 d3 a b hd3p (by omega) m6' hd2LB
            have hd3LBleft : 0 < a → ∀ x ∈ seg d3 a mid, lt x (ga d3 (a - 1)) = false := by
              intro ha0 x hx
              exact hd3LBfull ha0 x (mem_seg_mono d3 a a b mid x (le_refl a) (by omega) hx)
            split
            · next hlr =>
              obtain ⟨L1, L2⟩ := ih d3 a mid limit1 true true (by omega) (by omega)
                hd3LBleft
              have L1' : SortedRange lt d4 a mid := L1
              have L2' : ∀ k, k < a ∨ mid ≤ k → d4[k]? = d3[k]? := L2
              have hd4p : d4.Perm d3 := pdqsortFunc_perm lt fuel d3 a mid limit1 true true
              have hd4len : d4.length = d.length := by rw [hd4p.length_eq, hd3len]
              have hsegtail : seg d4 (mid + 1) b = seg d3 (mid + 1) b :=
                seg_eq_of_pointwise d3 d4 (mid + 1) b
                  (fun k hk _ => L2' k (Or.inr (by omega)))
              have hgd4mid : ga d4 mid = ga d3 mid :=
                ga_eq_of_frame d3 d4 mid (L2' mid (Or.inr (le_refl mid)))
              have hLBr : 0 < mid + 1 → ∀ x ∈ seg d4 (mid + 1) b,
                  lt x (ga d4 (mid + 1 - 1)) = false := by
                intro _ x hx
                rw [hsegtail] at hx
                obtain ⟨k1, hk1, hk2, hk3, hk4⟩ := ga_of_mem_seg d3 (mid + 1) b x hx
                rw [show mid + 1 - 1 = mid from rfl, hgd4mid, ← hk4]
                exact m5' k1 (by omega) hk2
              obtain ⟨R1, R2⟩ := ih d4 (mid + 1) b limit1 wb1 wp1 (by omega) (by omega)
                hLBr
              have hsegleft : (seg d4 a mid).Perm (seg d3 a mid) :=
                seg_perm_of_frame d3 d4 a mid hd4p (by omega) L2'
              constructor
              · intro pi qi h1 h2 h3
                have hresfr : ∀ k, k ≤ mid →
                    (pdqsortFunc lt fuel d4 (mid + 1) b limit1 wb1 wp1)[k]? = d4[k]? :=
                  fun k hk => R2 k (Or.inl (by omega))
                by_cases hq : qi ≤ mid
                · by_cases hqm : qi = mid
                  · rw [ga_eq_of_frame d4 _ qi (hresfr qi hq),
                      ga_eq_of_frame d4 _ pi (hresfr pi (by omega))]
                    rw [hqm, hgd4mid]
                    have hx : ga d4 pi ∈ seg d4 a mid :=
                      ga_mem_seg d4 a mid pi h1 (by omega) (by omega)
                    obtain ⟨k0, hj1, hj2, hj3, hj4⟩ := ga_of_mem_seg d3 a mid _
                      (hsegleft.mem_iff.mp hx)
                    rw [← hj4]
                    exact hswo.asym _ _ (m4' k0 hj1 hj2)
                  · rw [ga_eq_of_frame d4 _ qi (hresfr qi hq),
                      ga_eq_of_frame d4 _ pi (hresfr pi (by omega))]
                    exact L1' pi qi h1 h2 (by omega)
                · by_cases hp : pi ≤ mid
                  · rw [ga_eq_of_frame d4 _ pi (hresfr pi hp)]
                    have hy : ga (pdqsortFunc lt fuel d4 (mid + 1) b limit1 wb1 wp1) qi ∈
                        seg (pdqsortFunc lt fuel d4 (mid + 1) b limit1 wb1 wp1)
                          (mid + 1) b :=
                      ga_mem_seg _ (mid + 1) b qi (by omega) h3
                        (by
                          rw [(pdqsortFunc_perm lt fuel d4 (mid + 1) b limit1 wb1
                            wp1).length_eq, hd4len]
                          omega)
                    have hsegr : (seg (pdqsortFunc lt fuel d4 (mid + 1) b limit1 wb1 wp1)
                        (mid + 1) b).Perm (seg d4 (mid + 1) b) :=
                      seg_perm_of_frame d4 _ (mid + 1) b
                        (pdqsortFunc_perm lt fuel d4 (mid + 1) b limit1 wb1 wp1)
                        (by omega) R2
                    rw [hsegtail] at hsegr
                    obtain ⟨k1, hk1, hk2, hk3, hk4⟩ := ga_of_mem_seg d3 (mid + 1) b _
                      (hsegr.mem_iff.mp hy)
                    have hyle : lt (ga (pdqsortFunc lt fuel d4 (mid + 1) b limit1 wb1
                        wp1) qi) (ga d3 mid) = false := by
                      rw [← hk4]
                      exact m5' k1 (by omega) hk2
                    by_cases hpm : pi = mid
                    · rw [hpm, hgd4mid]
                      exact hyle
                    · have hx : ga d4 pi ∈ seg d4 a mid :=
                        ga_mem_seg d4 a mid pi h1 (by omega) (by omega)
                      obtain ⟨k0, hj1, hj2, hj3, hj4⟩ := ga_of_mem_seg d3 a mid _
                        (hsegleft.mem_iff.mp hx)
                      have hxlt : lt (ga d4 pi) (ga d3 mid) = true := by
                        rw [← hj4]
                        exact m4' k0 hj1 hj2
                      cases hl : lt (ga (pdqsortFunc lt fuel d4 (mid + 1) b limit1 wb1
                          wp1) qi) (ga d4 pi) with
                      | false => rfl
                      | true =>
                        have hcon := hswo.trans _ _ _ hl hxlt
                        rw [hcon] at hyle
                        exact absurd hyle (by simp)
                  · exact R1 pi qi (by omega) h2 h3
              · intro k hk
                rw [R2 k (by omega), L2' k (by omega), m6' k hk, hfr2d k hk]
            · next hlr =>
              have hLBr0 : 0 < mid + 1 → ∀ x ∈ seg d3 (mid + 1) b,
                  lt x (ga d3 (mid + 1 - 1)) = false := by
                intro _ x hx
                obtain ⟨k1, hk1, hk2, hk3, hk4⟩ := ga_of_mem_seg d3 (mid + 1) b x hx
                rw [show mid + 1 - 1 = mid from rfl, ← hk4]
                exact m5' k1 (by omega) hk2
              obtain ⟨R1, R2⟩ := ih d3 (mid + 1) b limit1 true true (by omega) (by omega)
                hLBr0
              have R1' : SortedRange lt d5 (mid + 1) b := R1
              have R2' : ∀ k, k < mid + 1 ∨ b ≤ k → d5[k]? = d3[k]? := R2
              have hd5p : d5.Perm d3 :=
                pdqsortFunc_perm lt fuel d3 (mid + 1) b limit1 true true
              have hd5len : d5.length = d.length := by rw [hd5p.length_eq, hd3len]
              have hseghead : seg d5 a mid = seg d3 a mid :=
                seg_eq_of_pointwise d3 d5 a mid (fun k _ hk2 => R2' k (Or.inl (by omega)))
              have hgd5m : ga d5 mid = ga d3 mid :=
                ga_eq_of_frame d3 d5 mid (R2' mid (Or.inl (by omega)))
              have hLBl : 0 < a → ∀ x ∈ seg d5 a mid, lt x (ga d5 (a - 1)) = false := by
                intro ha0 x hx
                rw [hseghead] at hx
                rw [ga_eq_of_frame d3 d5 (a - 1) (R2' (a - 1) (Or.inl (by omega)))]
                exact hd3LBleft ha0 x hx
              obtain ⟨L1, L2⟩ := ih d5 a mid limit1 wb1 wp1 (by omega) (by omega) hLBl
              have hsegright : (seg d5 (mid + 1) b).Perm (seg d3 (mid + 1) b) :=
                seg_perm_of_frame d3 d5 (mid + 1) b hd5p (by omega) R2'
              constructor
              · intro pi qi h1 h2 h3
                have hresfr : ∀ k, mid ≤ k →
                    (pdqsortFunc lt fuel d5 a mid limit1 wb1 wp1)[k]? = d5[k]? :=
                  fun k hk => L2 k (Or.inr hk)
                by_cases hq : qi ≤ mid
                · by_cases hqm : qi = mid
                  · rw [hqm, ga_eq_of_frame d5 _ mid (hresfr mid (le_refl mid)), hgd5m]
                    have hx : ga (pdqsortFunc lt fuel d5 a mid limit1 wb1 wp1) pi ∈
                        seg (pdqsortFunc lt fuel d5 a mid limit1 wb1 wp1) a mid :=
                      ga_mem_seg _ a mid pi h1 (by omega)
                        (by
                          rw [(pdqsortFunc_perm lt fuel d5 a mid limit1 wb1
                            wp1).length_eq, hd5len]
                          omega)
                    have hsegL : (seg (pdqsortFunc lt fuel d5 a mid limit1 wb1 wp1)
                        a mid).Perm (seg d5 a mid) :=
                      seg_perm_of_frame d5 _ a mid
                        (pdqsortFunc_perm lt fuel d5 a mid limit1 wb1 wp1) (by omega) L2
                    rw [hseghead] at hsegL
                    obtain ⟨k0, hj1, hj2, hj3, hj4⟩ := ga_of_mem_seg d3 a mid _
                      (hsegL.mem_iff.mp hx)
                    rw [← hj4]
                    exact hswo.asym _ _ (m4' k0 hj1 hj2)
                  · exact L1 pi qi h1 h2 (by omega)
                · by_cases hp : pi ≤ mid
                  · rw [ga_eq_of_frame d5 _ qi (hresfr qi (by omega))]
                    have hy : ga d5 qi ∈ seg d5 (mid + 1) b :=
                      ga_mem_seg d5 (mid + 1) b qi (by omega) h3 (by omega)
                    obtain ⟨k1, hk1, hk2, hk3, hk4⟩ := ga_of_mem_seg d3 (mid + 1) b _
                      (hsegright.mem_iff.mp hy)
                    have hyle : lt (ga d5 qi) (ga d3 mid) = false := by
                      rw [← hk4]
                      exact m5' k1 (by omega) hk2
                    by_cases hpm : pi = mid
                    · rw [hpm, ga_eq_of_frame d5 _ mid (hresfr mid (le_refl mid)), hgd5m]
                      exact hyle
                    · have hx : ga (pdqsortFunc lt fuel d5 a mid limit1 wb1 wp1) pi ∈
                          seg (pdqsortFunc lt fuel d5 a mid limit1 wb1 wp1) a mid :=
                        ga_mem_seg _ a mid pi h1 (by omega)
                          (by
                            rw [(pdqsortFunc_perm lt fuel d5 a mid limit1 wb1
                              wp1).length_eq, hd5len]
                            omega)
                      have hsegL : (seg (pdqsortFunc lt fuel d5 a mid limit1 wb1 wp1)
                          a mid).Perm (seg d5 a mid) :=
                        seg_perm_of_frame d5 _ a mid
                          (pdqsortFunc_perm lt fuel d5 a mid limit1 wb1 wp1) (by omega) L2
                      rw [hseghead] at hsegL
                      obtain ⟨k0, hj1, hj2, hj3, hj4⟩ := ga_of_mem_seg d3 a mid _
                        (hsegL.mem_iff.mp hx)
                      have hxlt : lt (ga (pdqsortFunc lt fuel d5 a mid limit1 wb1 wp1)
                          pi) (ga d3 mid) = true := by
                        rw [← hj4]
                        exact m4' k0 hj1 hj2
                      cases hl : lt (ga d5 qi)
                          (ga (pdqsortFunc lt fuel d5 a mid limit1 wb1 wp1) pi) with
                      | false => rfl
                      | true =>
                        have hcon := hswo.trans _ _ _ hl hxlt
                        rw [hcon] at hyle
                        exact absurd hyle (by simp)
                  · rw [ga_eq_of_frame d5 _ qi (hresfr qi (by omega)),
                      ga_eq_of_frame d5 _ pi (hresfr pi (by omega))]
                    exact R1' pi qi (by omega) h2 h3
              · intro k hk
                rw [L2 k (by omega), R2' k (by omega), m6' k hk, hfr2d k hk]

/-- The whole-slice sort pdqsort performs is sorted with respect to the
    comparison, for every strict-weak-order comparison. -/
theorem sortSlice_spec [Inhabited α] (lt : α → α → Bool) (hswo : IsSWO lt) (d : List α) :
    SortedRange lt (sortSlice lt d) 0 d.length := by
  unfold sortSlice
  exact (pdqsortFunc_spec lt hswo d.length d 0 d.length (bitsLen d.length) true true
    (le_refl _) (by omega) (fun h => absurd h (by omega))).1

theorem sortSlice_pairwise [Inhabited α] (lt : α → α → Bool) (hswo : IsSWO lt)
    (d : List α) : (sortSlice lt d).Pairwise (fun x y => lt y x = false) := by
  rw [List.pairwise_iff_getElem]
  intro i j hi hj hij
  have hlen : (sortSlice lt d).length = d.length := (sortSlice_perm lt d).length_eq
  have hs := sortSlice_spec lt hswo d i j (by omega) hij (by omega)
  rw [← ga_of_getElem? (sortSlice lt d) j _ (List.getElem?_eq_getElem hj),
    ← ga_of_getElem? (sortSlice lt d) i _ (List.getElem?_eq_getElem hi)]
  exact hs

instance : Inhabited GoTime := ⟨⟨0, 0⟩⟩

instance : Inhabited Metadata := ⟨⟨[], [], [], [], [], [], []⟩⟩

instance : Inhabited DocumentChunk := ⟨⟨0, [], [], 0, default, default, default⟩⟩

instance : Inhabited RankedChunk := ⟨⟨default, 0⟩⟩

/-- The descending-score comparison RankChunks hands to sort.Slice is a
    strict weak order. -/
theorem rankedDesc_swo : IsSWO (fun x y : RankedChunk => decide (y.score < x.score)) := by
  constructor
  · intro x y z hxy hyz
    simp only [decide_eq_true_eq] at hxy hyz ⊢
    exact lt_trans hyz hxy
  · intro x y z hxy hyz
    simp only [decide_eq_false_iff_not] at hxy hyz ⊢
    intro hzx
    exact absurd (lt_of_lt_of_le hzx (not_lt.mp hxy)) hyz
  · intro x
    simp

/-- C2 amended: for every query and chunk list, RankChunks returns a
    permutation of the scored chunks (one RankedChunk per input chunk,
    scored by calculateRelevanceScore) that is sorted by score in
    descending order; the sort used (sort.Slice's pdqsort) is however not
    stable, so chunks with equal scores need not keep their input order. -/
theorem rankChunks_sorted_perm (query : GoStr) (chunks : List DocumentChunk) :
    (RankChunks query chunks).Perm (scoredChunks query chunks) ∧
    (RankChunks query chunks).Pairwise (fun x y => y.score ≤ x.score) := by
  constructor
  · exact sortSlice_perm _ (scoredChunks query chunks)
  · have hpw := sortSlice_pairwise (fun x y : RankedChunk => decide (y.score < x.score))
      rankedDesc_swo (scoredChunks query chunks)
    unfold RankChunks
    exact hpw.imp (fun h => not_lt.mp (of_decide_eq_false h))

/-- Chunk with a given ordinal document id and content, for the stability
    scenario. -/
def mkNumberedChunk (n : Nat) (content : GoStr) : DocumentChunk :=
  ⟨n + 1, natDec n, content, 0, ⟨[], [], [], [], [], [], []⟩, zeroGoTime, zeroGoTime⟩

/-- Thirteen chunks: chunk 1 matches the query "x" (score 1), all others
    score 0.  Thirteen elements exceed sort.Slice's insertion-sort cutoff
    of twelve, so the pdqsort partition runs. -/
def exChunks13 : List DocumentChunk :=
  [mkNumberedChunk 0 ("y".toList), mkNumberedChunk 1 ("x".toList),
   mkNumberedChunk 2 ("y".toList), mkNumberedChunk 3 ("y".toList),
   mkNumberedChunk 4 ("y".toList), mkNumberedChunk 5 ("y".toList),
   mkNumberedChunk 6 ("y".toList), mkNumberedChunk 7 ("y".toList),
   mkNumberedChunk 8 ("y".toList), mkNumberedChunk 9 ("y".toList),
   mkNumberedChunk 10 ("y".toList), mkNumberedChunk 11 ("y".toList),
   mkNumberedChunk 12 ("y".toList)]

unseal Rat.mul Rat.inv Rat.add in
/-- C2 counterexample: on thirteen chunks, RankChunks produces the order
    1, 6, 2, 3, 4, 5, 0, 7, ..., 12: the partition swap moves chunk 6 in
    front of chunk 0 although both score 0 and chunk 0 precedes chunk 6 in
    the input, so the sort is not stable (the score-0 subsequence of the
    output differs from the score-0 subsequence of the scored input). -/
theorem rankChunks_not_stable :
    (RankChunks ("x".toList) exChunks13).map (fun rc => rc.chunk.documentID) =
      [natDec 1, natDec 6, natDec 2, natDec 3, natDec 4, natDec 5, natDec 0,
       natDec 7, natDec 8, natDec 9, natDec 10, natDec 11, natDec 12] ∧
    (RankChunks ("x".toList) exChunks13).filter (fun rc => decide (rc.score = 0)) ≠
      (scoredChunks ("x".toList) exChunks13).filter (fun rc => decide (rc.score = 0)) := by
  refine ⟨by decide, by decide⟩

end GoRag
